import Mathlib

/-!
Verification of the gotoken BPE tokenizer library.

This file gives a shallow embedding, in Lean 4, of the parts of the
gotoken repository that the verified claims are about:

* the Go standard-library helpers the splitters depend on
  (`utf8.DecodeRune`, `unicode.IsSpace` / `IsLetter` / `IsNumber`),
* the two pre-tokenizers (`GPT2Splitter` in package `internal` and
  `cl100KBaseSplitter` in package `cl100kbase`) with their
  hand-rolled `getMatchLength` state machines,
* the generation-time trie (`TrieNode`, `BuildTrie`, `insert`,
  `lookup`, `serialize` in package `gen`),
* the run-time serialized trie lookup (`serializedTrie.Lookup` in
  package `internal`),
* the byte-pair bootstrap table (`createPairList` in `gen` and the
  `pairsToToken` inflation in the encoding packages), and
* the BPE tokenizer facade (`Encode` / `Decode` / `Count`), whose
  source file is not part of the provided sources and is therefore
  modelled from the specification.

Bytes are modelled as `Nat` (values < 256 in all real inputs), byte
strings as `List Nat`, runes (Unicode code points) as `Nat`, and the
serialized trie as a `List Nat` of 32-bit words.  Loops of the Go
code become structurally recursive functions over an explicit fuel
argument; every call site passes enough fuel for the loop to run to
its real exit condition, which is proved where a theorem needs it.
-/

namespace Gotoken

/-! ## Go standard library: UTF-8 decoding

`utf8DecodeRune` is a faithful translation of Go's
`unicode/utf8.DecodeRune`: it decodes the first code point of a byte
slice and returns the code point together with the number of bytes
consumed.  Empty input gives `(RuneError, 0)`; any invalid encoding
gives `(RuneError, 1)`.  `RuneError` is U+FFFD, numerically `0xfffd`,
which is also the `replacementChar` both splitters substitute for
invalid input, so no separate substitution step is needed in the
model. -/

/-- Accept range for the second byte, from Go's `acceptRanges` table:
`0xE0` requires `A0..BF`, `0xED` requires `80..9F`, `0xF0` requires
`90..BF`, `0xF4` requires `80..8F`, every other multi-byte starter
requires `80..BF`. -/
def utf8AcceptRange (b0 : Nat) : Nat × Nat :=
  if b0 = 0xe0 then (0xa0, 0xbf)
  else if b0 = 0xed then (0x80, 0x9f)
  else if b0 = 0xf0 then (0x90, 0xbf)
  else if b0 = 0xf4 then (0x80, 0x8f)
  else (0x80, 0xbf)

/-- Go `utf8.DecodeRune`, returning `(rune, size)`. -/
def utf8DecodeRune : List Nat → Nat × Nat
  | [] => (0xfffd, 0)
  | b0 :: rest =>
    if b0 < 0x80 then (b0, 1)
    else if b0 < 0xc2 ∨ 0xf4 < b0 then (0xfffd, 1)
    else
      let lo := (utf8AcceptRange b0).1
      let hi := (utf8AcceptRange b0).2
      if b0 ≤ 0xdf then
        match rest with
        | [] => (0xfffd, 1)
        | b1 :: _ =>
          if lo ≤ b1 ∧ b1 ≤ hi then ((b0 % 0x20) * 0x40 + b1 % 0x40, 2)
          else (0xfffd, 1)
      else if b0 ≤ 0xef then
        match rest with
        | b1 :: b2 :: _ =>
          if lo ≤ b1 ∧ b1 ≤ hi then
            if 0x80 ≤ b2 ∧ b2 ≤ 0xbf then
              ((b0 % 0x10) * 0x1000 + (b1 % 0x40) * 0x40 + b2 % 0x40, 3)
            else (0xfffd, 1)
          else (0xfffd, 1)
        | _ => (0xfffd, 1)
      else
        match rest with
        | b1 :: b2 :: b3 :: _ =>
          if lo ≤ b1 ∧ b1 ≤ hi then
            if 0x80 ≤ b2 ∧ b2 ≤ 0xbf then
              if 0x80 ≤ b3 ∧ b3 ≤ 0xbf then
                ((b0 % 8) * 0x40000 + (b1 % 0x40) * 0x1000 +
                  (b2 % 0x40) * 0x40 + b3 % 0x40, 4)
              else (0xfffd, 1)
            else (0xfffd, 1)
          else (0xfffd, 1)
        | _ => (0xfffd, 1)

/-- The decoded size is `0` exactly on empty input, and otherwise lies
between `1` and the length of the input (and is at most 4). -/
theorem utf8DecodeRune_size (l : List Nat) :
    (l = [] → (utf8DecodeRune l).2 = 0) ∧
    (l ≠ [] → 1 ≤ (utf8DecodeRune l).2 ∧ (utf8DecodeRune l).2 ≤ l.length) := by
  constructor
  · rintro rfl; rfl
  · intro h
    match l with
    | b0 :: rest =>
      simp only [utf8DecodeRune]
      repeat' split
      all_goals simp +arith
/-! ## Go standard library: character classes

`unicodeIsSpace` is Go's `unicode.IsSpace` (the Unicode White_Space
property), transcribed in full — the property holds for exactly 25
code points.  `unicodeIsLetter` and `unicodeIsNumber` model Go's
`unicode.IsLetter` / `unicode.IsNumber` on the Latin-1 range
(`c ≤ 0xFF`), which is bit-exact with Go's Latin-1 fast path; above
Latin-1 they return `false`.  Every theorem below either does not
depend on the classifiers at all, or depends only on their Latin-1
values plus the fact that letters and numbers are disjoint from
whitespace, which holds for the full Go tables as well (the Unicode
categories L, N and the White_Space property are pairwise disjoint). -/

/-- Go `unicode.IsSpace` (Unicode White_Space property, exact). -/
def unicodeIsSpace (c : Nat) : Bool :=
  decide ((9 ≤ c ∧ c ≤ 13) ∨ c = 0x20 ∨ c = 0x85 ∨ c = 0xa0 ∨
    c = 0x1680 ∨ (0x2000 ≤ c ∧ c ≤ 0x200a) ∨ c = 0x2028 ∨ c = 0x2029 ∨
    c = 0x202f ∨ c = 0x205f ∨ c = 0x3000)

/-- Go `unicode.IsLetter`, exact on the Latin-1 range. -/
def unicodeIsLetter (c : Nat) : Bool :=
  decide ((0x41 ≤ c ∧ c ≤ 0x5a) ∨ (0x61 ≤ c ∧ c ≤ 0x7a) ∨ c = 0xaa ∨
    c = 0xb5 ∨ c = 0xba ∨ (0xc0 ≤ c ∧ c ≤ 0xd6) ∨ (0xd8 ≤ c ∧ c ≤ 0xf6) ∨
    (0xf8 ≤ c ∧ c ≤ 0xff))

/-- Go `unicode.IsNumber`, exact on the Latin-1 range. -/
def unicodeIsNumber (c : Nat) : Bool :=
  decide ((0x30 ≤ c ∧ c ≤ 0x39) ∨ c = 0xb2 ∨ c = 0xb3 ∨ c = 0xb9 ∨
    c = 0xbc ∨ c = 0xbd ∨ c = 0xbe)

/-- Whitespace code points are neither letters nor numbers. -/
theorem space_not_letter_number {c : Nat} (h : unicodeIsSpace c = true) :
    unicodeIsLetter c = false ∧ unicodeIsNumber c = false := by
  simp only [unicodeIsSpace, decide_eq_true_eq] at h
  simp only [unicodeIsLetter, unicodeIsNumber, decide_eq_false_iff_not]
  omega

/-! ## The splitter state machines

Both `getMatchLength` functions walk the input one rune at a time
with a `consume()` closure maintaining `c` (current rune), `pos`
(its byte offset) and `next` (the offset after it).  Each Go `for`
loop becomes a recursive function; the extra first argument is fuel,
always called with `input.length`, which is enough for the loop to
reach its real exit condition because every iteration moves `pos`
forward by at least one byte. -/

/-- `decodeAt input pos` is Go's `utf8.DecodeRune(input[pos:])`. -/
def decodeAt (input : List Nat) (pos : Nat) : Nat × Nat :=
  utf8DecodeRune (input.drop pos)

/-- The loop `for pos < cc { consume(); if !P(c) { break } }; return pos`
shared by the letter, number and "other" branches. -/
def runLoop (P : Nat → Bool) (input : List Nat) : Nat → Nat → Nat → Nat
  | 0, pos, _ => pos
  | fuel + 1, pos, next =>
    if pos < input.length then
      let d := decodeAt input next
      if P d.1 then runLoop P input fuel next (next + d.2) else next
    else pos

/-- The loop `for pos < cc && unicode.IsSpace(c) { consume() }`,
returning the final `(pos, c)`. -/
def wsLoop (input : List Nat) : Nat → Nat → Nat → Nat → Nat × Nat
  | 0, pos, _, c => (pos, c)
  | fuel + 1, pos, next, c =>
    if pos < input.length ∧ unicodeIsSpace c = true then
      let d := decodeAt input next
      wsLoop input fuel next (next + d.2) d.1
    else (pos, c)

namespace GPT2

/-- The contraction switch of the GPT2 `getMatchLength`
(`'s|'t|'re|'ve|'m|'ll|'d`, case-sensitive); `none` means fall
through.  Byte values: `s t m d r v l e` are
`115 116 109 100 114 118 108 101`. -/
def contraction (input : List Nat) : Option Nat :=
  match input with
  | _ :: b1 :: rest =>
    if b1 = 115 ∨ b1 = 116 ∨ b1 = 109 ∨ b1 = 100 then some 2
    else if b1 = 114 ∨ b1 = 118 then
      match rest with
      | b2 :: _ => if b2 = 101 then some 3 else none
      | [] => none
    else if b1 = 108 then
      match rest with
      | b2 :: _ => if b2 = 108 then some 3 else none
      | [] => none
    else none
  | _ => none

/-- `getMatchLength` of `internal/gpt2Splitter.go`: length in bytes of
the next GPT2 pre-token of `input`.  `39` is `'\''`, `32` is `' '`. -/
def getMatchLength (input : List Nat) : Nat :=
  let cc := input.length
  let d0 := decodeAt input 0
  match (if d0.1 = 39 ∧ 2 ≤ cc then contraction input else none) with
  | some r => r
  | none =>
    let s1 := if d0.1 = 32 ∧ 2 ≤ cc then
                let d1 := decodeAt input d0.2
                (d1.1, d0.2, d0.2 + d1.2)
              else (d0.1, 0, d0.2)
    let c := s1.1
    let pos := s1.2.1
    let next := s1.2.2
    if unicodeIsLetter c then runLoop unicodeIsLetter input cc pos next
    else if unicodeIsNumber c then runLoop unicodeIsNumber input cc pos next
    else if ¬ unicodeIsSpace c then
      runLoop (fun r => !(unicodeIsSpace r || unicodeIsLetter r || unicodeIsNumber r))
        input cc pos next
    else
      let w := wsLoop input cc pos next c
      if 2 ≤ w.1 ∧ w.1 < cc ∧ ¬ unicodeIsSpace w.2 then w.1 - 1 else w.1

end GPT2

/-- The driver loop shared by both splitters: repeatedly take the next
match and advance by its length.  Fuel `input.length` suffices since
every match is at least one byte. -/
def splitWith (m : List Nat → Nat) : Nat → List Nat → List (List Nat)
  | 0, _ => []
  | fuel + 1, input =>
    if input.length = 0 then []
    else
      let n := m input
      input.take n :: splitWith m fuel (input.drop n)

/-- `internal.GPT2Splitter`. -/
def GPT2Splitter (input : List Nat) : List (List Nat) :=
  splitWith GPT2.getMatchLength input.length input

namespace CL100K

/-- The contraction switch of the cl100k `getMatchLength`
(`(?i:'s|'t|'re|'ve|'m|'ll|'d)`, case-insensitive).  Byte values:
`s t m d S T M D` are `115 116 109 100 83 84 77 68`; `r v R V` are
`114 118 82 86`; `l L` are `108 76`; `e E` are `101 69`. -/
def contraction (input : List Nat) : Option Nat :=
  match input with
  | _ :: b1 :: rest =>
    if b1 = 115 ∨ b1 = 116 ∨ b1 = 109 ∨ b1 = 100 ∨
        b1 = 83 ∨ b1 = 84 ∨ b1 = 77 ∨ b1 = 68 then some 2
    else if b1 = 114 ∨ b1 = 118 ∨ b1 = 82 ∨ b1 = 86 then
      match rest with
      | b2 :: _ => if b2 = 101 ∨ b2 = 69 then some 3 else none
      | [] => none
    else if b1 = 108 ∨ b1 = 76 then
      match rest with
      | b2 :: _ => if b2 = 108 ∨ b2 = 76 then some 3 else none
      | [] => none
    else none
  | _ => none

/-- The "other run" loop
`for pos < cc { consume(); if IsSpace||IsLetter||IsNumber { break } }`,
returning the final `(pos, next, c)` state, which the trailing
`[\r\n]*` absorption loop continues from. -/
def otherLoop (input : List Nat) : Nat → Nat → Nat → Nat → Nat × Nat × Nat
  | 0, pos, next, c => (pos, next, c)
  | fuel + 1, pos, next, c =>
    if pos < input.length then
      let d := decodeAt input next
      if unicodeIsSpace d.1 || unicodeIsLetter d.1 || unicodeIsNumber d.1 then
        (next, next + d.2, d.1)
      else otherLoop input fuel next (next + d.2) d.1
    else (pos, next, c)

/-- The loop `for pos < cc && (c == 13 ∨ c == 10) { consume() }`
absorbing trailing CR/LF after an "other" run. -/
def crlfLoop (input : List Nat) : Nat → Nat → Nat → Nat → Nat
  | 0, pos, _, _ => pos
  | fuel + 1, pos, next, c =>
    if pos < input.length ∧ (c = 13 ∨ c = 10) then
      let d := decodeAt input next
      crlfLoop input fuel next (next + d.2) d.1
    else pos

/-- The `\p{N}{1,3}` loop:
`for pos < cc && count < 3 { consume(); count++; if !IsNumber(c) { break } }`. -/
def numLoop (input : List Nat) : Nat → Nat → Nat → Nat → Nat
  | 0, pos, _, _ => pos
  | fuel + 1, pos, next, count =>
    if pos < input.length ∧ count < 3 then
      let d := decodeAt input next
      if unicodeIsNumber d.1 then numLoop input fuel next (next + d.2) (count + 1)
      else next
    else pos

/-- `getMatchLength` of `cl100kbase/splitter.go`: length in bytes of
the next cl100k pre-token of `input`.  `39` is `'\''`, `32` is `' '`,
`13` is CR, `10` is LF; the peek default `0xfffd` is
`replacementChar`. -/
def getMatchLength (input : List Nat) : Nat :=
  let cc := input.length
  let d0 := decodeAt input 0
  match (if d0.1 = 39 ∧ 2 ≤ cc then contraction input else none) with
  | some r => r
  | none =>
    let isL := unicodeIsLetter d0.1
    let isN := unicodeIsNumber d0.1
    let peek := if d0.2 < cc then (decodeAt input d0.2).1 else 0xfffd
    if isL = true ∨ (2 ≤ cc ∧ isN = false ∧ d0.1 ≠ 13 ∧ d0.1 ≠ 10 ∧
        unicodeIsLetter peek = true) then
      runLoop unicodeIsLetter input cc 0 d0.2
    else if isN then
      numLoop input cc 0 d0.2 0
    else
      let s1 := if d0.1 = 32 ∧ 2 ≤ cc then
                  let d1 := decodeAt input d0.2
                  (d1.1, d0.2, d0.2 + d1.2)
                else (d0.1, 0, d0.2)
      let c := s1.1
      let pos := s1.2.1
      let next := s1.2.2
      if ¬ unicodeIsSpace c ∧ ¬ unicodeIsLetter c ∧ ¬ unicodeIsNumber c then
        let t := otherLoop input cc pos next c
        crlfLoop input cc t.1 t.2.1 t.2.2
      else
        let w := wsLoop input cc pos next c
        if 2 ≤ w.1 ∧ w.1 < cc ∧ ¬ unicodeIsSpace w.2 then w.1 - 1 else w.1

end CL100K

/-- `cl100kbase.cl100KBaseSplitter`. -/
def cl100KBaseSplitter (input : List Nat) : List (List Nat) :=
  splitWith CL100K.getMatchLength input.length input

/-! ## Splitter progress and coverage -/

theorem decodeAt_size_le (input : List Nat) (pos : Nat) :
    (decodeAt input pos).2 + pos ≤ input.length ∨ input.length ≤ pos := by
  rcases Nat.lt_or_ge pos input.length with h | h
  · left
    have hne : input.drop pos ≠ [] := by
      simp [List.drop_eq_nil_iff_le]; omega
    have := (utf8DecodeRune_size (input.drop pos)).2 hne
    have hlen : (input.drop pos).length = input.length - pos := by simp
    simp only [decodeAt]
    omega
  · right; exact h

theorem decodeAt_size_pos {input : List Nat} {pos : Nat}
    (h : pos < input.length) : 1 ≤ (decodeAt input pos).2 := by
  have hne : input.drop pos ≠ [] := by
    simp [List.drop_eq_nil_iff_le]; omega
  exact ((utf8DecodeRune_size (input.drop pos)).2 hne).1

theorem decodeAt_next_le {input : List Nat} {pos : Nat}
    (h : pos ≤ input.length) : pos + (decodeAt input pos).2 ≤ input.length := by
  rcases decodeAt_size_le input pos with h1 | h1
  · omega
  · have hnil : input.drop pos = [] := by simp [List.drop_eq_nil_iff_le]; omega
    have := (utf8DecodeRune_size (input.drop pos)).1 hnil
    simp only [decodeAt, this]
    omega

theorem runLoop_le (P : Nat → Bool) (input : List Nat) :
    ∀ fuel pos next, pos ≤ next → next ≤ input.length →
      runLoop P input fuel pos next ≤ input.length := by
  intro fuel
  induction fuel with
  | zero => intro pos next h1 h2; simpa [runLoop] using le_trans h1 h2
  | succ n ih =>
    intro pos next h1 h2
    simp only [runLoop]
    split
    · split
      · exact ih next _ (Nat.le_add_right _ _) (decodeAt_next_le h2)
      · exact h2
    · omega

theorem runLoop_ge (P : Nat → Bool) (input : List Nat) :
    ∀ fuel pos next, pos ≤ next → pos ≤ runLoop P input fuel pos next := by
  intro fuel
  induction fuel with
  | zero => intro pos next h1; simp [runLoop]
  | succ n ih =>
    intro pos next h1
    simp only [runLoop]
    split
    · split
      · exact le_trans h1 (ih next _ (Nat.le_add_right _ _))
      · exact h1
    · exact le_refl _

theorem runLoop_ge_next (P : Nat → Bool) (input : List Nat) (fuel pos next : Nat)
    (h : pos < input.length) :
    next ≤ runLoop P input (fuel + 1) pos next := by
  simp only [runLoop]
  rw [if_pos h]
  split
  · exact runLoop_ge P input fuel next _ (Nat.le_add_right _ _)
  · exact le_refl _

theorem wsLoop_le (input : List Nat) :
    ∀ fuel pos next c, pos ≤ next → next ≤ input.length →
      (wsLoop input fuel pos next c).1 ≤ input.length := by
  intro fuel
  induction fuel with
  | zero => intro pos next c h1 h2; simpa [wsLoop] using le_trans h1 h2
  | succ n ih =>
    intro pos next c h1 h2
    simp only [wsLoop]
    split
    · exact ih next _ _ (Nat.le_add_right _ _) (decodeAt_next_le h2)
    · exact le_trans h1 h2

theorem wsLoop_ge (input : List Nat) :
    ∀ fuel pos next c, pos ≤ next → pos ≤ (wsLoop input fuel pos next c).1 := by
  intro fuel
  induction fuel with
  | zero => intro pos next c h1; simp [wsLoop]
  | succ n ih =>
    intro pos next c h1
    simp only [wsLoop]
    split
    · exact le_trans h1 (ih next _ _ (Nat.le_add_right _ _))
    · exact le_refl _

theorem wsLoop_ge_next (input : List Nat) (fuel pos next c : Nat)
    (h : pos < input.length) (hc : unicodeIsSpace c = true) :
    next ≤ (wsLoop input (fuel + 1) pos next c).1 := by
  simp only [wsLoop]
  rw [if_pos ⟨h, hc⟩]
  exact wsLoop_ge input fuel next _ _ (Nat.le_add_right _ _)

theorem CL100K.numLoop_le (input : List Nat) :
    ∀ fuel pos next count, pos ≤ next → next ≤ input.length →
      CL100K.numLoop input fuel pos next count ≤ input.length := by
  intro fuel
  induction fuel with
  | zero => intro pos next count h1 h2; simpa [CL100K.numLoop] using le_trans h1 h2
  | succ n ih =>
    intro pos next count h1 h2
    simp only [CL100K.numLoop]
    split
    · split
      · exact ih next _ _ (Nat.le_add_right _ _) (decodeAt_next_le h2)
      · exact h2
    · exact le_trans h1 h2

theorem CL100K.numLoop_ge (input : List Nat) :
    ∀ fuel pos next count, pos ≤ next →
      pos ≤ CL100K.numLoop input fuel pos next count := by
  intro fuel
  induction fuel with
  | zero => intro pos next count h1; simp [CL100K.numLoop]
  | succ n ih =>
    intro pos next count h1
    simp only [CL100K.numLoop]
    split
    · split
      · exact le_trans h1 (ih next _ _ (Nat.le_add_right _ _))
      · exact h1
    · exact le_refl _

theorem CL100K.numLoop_ge_next (input : List Nat) (fuel pos next count : Nat)
    (h : pos < input.length) (hcount : count < 3) :
    next ≤ CL100K.numLoop input (fuel + 1) pos next count := by
  simp only [CL100K.numLoop]
  rw [if_pos ⟨h, hcount⟩]
  split
  · exact CL100K.numLoop_ge input fuel next _ _ (Nat.le_add_right _ _)
  · exact le_refl _

theorem CL100K.otherLoop_state (input : List Nat) :
    ∀ fuel pos next c, pos ≤ next → next ≤ input.length →
      pos ≤ (CL100K.otherLoop input fuel pos next c).1 ∧
      (CL100K.otherLoop input fuel pos next c).1 ≤
        (CL100K.otherLoop input fuel pos next c).2.1 ∧
      (CL100K.otherLoop input fuel pos next c).2.1 ≤ input.length := by
  intro fuel
  induction fuel with
  | zero => intro pos next c h1 h2; simp [CL100K.otherLoop]; omega
  | succ n ih =>
    intro pos next c h1 h2
    simp only [CL100K.otherLoop]
    split
    · split
      · exact ⟨h1, Nat.le_add_right _ _, decodeAt_next_le h2⟩
      · have := ih next (next + (decodeAt input next).2) (decodeAt input next).1
          (Nat.le_add_right _ _) (decodeAt_next_le h2)
        exact ⟨le_trans h1 this.1, this.2.1, this.2.2⟩
    · exact ⟨le_refl _, h1, h2⟩

theorem CL100K.otherLoop_ge_next (input : List Nat) (fuel pos next c : Nat)
    (h : pos < input.length) (hn : next ≤ input.length) :
    next ≤ (CL100K.otherLoop input (fuel + 1) pos next c).1 := by
  simp only [CL100K.otherLoop]
  rw [if_pos h]
  split
  · exact le_refl _
  · exact (CL100K.otherLoop_state input fuel next (next + (decodeAt input next).2)
      (decodeAt input next).1 (Nat.le_add_right _ _) (decodeAt_next_le hn)).1

theorem CL100K.crlfLoop_le (input : List Nat) :
    ∀ fuel pos next c, pos ≤ next → next ≤ input.length →
      CL100K.crlfLoop input fuel pos next c ≤ input.length := by
  intro fuel
  induction fuel with
  | zero => intro pos next c h1 h2; simpa [CL100K.crlfLoop] using le_trans h1 h2
  | succ n ih =>
    intro pos next c h1 h2
    simp only [CL100K.crlfLoop]
    split
    · exact ih next _ _ (Nat.le_add_right _ _) (decodeAt_next_le h2)
    · exact le_trans h1 h2

theorem CL100K.crlfLoop_ge (input : List Nat) :
    ∀ fuel pos next c, pos ≤ next →
      pos ≤ CL100K.crlfLoop input fuel pos next c := by
  intro fuel
  induction fuel with
  | zero => intro pos next c h1; simp [CL100K.crlfLoop]
  | succ n ih =>
    intro pos next c h1
    simp only [CL100K.crlfLoop]
    split
    · exact le_trans h1 (ih next _ _ (Nat.le_add_right _ _))
    · exact le_refl _

/-- The GPT2 contraction branch only fires with enough input. -/
theorem GPT2.contraction_cases_gpt2 {input : List Nat} {r : Nat}
    (h : GPT2.contraction input = some r) :
    (r = 2 ∧ 2 ≤ input.length) ∨ (r = 3 ∧ 3 ≤ input.length) := by
  match input with
  | [] => simp [GPT2.contraction] at h
  | [_] => simp [GPT2.contraction] at h
  | b0 :: b1 :: rest =>
    cases rest with
    | nil =>
      simp only [GPT2.contraction] at h
      split at h
      · left
        exact ⟨(Option.some.inj h).symm, by simp only [List.length_cons]; omega⟩
      · split at h
        · simp at h
        · split at h
          · simp at h
          · simp at h
    | cons b2 t =>
      simp only [GPT2.contraction] at h
      split at h
      · left
        exact ⟨(Option.some.inj h).symm, by simp only [List.length_cons]; omega⟩
      · split at h
        · split at h
          · right
            exact ⟨(Option.some.inj h).symm, by simp only [List.length_cons]; omega⟩
          · simp at h
        · split at h
          · split at h
            · right
              exact ⟨(Option.some.inj h).symm, by simp only [List.length_cons]; omega⟩
            · simp at h
          · simp at h

/-- The CL100K contraction branch only fires with enough input. -/
theorem CL100K.contraction_cases_cl100k {input : List Nat} {r : Nat}
    (h : CL100K.contraction input = some r) :
    (r = 2 ∧ 2 ≤ input.length) ∨ (r = 3 ∧ 3 ≤ input.length) := by
  match input with
  | [] => simp [CL100K.contraction] at h
  | [_] => simp [CL100K.contraction] at h
  | b0 :: b1 :: rest =>
    cases rest with
    | nil =>
      simp only [CL100K.contraction] at h
      split at h
      · left
        exact ⟨(Option.some.inj h).symm, by simp only [List.length_cons]; omega⟩
      · split at h
        · simp at h
        · split at h
          · simp at h
          · simp at h
    | cons b2 t =>
      simp only [CL100K.contraction] at h
      split at h
      · left
        exact ⟨(Option.some.inj h).symm, by simp only [List.length_cons]; omega⟩
      · split at h
        · split at h
          · right
            exact ⟨(Option.some.inj h).symm, by simp only [List.length_cons]; omega⟩
          · simp at h
        · split at h
          · split at h
            · right
              exact ⟨(Option.some.inj h).symm, by simp only [List.length_cons]; omega⟩
            · simp at h
          · simp at h

/-- Bounds for the shared whitespace give-back epilogue. -/
theorem wsResult_bounds (cc : Nat) (w : Nat × Nat) (h1 : 1 ≤ w.1) (h2 : w.1 ≤ cc) :
    1 ≤ (if 2 ≤ w.1 ∧ w.1 < cc ∧ ¬ unicodeIsSpace w.2 then w.1 - 1 else w.1) ∧
    (if 2 ≤ w.1 ∧ w.1 < cc ∧ ¬ unicodeIsSpace w.2 then w.1 - 1 else w.1) ≤ cc := by
  split
  · next hc =>
    obtain ⟨a1, a2, a3⟩ := hc
    omega
  · omega

/-- Progress and boundedness for the GPT2 matcher: a non-empty input
always yields a match of between 1 and `input.length` bytes. -/
theorem GPT2.getMatchLength_bounds_gpt2 (input : List Nat) (h : input ≠ []) :
    1 ≤ GPT2.getMatchLength input ∧ GPT2.getMatchLength input ≤ input.length := by
  have hlen : 1 ≤ input.length := List.length_pos.mpr h
  have hd0 : 1 ≤ (decodeAt input 0).2 := decodeAt_size_pos (by omega)
  have hd0le : (decodeAt input 0).2 ≤ input.length := by
    have := @decodeAt_next_le input 0 (by omega)
    omega
  obtain ⟨fuel, hfuel⟩ : ∃ n, input.length = n + 1 := ⟨input.length - 1, by omega⟩
  simp only [GPT2.getMatchLength]
  split
  · next r heq =>
    split at heq
    · rcases GPT2.contraction_cases_gpt2 heq with ⟨h2, h3⟩ | ⟨h2, h3⟩ <;> omega
    · simp at heq
  · set d0 := decodeAt input 0 with hd0def
    by_cases hsp : d0.1 = 32 ∧ 2 ≤ input.length
    · -- a leading space was consumed: pos = d0.2 ≥ 1
      rw [if_pos hsp]
      dsimp only
      set d1 := decodeAt input d0.2 with hd1def
      have hnext : d0.2 + d1.2 ≤ input.length := decodeAt_next_le hd0le
      have hposnext : d0.2 ≤ d0.2 + d1.2 := Nat.le_add_right _ _
      have hws := wsLoop_ge input input.length d0.2 (d0.2 + d1.2) d1.1 hposnext
      have hwle := wsLoop_le input input.length d0.2 (d0.2 + d1.2) d1.1 hposnext hnext
      split
      · exact ⟨le_trans hd0 (runLoop_ge _ input _ _ _ hposnext),
          runLoop_le _ input _ _ _ hposnext hnext⟩
      · split
        · exact ⟨le_trans hd0 (runLoop_ge _ input _ _ _ hposnext),
            runLoop_le _ input _ _ _ hposnext hnext⟩
        · split
          · exact ⟨le_trans hd0 (runLoop_ge _ input _ _ _ hposnext),
              runLoop_le _ input _ _ _ hposnext hnext⟩
          · exact wsResult_bounds input.length _ (le_trans hd0 hws) hwle
    · rw [if_neg hsp]
      dsimp only
      have hge1 : ∀ P : Nat → Bool, d0.2 ≤ runLoop P input input.length 0 d0.2 := by
        intro P
        rw [hfuel]
        exact runLoop_ge_next P input fuel 0 d0.2 (by omega)
      have hwle := wsLoop_le input input.length 0 d0.2 d0.1 (Nat.zero_le _) hd0le
      split
      · exact ⟨le_trans hd0 (hge1 _), runLoop_le _ input _ _ _ (Nat.zero_le _) hd0le⟩
      · split
        · exact ⟨le_trans hd0 (hge1 _), runLoop_le _ input _ _ _ (Nat.zero_le _) hd0le⟩
        · split
          · exact ⟨le_trans hd0 (hge1 _), runLoop_le _ input _ _ _ (Nat.zero_le _) hd0le⟩
          · next hnsp =>
            have hsp2 : unicodeIsSpace d0.1 = true := by
              by_contra hcon
              simp [hcon] at hnsp
            have hws : d0.2 ≤ (wsLoop input input.length 0 d0.2 d0.1).1 := by
              rw [hfuel]
              exact wsLoop_ge_next input fuel 0 d0.2 d0.1 (by omega) hsp2
            exact wsResult_bounds input.length _ (le_trans hd0 hws) hwle

/-- Progress and boundedness for the cl100k matcher. -/
theorem CL100K.getMatchLength_bounds_cl100k (input : List Nat) (h : input ≠ []) :
    1 ≤ CL100K.getMatchLength input ∧
      CL100K.getMatchLength input ≤ input.length := by
  have hlen : 1 ≤ input.length := List.length_pos.mpr h
  have hd0 : 1 ≤ (decodeAt input 0).2 := decodeAt_size_pos (by omega)
  have hd0le : (decodeAt input 0).2 ≤ input.length := by
    have := @decodeAt_next_le input 0 (by omega)
    omega
  obtain ⟨fuel, hfuel⟩ : ∃ n, input.length = n + 1 := ⟨input.length - 1, by omega⟩
  simp only [CL100K.getMatchLength]
  split
  · next r heq =>
    split at heq
    · rcases CL100K.contraction_cases_cl100k heq with ⟨h2, h3⟩ | ⟨h2, h3⟩ <;> omega
    · simp at heq
  · set d0 := decodeAt input 0 with hd0def
    -- the `peek` helper is itself an if-then-else; resolve it first, then
    -- the two resulting goals are handled by the same branch analysis
    by_cases hpk : d0.2 < input.length
    · rw [if_pos hpk]
      split
      · -- letter branch, starting at pos = 0
        have hge : d0.2 ≤ runLoop unicodeIsLetter input input.length 0 d0.2 := by
          rw [hfuel]
          exact runLoop_ge_next unicodeIsLetter input fuel 0 d0.2 (by omega)
        exact ⟨le_trans hd0 hge, runLoop_le _ input _ _ _ (Nat.zero_le _) hd0le⟩
      · next hLB =>
        split
        · -- number branch, starting at pos = 0, count = 0
          have hge : d0.2 ≤ CL100K.numLoop input input.length 0 d0.2 0 := by
            rw [hfuel]
            exact CL100K.numLoop_ge_next input fuel 0 d0.2 0 (by omega) (by omega)
          exact ⟨le_trans hd0 hge, CL100K.numLoop_le input _ _ _ _ (Nat.zero_le _) hd0le⟩
        · next hNB =>
          by_cases hsp : d0.1 = 32 ∧ 2 ≤ input.length
          · rw [if_pos hsp]
            dsimp only
            set d1 := decodeAt input d0.2 with hd1def
            have hnext : d0.2 + d1.2 ≤ input.length := decodeAt_next_le hd0le
            have hposnext : d0.2 ≤ d0.2 + d1.2 := Nat.le_add_right _ _
            have hws := wsLoop_ge input input.length d0.2 (d0.2 + d1.2) d1.1 hposnext
            have hwle := wsLoop_le input input.length d0.2 (d0.2 + d1.2) d1.1 hposnext hnext
            split
            · -- "other" run then CR/LF absorption, from pos = d0.2 ≥ 1
              have hst := CL100K.otherLoop_state input input.length d0.2
                (d0.2 + d1.2) d1.1 hposnext hnext
              have hcr := CL100K.crlfLoop_ge input input.length _ _
                (CL100K.otherLoop input input.length d0.2 (d0.2 + d1.2) d1.1).2.2 hst.2.1
              have hcrle := CL100K.crlfLoop_le input input.length _ _
                (CL100K.otherLoop input input.length d0.2 (d0.2 + d1.2) d1.1).2.2 hst.2.1 hst.2.2
              omega
            · exact wsResult_bounds input.length _ (le_trans hd0 hws) hwle
          · rw [if_neg hsp]
            dsimp only
            have hwle := wsLoop_le input input.length 0 d0.2 d0.1 (Nat.zero_le _) hd0le
            split
            · -- "other" run from pos = 0
              have hge0 : d0.2 ≤ (CL100K.otherLoop input input.length 0 d0.2 d0.1).1 := by
                rw [hfuel]
                exact CL100K.otherLoop_ge_next input fuel 0 d0.2 d0.1 (by omega) hd0le
              have hst := CL100K.otherLoop_state input input.length 0 d0.2 d0.1
                (Nat.zero_le _) hd0le
              have hcr := CL100K.crlfLoop_ge input input.length _ _
                (CL100K.otherLoop input input.length 0 d0.2 d0.1).2.2 hst.2.1
              have hcrle := CL100K.crlfLoop_le input input.length _ _
                (CL100K.otherLoop input input.length 0 d0.2 d0.1).2.2 hst.2.1 hst.2.2
              omega
            · next hnsp =>
              have hL : unicodeIsLetter d0.1 = false := by
                rcases Bool.eq_false_or_eq_true (unicodeIsLetter d0.1) with hh | hh
                · exact absurd (Or.inl hh) hLB
                · exact hh
              have hN : unicodeIsNumber d0.1 = false := by
                rcases Bool.eq_false_or_eq_true (unicodeIsNumber d0.1) with hh | hh
                · exact absurd hh hNB
                · exact hh
              have hsp2 : unicodeIsSpace d0.1 = true := by
                rcases Bool.eq_false_or_eq_true (unicodeIsSpace d0.1) with hh | hh
                · exact hh
                · exact absurd ⟨by simp [hh], by simp [hL], by simp [hN]⟩ hnsp
              have hws : d0.2 ≤ (wsLoop input input.length 0 d0.2 d0.1).1 := by
                rw [hfuel]
                exact wsLoop_ge_next input fuel 0 d0.2 d0.1 (by omega) hsp2
              exact wsResult_bounds input.length _ (le_trans hd0 hws) hwle
    · rw [if_neg hpk]
      split
      · -- letter branch, starting at pos = 0
        have hge : d0.2 ≤ runLoop unicodeIsLetter input input.length 0 d0.2 := by
          rw [hfuel]
          exact runLoop_ge_next unicodeIsLetter input fuel 0 d0.2 (by omega)
        exact ⟨le_trans hd0 hge, runLoop_le _ input _ _ _ (Nat.zero_le _) hd0le⟩
      · next hLB =>
        split
        · -- number branch, starting at pos = 0, count = 0
          have hge : d0.2 ≤ CL100K.numLoop input input.length 0 d0.2 0 := by
            rw [hfuel]
            exact CL100K.numLoop_ge_next input fuel 0 d0.2 0 (by omega) (by omega)
          exact ⟨le_trans hd0 hge, CL100K.numLoop_le input _ _ _ _ (Nat.zero_le _) hd0le⟩
        · next hNB =>
          by_cases hsp : d0.1 = 32 ∧ 2 ≤ input.length
          · rw [if_pos hsp]
            dsimp only
            set d1 := decodeAt input d0.2 with hd1def
            have hnext : d0.2 + d1.2 ≤ input.length := decodeAt_next_le hd0le
            have hposnext : d0.2 ≤ d0.2 + d1.2 := Nat.le_add_right _ _
            have hws := wsLoop_ge input input.length d0.2 (d0.2 + d1.2) d1.1 hposnext
            have hwle := wsLoop_le input input.length d0.2 (d0.2 + d1.2) d1.1 hposnext hnext
            split
            · -- "other" run then CR/LF absorption, from pos = d0.2 ≥ 1
              have hst := CL100K.otherLoop_state input input.length d0.2
                (d0.2 + d1.2) d1.1 hposnext hnext
              have hcr := CL100K.crlfLoop_ge input input.length _ _
                (CL100K.otherLoop input input.length d0.2 (d0.2 + d1.2) d1.1).2.2 hst.2.1
              have hcrle := CL100K.crlfLoop_le input input.length _ _
                (CL100K.otherLoop input input.length d0.2 (d0.2 + d1.2) d1.1).2.2 hst.2.1 hst.2.2
              omega
            · exact wsResult_bounds input.length _ (le_trans hd0 hws) hwle
          · rw [if_neg hsp]
            dsimp only
            have hwle := wsLoop_le input input.length 0 d0.2 d0.1 (Nat.zero_le _) hd0le
            split
            · -- "other" run from pos = 0
              have hge0 : d0.2 ≤ (CL100K.otherLoop input input.length 0 d0.2 d0.1).1 := by
                rw [hfuel]
                exact CL100K.otherLoop_ge_next input fuel 0 d0.2 d0.1 (by omega) hd0le
              have hst := CL100K.otherLoop_state input input.length 0 d0.2 d0.1
                (Nat.zero_le _) hd0le
              have hcr := CL100K.crlfLoop_ge input input.length _ _
                (CL100K.otherLoop input input.length 0 d0.2 d0.1).2.2 hst.2.1
              have hcrle := CL100K.crlfLoop_le input input.length _ _
                (CL100K.otherLoop input input.length 0 d0.2 d0.1).2.2 hst.2.1 hst.2.2
              omega
            · next hnsp =>
              have hL : unicodeIsLetter d0.1 = false := by
                rcases Bool.eq_false_or_eq_true (unicodeIsLetter d0.1) with hh | hh
                · exact absurd (Or.inl hh) hLB
                · exact hh
              have hN : unicodeIsNumber d0.1 = false := by
                rcases Bool.eq_false_or_eq_true (unicodeIsNumber d0.1) with hh | hh
                · exact absurd hh hNB
                · exact hh
              have hsp2 : unicodeIsSpace d0.1 = true := by
                rcases Bool.eq_false_or_eq_true (unicodeIsSpace d0.1) with hh | hh
                · exact hh
                · exact absurd ⟨by simp [hh], by simp [hL], by simp [hN]⟩ hnsp
              have hws : d0.2 ≤ (wsLoop input input.length 0 d0.2 d0.1).1 := by
                rw [hfuel]
                exact wsLoop_ge_next input fuel 0 d0.2 d0.1 (by omega) hsp2
              exact wsResult_bounds input.length _ (le_trans hd0 hws) hwle

/-- Coverage for the driver loop: with enough fuel and a matcher that
always makes progress, the emitted substrings concatenate back to the
input. -/
theorem splitWith_join (m : List Nat → Nat)
    (hm : ∀ l, l ≠ [] → 1 ≤ m l) :
    ∀ fuel input, input.length ≤ fuel → (splitWith m fuel input).join = input := by
  intro fuel
  induction fuel with
  | zero =>
    intro input hle
    have : input = [] := List.length_eq_zero.mp (by omega)
    simp [splitWith, this]
  | succ n ih =>
    intro input hle
    simp only [splitWith]
    split
    · next hz => exact (List.length_eq_zero.mp hz).symm
    · next hz =>
      have hne : input ≠ [] := fun hcon => hz (by simp [hcon])
      have h1 := hm input hne
      have hdrop : (input.drop (m input)).length ≤ n := by
        simp only [List.length_drop]
        omega
      simp only [List.join_cons, ih _ hdrop, List.take_append_drop]

/-! ## Rune boundaries

`runeBoundary input k` is the byte offset just after the `k`-th code
point of `input`, decoding greedily from offset 0 exactly as the
splitters' `consume()` does.  Both splitter state machines only ever
hold offsets of this form. -/

def runeBoundary (input : List Nat) : Nat → Nat
  | 0 => 0
  | k + 1 =>
    let b := runeBoundary input k
    b + (decodeAt input b).2

/-- The code point starting at the `k`-th rune boundary. -/
def runeAt (input : List Nat) (k : Nat) : Nat :=
  (decodeAt input (runeBoundary input k)).1

/-- A whitespace code point is a real code point: decoding past the end
of the input yields `0xfffd`, which is not whitespace, so a whitespace
rune starts strictly inside the input. -/
theorem runeBoundary_lt_of_space {input : List Nat} {j : Nat}
    (h : unicodeIsSpace (runeAt input j) = true) :
    runeBoundary input j < input.length := by
  by_contra hge
  have hnil : input.drop (runeBoundary input j) = [] := by
    simp only [List.drop_eq_nil_iff_le]
    omega
  simp only [runeAt, decodeAt, hnil] at h
  simp [utf8DecodeRune, unicodeIsSpace] at h

theorem runeBoundary_le_length {input : List Nat} {k : Nat}
    (h : runeBoundary input k ≤ input.length) (j : Nat) (hj : j ≤ k) :
    runeBoundary input j ≤ input.length := by
  induction k with
  | zero =>
    have : j = 0 := by omega
    simpa [this, runeBoundary] using h
  | succ n ih =>
    rcases Nat.lt_or_ge (runeBoundary input n) input.length with hlt | hge
    · rcases Nat.lt_or_ge j (n + 1) with hj2 | hj2
      · exact ih (le_of_lt hlt) (by omega)
      · have : j = n + 1 := by omega
        exact this ▸ h
    · -- decode at or past the end has size 0, so the boundary is unchanged
      have hnil : input.drop (runeBoundary input n) = [] := by
        simp only [List.drop_eq_nil_iff_le]
        omega
      have hsz : (decodeAt input (runeBoundary input n)).2 = 0 := by
        simp [decodeAt, hnil, utf8DecodeRune]
      rcases Nat.lt_or_ge j (n + 1) with hj2 | hj2
      · exact ih (by simp only [runeBoundary] at h; omega) (by omega)
      · have : j = n + 1 := by omega
        exact this ▸ h

/-- Rune boundaries grow by at least one byte per whitespace rune, so
after `k` whitespace runes the offset is at least `k`. -/
theorem runeBoundary_ge {input : List Nat} {k : Nat}
    (hsp : ∀ j, j < k → unicodeIsSpace (runeAt input j) = true) :
    k ≤ runeBoundary input k := by
  induction k with
  | zero => simp [runeBoundary]
  | succ n ih =>
    have hlt : runeBoundary input n < input.length :=
      runeBoundary_lt_of_space (hsp n (by omega))
    have h1 : 1 ≤ (decodeAt input (runeBoundary input n)).2 := decodeAt_size_pos hlt
    have h2 : n ≤ runeBoundary input n := ih (fun j hj => hsp j (by omega))
    simp only [runeBoundary]
    omega

/-- After a run of whitespace runes, the next boundary is still within
the input. -/
theorem runeBoundary_succ_le {input : List Nat} {k : Nat}
    (hsp : ∀ j, j < k → unicodeIsSpace (runeAt input j) = true) :
    runeBoundary input k ≤ input.length := by
  cases k with
  | zero => simp [runeBoundary]
  | succ n =>
    have hlt : runeBoundary input n < input.length :=
      runeBoundary_lt_of_space (hsp n (by omega))
    have := decodeAt_next_le (le_of_lt hlt)
    simp only [runeBoundary]
    omega

/-- Exit point of the whitespace loop: starting at whitespace rune `j`
of a run that ends at rune `k` (either end of input or a non-space
rune), the loop stops exactly at boundary `k` holding rune `k`. -/
theorem wsLoop_exit (input : List Nat) (k : Nat)
    (hsp : ∀ j, j < k → unicodeIsSpace (runeAt input j) = true)
    (hstop : runeBoundary input k = input.length ∨
      unicodeIsSpace (runeAt input k) = false) :
    ∀ fuel j, j ≤ k → k - j ≤ fuel →
      wsLoop input fuel (runeBoundary input j) (runeBoundary input (j + 1))
          (runeAt input j) =
        (runeBoundary input k, runeAt input k) := by
  intro fuel
  induction fuel with
  | zero =>
    intro j hj hfuel
    have hjk : j = k := by omega
    subst hjk
    rcases hstop with hend | hnsp
    · simp [wsLoop, hend]
    · simp [wsLoop, hnsp]
  | succ n ih =>
    intro j hj hfuel
    rcases Nat.lt_or_ge j k with hlt | hge
    · have hspj := hsp j hlt
      have hin : runeBoundary input j < input.length :=
        runeBoundary_lt_of_space hspj
      simp only [wsLoop]
      rw [if_pos ⟨hin, hspj⟩]
      have hnext : runeBoundary input (j + 1) +
          (decodeAt input (runeBoundary input (j + 1))).2 =
          runeBoundary input (j + 1 + 1) := by
        simp [runeBoundary]
      rw [hnext]
      exact ih (j + 1) (by omega) (by omega)
    · have hjk : j = k := by omega
      subst hjk
      rcases hstop with hend | hnsp
      · simp [wsLoop, hend]
      · simp [wsLoop, hnsp]

/-- All loops are no-ops once `pos` has reached the end of the input. -/
theorem runLoop_stop (P : Nat → Bool) (input : List Nat) (fuel pos next : Nat)
    (h : input.length ≤ pos) : runLoop P input fuel pos next = pos := by
  cases fuel with
  | zero => rfl
  | succ n => simp only [runLoop]; rw [if_neg (by omega)]

theorem CL100K.otherLoop_stop (input : List Nat) (fuel pos next c : Nat)
    (h : input.length ≤ pos) :
    CL100K.otherLoop input fuel pos next c = (pos, next, c) := by
  cases fuel with
  | zero => rfl
  | succ n => simp only [CL100K.otherLoop]; rw [if_neg (by omega)]

theorem CL100K.crlfLoop_stop (input : List Nat) (fuel pos next c : Nat)
    (h : input.length ≤ pos) :
    CL100K.crlfLoop input fuel pos next c = pos := by
  cases fuel with
  | zero => rfl
  | succ n =>
    simp only [CL100K.crlfLoop]
    rw [if_neg (by rintro ⟨h1, -⟩; omega)]

/-- Behaviour of the GPT2 matcher on a whitespace run: if the input
starts with `k ≥ 1` whitespace code points (`k ≥ 2` unless the run
reaches end of input) and the run is maximal (it ends at end of input
or at a non-whitespace code point), the match is the whole run, minus
its final byte exactly when the run is at least two bytes long and is
followed by something. -/
theorem GPT2.getMatchLength_ws_gpt2 (input : List Nat) (k : Nat) (hk : 1 ≤ k)
    (hor : 2 ≤ k ∨ runeBoundary input k = input.length)
    (hsp : ∀ j, j < k → unicodeIsSpace (runeAt input j) = true)
    (hstop : runeBoundary input k = input.length ∨
      unicodeIsSpace (runeAt input k) = false) :
    GPT2.getMatchLength input =
      if 2 ≤ runeBoundary input k ∧ runeBoundary input k < input.length
      then runeBoundary input k - 1 else runeBoundary input k := by
  have hsp0 : unicodeIsSpace ((decodeAt input 0).1) = true := hsp 0 (by omega)
  have hin0 : runeBoundary input 0 < input.length :=
    runeBoundary_lt_of_space (hsp 0 (by omega))
  have hlen1 : 1 ≤ input.length := by
    simpa [runeBoundary] using hin0
  have hrblek : runeBoundary input k ≤ input.length := runeBoundary_succ_le hsp
  have hkge : k ≤ runeBoundary input k := runeBoundary_ge hsp
  have hrb1 : runeBoundary input 1 = (decodeAt input 0).2 := by
    simp [runeBoundary]
  have hc39 : ¬((decodeAt input 0).1 = 39 ∧ 2 ≤ input.length) := by
    rintro ⟨he, -⟩
    rw [he] at hsp0
    simp [unicodeIsSpace] at hsp0
  have hepi : ∀ w : Nat × Nat, w = (runeBoundary input k, runeAt input k) →
      (if 2 ≤ w.1 ∧ w.1 < input.length ∧ ¬ unicodeIsSpace w.2 then w.1 - 1
        else w.1) =
      (if 2 ≤ runeBoundary input k ∧ runeBoundary input k < input.length
        then runeBoundary input k - 1 else runeBoundary input k) := by
    rintro w rfl
    dsimp only
    by_cases hlt : runeBoundary input k < input.length
    · rcases hstop with hend | hns
      · omega
      · by_cases h2 : 2 ≤ runeBoundary input k
        · rw [if_pos ⟨h2, hlt, by simp [hns]⟩, if_pos ⟨h2, hlt⟩]
        · rw [if_neg (fun hcon => h2 hcon.1), if_neg (fun hcon => h2 hcon.1)]
    · rw [if_neg (fun hcon => hlt hcon.2.1), if_neg (fun hcon => hlt hcon.2)]
  simp only [GPT2.getMatchLength]
  split
  · next r heq =>
    split at heq
    · next hcond => exact absurd hcond hc39
    · simp at heq
  · by_cases hc32 : (decodeAt input 0).1 = 32 ∧ 2 ≤ input.length
    · rw [if_pos hc32]
      dsimp only
      rcases Nat.lt_or_ge k 2 with hk1 | hk2
      · -- k = 1 with the run reaching end of input: the consumed space is
        -- the whole input, and every later loop is a no-op at the end
        have hk1e : k = 1 := by omega
        have hend : runeBoundary input k = input.length := by
          rcases hor with h2 | he
          · omega
          · exact he
        have hd02 : (decodeAt input 0).2 = input.length := by
          rw [← hrb1, ← hk1e, hend]
        have hd1 : decodeAt input (decodeAt input 0).2 = (0xfffd, 0) := by
          rw [hd02]
          simp [decodeAt, utf8DecodeRune]
        rw [hd1]
        dsimp only
        rw [if_neg (by simp [unicodeIsLetter]), if_neg (by simp [unicodeIsNumber]),
          if_pos (by simp [unicodeIsSpace])]
        rw [runLoop_stop _ _ _ _ _ (by omega)]
        rw [hend]
        rw [if_neg (by omega)]
        exact hd02
      · -- k ≥ 2: the rune after the leading space is still whitespace and
        -- the whitespace loop runs from rune 1 to rune k
        have hsp1 : unicodeIsSpace (runeAt input 1) = true := hsp 1 (by omega)
        have f1 : runeBoundary input 1 = (decodeAt input 0).2 := hrb1
        have f2 : runeBoundary input (1 + 1) =
            (decodeAt input 0).2 + (decodeAt input (decodeAt input 0).2).2 := by
          simp [runeBoundary]
        have f3 : runeAt input 1 = (decodeAt input (decodeAt input 0).2).1 := by
          simp [runeAt, runeBoundary]
        rw [← f2, ← f3, ← f1]
        rw [if_neg (by simp [(space_not_letter_number hsp1).1]),
          if_neg (by simp [(space_not_letter_number hsp1).2]),
          if_neg (by simp [hsp1])]
        have hws := wsLoop_exit input k hsp hstop input.length 1 (by omega) (by omega)
        rw [hws]
        exact hepi _ rfl
    · rw [if_neg hc32]
      dsimp only
      rw [if_neg (by simp [(space_not_letter_number hsp0).1]),
        if_neg (by simp [(space_not_letter_number hsp0).2]),
        if_neg (by simp [hsp0])]
      have hws := wsLoop_exit input k hsp hstop input.length 0 (by omega) (by omega)
      have e0 : runeBoundary input 0 = 0 := rfl
      have e1 : runeBoundary input (0 + 1) = (decodeAt input 0).2 := by
        simp [runeBoundary]
      have eA : runeAt input 0 = (decodeAt input 0).1 := rfl
      rw [e0, e1, eA] at hws
      rw [hws]
      exact hepi _ rfl

/-- Behaviour of the cl100k matcher on a whitespace run; same
statement as for GPT2. -/
theorem CL100K.getMatchLength_ws_cl100k (input : List Nat) (k : Nat) (hk : 1 ≤ k)
    (hor : 2 ≤ k ∨ runeBoundary input k = input.length)
    (hsp : ∀ j, j < k → unicodeIsSpace (runeAt input j) = true)
    (hstop : runeBoundary input k = input.length ∨
      unicodeIsSpace (runeAt input k) = false) :
    CL100K.getMatchLength input =
      if 2 ≤ runeBoundary input k ∧ runeBoundary input k < input.length
      then runeBoundary input k - 1 else runeBoundary input k := by
  have hsp0 : unicodeIsSpace ((decodeAt input 0).1) = true := hsp 0 (by omega)
  have hin0 : runeBoundary input 0 < input.length :=
    runeBoundary_lt_of_space (hsp 0 (by omega))
  have hlen1 : 1 ≤ input.length := by
    simpa [runeBoundary] using hin0
  have hrblek : runeBoundary input k ≤ input.length := runeBoundary_succ_le hsp
  have hkge : k ≤ runeBoundary input k := runeBoundary_ge hsp
  have hrb1 : runeBoundary input 1 = (decodeAt input 0).2 := by
    simp [runeBoundary]
  have hc39 : ¬((decodeAt input 0).1 = 39 ∧ 2 ≤ input.length) := by
    rintro ⟨he, -⟩
    rw [he] at hsp0
    simp [unicodeIsSpace] at hsp0
  have hepi : ∀ w : Nat × Nat, w = (runeBoundary input k, runeAt input k) →
      (if 2 ≤ w.1 ∧ w.1 < input.length ∧ ¬ unicodeIsSpace w.2 then w.1 - 1
        else w.1) =
      (if 2 ≤ runeBoundary input k ∧ runeBoundary input k < input.length
        then runeBoundary input k - 1 else runeBoundary input k) := by
    rintro w rfl
    dsimp only
    by_cases hlt : runeBoundary input k < input.length
    · rcases hstop with hend | hns
      · omega
      · by_cases h2 : 2 ≤ runeBoundary input k
        · rw [if_pos ⟨h2, hlt, by simp [hns]⟩, if_pos ⟨h2, hlt⟩]
        · rw [if_neg (fun hcon => h2 hcon.1), if_neg (fun hcon => h2 hcon.1)]
    · rw [if_neg (fun hcon => hlt hcon.2.1), if_neg (fun hcon => hlt hcon.2)]
  simp only [CL100K.getMatchLength]
  split
  · next r heq =>
    split at heq
    · next hcond => exact absurd hcond hc39
    · simp at heq
  · by_cases hpk : (decodeAt input 0).2 < input.length
    · rw [if_pos hpk]
      -- the run cannot stop after rune 1 here, so k ≥ 2 and rune 1 is space
      have hk2 : 2 ≤ k := by
        rcases hor with h2 | he
        · exact h2
        · rcases Nat.lt_or_ge k 2 with h1 | h2
          · exfalso
            have hke : k = 1 := by omega
            rw [hke, hrb1] at he
            omega
          · exact h2
      have hsp1 : unicodeIsSpace (runeAt input 1) = true := hsp 1 (by omega)
      have f3 : runeAt input 1 = (decodeAt input (decodeAt input 0).2).1 := by
        simp [runeAt, runeBoundary]
      split
      · next hLB =>
        exfalso
        rcases hLB with hl | ⟨-, -, -, -, hl⟩
        · rw [(space_not_letter_number hsp0).1] at hl
          exact Bool.false_ne_true hl
        · rw [← f3, (space_not_letter_number hsp1).1] at hl
          exact Bool.false_ne_true hl
      · rw [if_neg (by simp [(space_not_letter_number hsp0).2])]
        by_cases hc32 : (decodeAt input 0).1 = 32 ∧ 2 ≤ input.length
        · rw [if_pos hc32]
          dsimp only
          have f2 : runeBoundary input (1 + 1) =
              (decodeAt input 0).2 + (decodeAt input (decodeAt input 0).2).2 := by
            simp [runeBoundary]
          rw [← f2, ← f3, ← hrb1]
          rw [if_neg (fun hcon => hcon.1 hsp1)]
          have hws := wsLoop_exit input k hsp hstop input.length 1 (by omega) (by omega)
          rw [hws]
          exact hepi _ rfl
        · rw [if_neg hc32]
          dsimp only
          rw [if_neg (fun hcon => hcon.1 hsp0)]
          have hws := wsLoop_exit input k hsp hstop input.length 0 (by omega) (by omega)
          have e0 : runeBoundary input 0 = 0 := rfl
          have e1 : runeBoundary input (0 + 1) = (decodeAt input 0).2 := by
            simp [runeBoundary]
          have eA : runeAt input 0 = (decodeAt input 0).1 := rfl
          rw [e0, e1, eA] at hws
          rw [hws]
          exact hepi _ rfl
    · rw [if_neg hpk]
      -- decoding already reached the end: the input is a single whitespace rune
      have hrb1e : runeBoundary input 1 = input.length := by
        have h1 : runeBoundary input 1 ≤ input.length :=
          runeBoundary_succ_le (fun j hj => hsp j (by omega))
        omega
      have hk1e : k = 1 := by
        rcases Nat.lt_or_ge k 2 with h1 | h2
        · omega
        · exfalso
          have := runeBoundary_lt_of_space (hsp 1 (by omega))
          omega
      have hrbke : runeBoundary input k = input.length := by
        rw [hk1e]
        exact hrb1e
      have hd02 : (decodeAt input 0).2 = input.length := by omega
      split
      · next hLB =>
        exfalso
        rcases hLB with hl | ⟨-, -, -, -, hl⟩
        · rw [(space_not_letter_number hsp0).1] at hl
          exact Bool.false_ne_true hl
        · simp [unicodeIsLetter] at hl
      · rw [if_neg (by simp [(space_not_letter_number hsp0).2])]
        by_cases hc32 : (decodeAt input 0).1 = 32 ∧ 2 ≤ input.length
        · rw [if_pos hc32]
          dsimp only
          have hd1 : decodeAt input (decodeAt input 0).2 = (0xfffd, 0) := by
            rw [hd02]
            simp [decodeAt, utf8DecodeRune]
          rw [hd1]
          dsimp only
          rw [if_pos (by refine ⟨?_, ?_, ?_⟩ <;> decide)]
          rw [CL100K.otherLoop_stop _ _ _ _ _ (by omega)]
          dsimp only
          rw [CL100K.crlfLoop_stop _ _ _ _ _ (by omega)]
          rw [hrbke]
          rw [if_neg (by omega)]
          exact hd02
        · rw [if_neg hc32]
          dsimp only
          rw [if_neg (fun hcon => hcon.1 hsp0)]
          have hws := wsLoop_exit input k hsp hstop input.length 0 (by omega) (by omega)
          have e0 : runeBoundary input 0 = 0 := rfl
          have e1 : runeBoundary input (0 + 1) = (decodeAt input 0).2 := by
            simp [runeBoundary]
          have eA : runeAt input 0 = (decodeAt input 0).1 := rfl
          rw [e0, e1, eA] at hws
          rw [hws]
          exact hepi _ rfl

/-! ## Claim theorems: splitter coverage and progress -/

/-- C2: for every byte buffer `b`, the concatenation of the substrings
returned by the pre-tokenizer — both `GPT2Splitter` and
`cl100KBaseSplitter` — equals `b` exactly, byte for byte: the emitted
substrings are contiguous, non-overlapping, and cover the whole
input. -/
theorem claim_C2_splitter_coverage (b : List Nat) :
    (GPT2Splitter b).join = b ∧ (cl100KBaseSplitter b).join = b := by
  constructor
  · exact splitWith_join GPT2.getMatchLength
      (fun l hl => (GPT2.getMatchLength_bounds_gpt2 l hl).1) b.length b (le_refl _)
  · exact splitWith_join CL100K.getMatchLength
      (fun l hl => (CL100K.getMatchLength_bounds_cl100k l hl).1) b.length b (le_refl _)

/-- C8: for every non-empty input, each call to the splitter's match
function (GPT2 and CL100K `getMatchLength`) returns a length that is at
least 1 and at most the remaining input length, so the splitter's
driver loop always terminates and produces finitely many substrings. -/
theorem claim_C8_match_progress (input : List Nat) (h : input ≠ []) :
    (1 ≤ GPT2.getMatchLength input ∧
      GPT2.getMatchLength input ≤ input.length) ∧
    (1 ≤ CL100K.getMatchLength input ∧
      CL100K.getMatchLength input ≤ input.length) :=
  ⟨GPT2.getMatchLength_bounds_gpt2 input h, CL100K.getMatchLength_bounds_cl100k input h⟩

/-- Witness for C8 at the concrete input `"a"`. -/
theorem claim_C8_match_progress_witness :
    ([97] : List Nat) ≠ [] ∧
    ((1 ≤ GPT2.getMatchLength [97] ∧
        GPT2.getMatchLength [97] ≤ [97].length) ∧
      (1 ≤ CL100K.getMatchLength [97] ∧
        CL100K.getMatchLength [97] ≤ [97].length)) :=
  ⟨by decide, claim_C8_match_progress [97] (by decide)⟩

/-- C5: in both splitters, when a maximal run of whitespace (of `k ≥ 2`
code points) is followed by another non-whitespace code point, the
match gives back the last whitespace byte — the returned match is the
run minus its final byte; when the whitespace run extends to
end-of-input, nothing is given back and the whole run is the match. -/
theorem claim_C5_whitespace_giveback (input : List Nat) (k : Nat)
    (hsp : ∀ j, j < k → unicodeIsSpace (runeAt input j) = true) :
    (2 ≤ k → runeBoundary input k < input.length →
      unicodeIsSpace (runeAt input k) = false →
      GPT2.getMatchLength input = runeBoundary input k - 1 ∧
      CL100K.getMatchLength input = runeBoundary input k - 1) ∧
    (1 ≤ k → runeBoundary input k = input.length →
      GPT2.getMatchLength input = input.length ∧
      CL100K.getMatchLength input = input.length) := by
  constructor
  · intro hk2 hlt hns
    have h2 : 2 ≤ runeBoundary input k := le_trans hk2 (runeBoundary_ge hsp)
    constructor
    · rw [GPT2.getMatchLength_ws_gpt2 input k (by omega) (Or.inl hk2) hsp (Or.inr hns)]
      rw [if_pos ⟨h2, hlt⟩]
    · rw [CL100K.getMatchLength_ws_cl100k input k (by omega) (Or.inl hk2) hsp (Or.inr hns)]
      rw [if_pos ⟨h2, hlt⟩]
  · intro hk1 hend
    constructor
    · rw [GPT2.getMatchLength_ws_gpt2 input k hk1 (Or.inr hend) hsp (Or.inl hend)]
      rw [if_neg (by omega), hend]
    · rw [CL100K.getMatchLength_ws_cl100k input k hk1 (Or.inr hend) hsp (Or.inl hend)]
      rw [if_neg (by omega), hend]

/-- Witness for C5 on `"  a"` (two spaces then a letter, so the second
space is given back) — and the end-of-input part at the same `k`. -/
theorem claim_C5_whitespace_giveback_witness :
    (∀ j, j < 2 → unicodeIsSpace (runeAt [32, 32, 97] j) = true) ∧
    ((2 ≤ 2 → runeBoundary [32, 32, 97] 2 < [32, 32, 97].length →
      unicodeIsSpace (runeAt [32, 32, 97] 2) = false →
      GPT2.getMatchLength [32, 32, 97] = runeBoundary [32, 32, 97] 2 - 1 ∧
      CL100K.getMatchLength [32, 32, 97] = runeBoundary [32, 32, 97] 2 - 1) ∧
    (1 ≤ 2 → runeBoundary [32, 32, 97] 2 = [32, 32, 97].length →
      GPT2.getMatchLength [32, 32, 97] = [32, 32, 97].length ∧
      CL100K.getMatchLength [32, 32, 97] = [32, 32, 97].length)) :=
  ⟨by decide, claim_C5_whitespace_giveback [32, 32, 97] 2 (by decide)⟩

/-- C6: the GPT2 splitter recognizes the contraction suffixes
`'s 't 'm 'd 're 've 'll` only case-sensitively — with a lowercase
suffix the contraction (2 or 3 bytes) is the match, while with any
uppercase letter in the suffix only the apostrophe (1 byte) is
matched — whereas the cl100k splitter recognizes the same suffixes
case-insensitively: every case mix matches the full contraction.
Byte values: `' s t m d r v l e S T M D R V L E` are
`39 115 116 109 100 114 118 108 101 83 84 77 68 82 86 76 69`. -/
theorem claim_C6_contraction_case (rest : List Nat) :
    -- GPT2 matches the lowercase suffixes,
    (GPT2.getMatchLength (39 :: 115 :: rest) = 2 ∧
     GPT2.getMatchLength (39 :: 116 :: rest) = 2 ∧
     GPT2.getMatchLength (39 :: 109 :: rest) = 2 ∧
     GPT2.getMatchLength (39 :: 100 :: rest) = 2 ∧
     GPT2.getMatchLength (39 :: 114 :: 101 :: rest) = 3 ∧
     GPT2.getMatchLength (39 :: 118 :: 101 :: rest) = 3 ∧
     GPT2.getMatchLength (39 :: 108 :: 108 :: rest) = 3) ∧
    -- but consumes only the apostrophe when the suffix is not lowercase,
    (GPT2.getMatchLength (39 :: 83 :: rest) = 1 ∧
     GPT2.getMatchLength (39 :: 84 :: rest) = 1 ∧
     GPT2.getMatchLength (39 :: 77 :: rest) = 1 ∧
     GPT2.getMatchLength (39 :: 68 :: rest) = 1 ∧
     GPT2.getMatchLength (39 :: 82 :: 69 :: rest) = 1 ∧
     GPT2.getMatchLength (39 :: 82 :: 101 :: rest) = 1 ∧
     GPT2.getMatchLength (39 :: 114 :: 69 :: rest) = 1 ∧
     GPT2.getMatchLength (39 :: 86 :: 69 :: rest) = 1 ∧
     GPT2.getMatchLength (39 :: 86 :: 101 :: rest) = 1 ∧
     GPT2.getMatchLength (39 :: 118 :: 69 :: rest) = 1 ∧
     GPT2.getMatchLength (39 :: 76 :: 76 :: rest) = 1 ∧
     GPT2.getMatchLength (39 :: 76 :: 108 :: rest) = 1 ∧
     GPT2.getMatchLength (39 :: 108 :: 76 :: rest) = 1) ∧
    -- while cl100k accepts any case mix of the same suffixes.
    (CL100K.getMatchLength (39 :: 115 :: rest) = 2 ∧
     CL100K.getMatchLength (39 :: 83 :: rest) = 2 ∧
     CL100K.getMatchLength (39 :: 116 :: rest) = 2 ∧
     CL100K.getMatchLength (39 :: 84 :: rest) = 2 ∧
     CL100K.getMatchLength (39 :: 109 :: rest) = 2 ∧
     CL100K.getMatchLength (39 :: 77 :: rest) = 2 ∧
     CL100K.getMatchLength (39 :: 100 :: rest) = 2 ∧
     CL100K.getMatchLength (39 :: 68 :: rest) = 2 ∧
     CL100K.getMatchLength (39 :: 114 :: 101 :: rest) = 3 ∧
     CL100K.getMatchLength (39 :: 114 :: 69 :: rest) = 3 ∧
     CL100K.getMatchLength (39 :: 82 :: 101 :: rest) = 3 ∧
     CL100K.getMatchLength (39 :: 82 :: 69 :: rest) = 3 ∧
     CL100K.getMatchLength (39 :: 118 :: 101 :: rest) = 3 ∧
     CL100K.getMatchLength (39 :: 118 :: 69 :: rest) = 3 ∧
     CL100K.getMatchLength (39 :: 86 :: 101 :: rest) = 3 ∧
     CL100K.getMatchLength (39 :: 86 :: 69 :: rest) = 3 ∧
     CL100K.getMatchLength (39 :: 108 :: 108 :: rest) = 3 ∧
     CL100K.getMatchLength (39 :: 108 :: 76 :: rest) = 3 ∧
     CL100K.getMatchLength (39 :: 76 :: 108 :: rest) = 3 ∧
     CL100K.getMatchLength (39 :: 76 :: 76 :: rest) = 3) := by
  refine ⟨⟨?_, ?_, ?_, ?_, ?_, ?_, ?_⟩,
    ⟨?_, ?_, ?_, ?_, ?_, ?_, ?_, ?_, ?_, ?_, ?_, ?_, ?_⟩,
    ⟨?_, ?_, ?_, ?_, ?_, ?_, ?_, ?_, ?_, ?_, ?_, ?_, ?_, ?_, ?_, ?_, ?_, ?_,
      ?_, ?_⟩⟩ <;>
    · simp only [GPT2.getMatchLength, CL100K.getMatchLength]
      rw [if_pos ⟨rfl, by simp only [List.length_cons]; omega⟩]
      rfl

/-- Numeric code points are not letters (Latin-1 table). -/
theorem number_not_letter {c : Nat} (h : unicodeIsNumber c = true) :
    unicodeIsLetter c = false := by
  simp only [unicodeIsNumber, decide_eq_true_eq] at h
  simp only [unicodeIsLetter, decide_eq_false_iff_not]
  omega

/-- The `\p{N}{1,3}` loop always stops at a rune boundary of index at
most 3: it consumes at most three code points. -/
theorem CL100K.numLoop_runeBoundary (input : List Nat) :
    ∀ fuel count, count ≤ 3 →
      ∃ k, k ≤ 3 ∧
        CL100K.numLoop input fuel (runeBoundary input count)
          (runeBoundary input (count + 1)) count = runeBoundary input k := by
  intro fuel
  induction fuel with
  | zero =>
    intro count hc
    exact ⟨count, hc, rfl⟩
  | succ n ih =>
    intro count hc
    simp only [CL100K.numLoop]
    split
    · next hguard =>
      split
      · have hnext : runeBoundary input (count + 1) +
            (decodeAt input (runeBoundary input (count + 1))).2 =
            runeBoundary input (count + 1 + 1) := by
          simp [runeBoundary]
        rw [hnext]
        exact ih (count + 1) (by omega)
      · exact ⟨count + 1, by omega, rfl⟩
    · exact ⟨count, hc, rfl⟩

/-- C7: a match of number code points in the cl100k splitter consumes
at most three code points (the match ends at rune boundary `k ≤ 3`);
and concretely, splitting `"a a 1234567890 z"` yields
`["a", " a", " ", "123", "456", "789", "0", " z"]`. -/
theorem claim_C7_number_cap (input : List Nat)
    (h : unicodeIsNumber (decodeAt input 0).1 = true) :
    (∃ k, k ≤ 3 ∧ CL100K.getMatchLength input = runeBoundary input k) ∧
    cl100KBaseSplitter
        [97, 32, 97, 32, 49, 50, 51, 52, 53, 54, 55, 56, 57, 48, 32, 122] =
      [[97], [32, 97], [32], [49, 50, 51], [52, 53, 54], [55, 56, 57], [48],
        [32, 122]] := by
  refine ⟨?_, by decide⟩
  have hc39 : ¬((decodeAt input 0).1 = 39 ∧ 2 ≤ input.length) := by
    rintro ⟨he, -⟩
    rw [he] at h
    simp [unicodeIsNumber] at h
  have hml : CL100K.getMatchLength input =
      CL100K.numLoop input input.length 0 (decodeAt input 0).2 0 := by
    simp only [CL100K.getMatchLength]
    split
    · next r heq =>
      split at heq
      · next hcond => exact absurd hcond hc39
      · simp at heq
    · by_cases hpk : (decodeAt input 0).2 < input.length
      · rw [if_pos hpk]
        split
        · next hLB =>
          exfalso
          rcases hLB with hl | ⟨-, hn, -⟩
          · rw [number_not_letter h] at hl
            exact Bool.false_ne_true hl
          · rw [h] at hn
            exact Bool.noConfusion hn
        · rfl
      · rw [if_neg hpk]
        split
        · next hLB =>
          exfalso
          rcases hLB with hl | ⟨-, hn, -⟩
          · rw [number_not_letter h] at hl
            exact Bool.false_ne_true hl
          · rw [h] at hn
            exact Bool.noConfusion hn
        · rfl
  have e0 : runeBoundary input 0 = 0 := rfl
  have e1 : runeBoundary input (0 + 1) = (decodeAt input 0).2 := by
    simp [runeBoundary]
  obtain ⟨k, hk3, heq⟩ :=
    CL100K.numLoop_runeBoundary input input.length 0 (by omega)
  rw [e0, e1] at heq
  exact ⟨k, hk3, by rw [hml]; exact heq⟩

/-- Witness for C7 at the digit string `"1234"`. -/
theorem claim_C7_number_cap_witness :
    unicodeIsNumber (decodeAt [49, 50, 51, 52] 0).1 = true ∧
    ((∃ k, k ≤ 3 ∧
        CL100K.getMatchLength [49, 50, 51, 52] =
          runeBoundary [49, 50, 51, 52] k) ∧
    cl100KBaseSplitter
        [97, 32, 97, 32, 49, 50, 51, 52, 53, 54, 55, 56, 57, 48, 32, 122] =
      [[97], [32, 97], [32], [49, 50, 51], [52, 53, 54], [55, 56, 57], [48],
        [32, 122]]) :=
  ⟨by decide, claim_C7_number_cap [49, 50, 51, 52] (by decide)⟩

/-! ## The generation-time trie (`gen/trie.go`)

`TrieNode` carries a byte `value`, sorted `children`, the token `index`
(`-1` when the prefix is not a token) and the `fixup` slot used while
serializing.  `sort.Search` is Go's binary search, modelled with fuel
`j - i` (the interval shrinks every iteration, so that is enough). -/

inductive TrieNode : Type where
  | mk : Nat → List TrieNode → Int → Nat → TrieNode

def TrieNode.value : TrieNode → Nat
  | .mk v _ _ _ => v

def TrieNode.children : TrieNode → List TrieNode
  | .mk _ cs _ _ => cs

def TrieNode.index : TrieNode → Int
  | .mk _ _ i _ => i

def TrieNode.fixup : TrieNode → Nat
  | .mk _ _ _ f => f

/-- `newTrieNode` initializes a node with no children and index `-1`. -/
def newTrieNode (value : Nat) : TrieNode :=
  .mk value [] (-1) 0

/-- The value of the `i`-th child (Go's `current.children[i].value`);
the default is irrelevant because the search never reads out of
bounds. -/
def childValue (cs : List TrieNode) (i : Nat) : Nat :=
  ((cs.map TrieNode.value).getD i 0)

/-- The loop of Go's `sort.Search`. -/
def sortSearchLoop (f : Nat → Bool) : Nat → Nat → Nat → Nat
  | 0, i, _ => i
  | fuel + 1, i, j =>
    if i < j then
      let h := (i + j) / 2
      if f h then sortSearchLoop f fuel i h else sortSearchLoop f fuel (h + 1) j
    else i

/-- Go `sort.Search(n, f)`: the least `i < n` with `f i`, else `n`,
for a monotone `f`. -/
def sortSearch (n : Nat) (f : Nat → Bool) : Nat :=
  sortSearchLoop f n 0 n

/-- Characterization of the binary search: under an invariant that `f`
is monotone on `[0, n)`, the result `r` splits `[0, n)` into a prefix
where `f` is false and a suffix where it is true. -/
theorem sortSearchLoop_spec (f : Nat → Bool) (n : Nat)
    (hmono : ∀ a b, a ≤ b → b < n → f a = true → f b = true) :
    ∀ fuel i j, i ≤ j → j ≤ n → j - i ≤ fuel →
      (∀ k, k < i → f k = false) →
      (∀ k, j ≤ k → k < n → f k = true) →
      i ≤ sortSearchLoop f fuel i j ∧ sortSearchLoop f fuel i j ≤ j ∧
      (∀ k, k < sortSearchLoop f fuel i j → f k = false) ∧
      (∀ k, sortSearchLoop f fuel i j ≤ k → k < n → f k = true) := by
  intro fuel
  induction fuel with
  | zero =>
    intro i j h1 h2 h3 hA hB
    have : i = j := by omega
    subst this
    exact ⟨le_refl _, le_refl _, hA, hB⟩
  | succ m ih =>
    intro i j h1 h2 h3 hA hB
    simp only [sortSearchLoop]
    split
    · next hij =>
      have hmid1 : i ≤ (i + j) / 2 := by omega
      have hmid2 : (i + j) / 2 < j := by omega
      split
      · next hf =>
        obtain ⟨a1, a2, a3, a4⟩ := ih i ((i + j) / 2) hmid1 (by omega) (by omega)
          hA (fun k hk1 hk2 => hmono _ _ hk1 hk2 hf)
        exact ⟨a1, by omega, a3, a4⟩
      · next hf =>
        have hApre : ∀ k, k < (i + j) / 2 + 1 → f k = false := by
          intro k hk
          rcases Nat.lt_or_ge k i with hki | hki
          · exact hA k hki
          · rcases Bool.eq_false_or_eq_true (f k) with he | he
            · exact absurd (hmono k ((i + j) / 2) (by omega) (by omega) he)
                (by simp [hf])
            · exact he
        obtain ⟨a1, a2, a3, a4⟩ := ih ((i + j) / 2 + 1) j (by omega) h2 (by omega)
          hApre hB
        exact ⟨by omega, a2, a3, a4⟩
    · next hij =>
      have hij2 : i = j := by omega
      subst hij2
      exact ⟨le_refl _, le_refl _, hA, hB⟩

/-- `TrieNode.insert` from `gen/trie.go`: insert `token` with token
number `index`, keeping children sorted by byte value.  The iterative
walk of the Go code becomes recursion on the token. -/
def TrieNode.insert (node : TrieNode) (token : List Nat) (index : Int) :
    TrieNode :=
  match token with
  | [] => .mk node.value node.children index node.fixup
  | ch :: rest =>
    let cs := node.children
    let insertPos := sortSearch cs.length (fun i => decide (ch ≤ childValue cs i))
    if h : insertPos < cs.length ∧ childValue cs insertPos = ch then
      .mk node.value
        (cs.set insertPos ((cs.get ⟨insertPos, h.1⟩).insert rest index))
        node.index node.fixup
    else
      .mk node.value (cs.insertIdx insertPos ((newTrieNode ch).insert rest index))
        node.index node.fixup

/-- `TrieNode.lookup` from `gen/trie.go`. -/
def TrieNode.lookup (node : TrieNode) (token : List Nat) : Int :=
  match token with
  | [] => node.index
  | ch :: rest =>
    let cs := node.children
    let searchPos := sortSearch cs.length (fun i => decide (ch ≤ childValue cs i))
    if h : searchPos < cs.length ∧ childValue cs searchPos = ch then
      (cs.get ⟨searchPos, h.1⟩).lookup rest
    else (-1)

/-- The loop of `BuildTrie`, inserting tokens with consecutive
indices. -/
def BuildTrieAux (root : TrieNode) (tokens : List (List Nat)) (i : Nat) :
    TrieNode :=
  match tokens with
  | [] => root
  | t :: ts => BuildTrieAux (root.insert t (Int.ofNat i)) ts (i + 1)

/-- `BuildTrie` from `gen/trie.go`. -/
def BuildTrie (tokens : List (List Nat)) : TrieNode :=
  BuildTrieAux (newTrieNode 0) tokens 0

/-! ### Children access and search characterization -/

theorem childValue_get (cs : List TrieNode) (k : Nat) (h : k < cs.length) :
    childValue cs k = (cs.get ⟨k, h⟩).value := by
  simp only [childValue]
  rw [List.getD_eq_getElem _ _ (by simpa using h)]
  simp

theorem childValue_default (cs : List TrieNode) (k : Nat) (h : cs.length ≤ k) :
    childValue cs k = 0 := by
  simp only [childValue]
  rw [List.getD_eq_default]
  simpa using h

/-- Children sorted strictly by byte value. -/
def SortedChildren (cs : List TrieNode) : Prop :=
  List.Pairwise (fun a b => a.value < b.value) cs

theorem childValue_strictMono {cs : List TrieNode} (hs : SortedChildren cs)
    {a b : Nat} (hab : a < b) (hb : b < cs.length) :
    childValue cs a < childValue cs b := by
  rw [childValue_get cs a (by omega), childValue_get cs b hb]
  exact List.pairwise_iff_get.1 hs ⟨a, by omega⟩ ⟨b, hb⟩ hab

/-- The binary search over a sorted child list: positions before the
result have value `< ch`, positions at or after it have value
`≥ ch`. -/
theorem searchChild_spec (cs : List TrieNode) (ch : Nat)
    (hs : SortedChildren cs) :
    sortSearch cs.length (fun i => decide (ch ≤ childValue cs i)) ≤ cs.length ∧
    (∀ k, k < sortSearch cs.length (fun i => decide (ch ≤ childValue cs i)) →
      childValue cs k < ch) ∧
    (∀ k, sortSearch cs.length (fun i => decide (ch ≤ childValue cs i)) ≤ k →
      k < cs.length → ch ≤ childValue cs k) := by
  have hmono : ∀ a b, a ≤ b → b < cs.length →
      (fun i => decide (ch ≤ childValue cs i)) a = true →
      (fun i => decide (ch ≤ childValue cs i)) b = true := by
    intro a b hab hb ha
    simp only [decide_eq_true_eq] at ha ⊢
    rcases Nat.lt_or_ge a b with h1 | h1
    · exact le_trans ha (le_of_lt (childValue_strictMono hs h1 hb))
    · have : a = b := by omega
      exact this ▸ ha
  simp only [sortSearch]
  obtain ⟨a1, a2, a3, a4⟩ := sortSearchLoop_spec _ cs.length hmono cs.length 0
    cs.length (by omega) (le_refl _) (by omega)
    (by intro k hk; omega) (by intro k hk1 hk2; omega)
  refine ⟨a2, ?_, ?_⟩
  · intro k hk
    have := a3 k hk
    simp only [decide_eq_false_iff_not] at this
    omega
  · intro k hk1 hk2
    have := a4 k hk1 hk2
    simpa using this

/-- If some position holds value `ch`, the search returns exactly that
position. -/
theorem searchChild_eq (cs : List TrieNode) (ch : Nat)
    (hs : SortedChildren cs) {p : Nat} (hp : p < cs.length)
    (hv : childValue cs p = ch) :
    sortSearch cs.length (fun i => decide (ch ≤ childValue cs i)) = p := by
  obtain ⟨a1, a2, a3⟩ := searchChild_spec cs ch hs
  set r := sortSearch cs.length (fun i => decide (ch ≤ childValue cs i)) with hr
  rcases Nat.lt_trichotomy r p with h | h | h
  · have := childValue_strictMono hs h hp
    have := a3 r (le_refl _) (by omega)
    omega
  · exact h
  · have := a2 p h
    omega

/-- If the found-check fails, no child holds value `ch`. -/
theorem searchChild_none (cs : List TrieNode) (ch : Nat)
    (hs : SortedChildren cs)
    (hnf : ¬(sortSearch cs.length (fun i => decide (ch ≤ childValue cs i)) <
        cs.length ∧
      childValue cs (sortSearch cs.length
        (fun i => decide (ch ≤ childValue cs i))) = ch)) :
    ∀ k, k < cs.length → childValue cs k ≠ ch := by
  intro k hk he
  exact hnf (searchChild_eq cs ch hs hk he ▸ ⟨searchChild_eq cs ch hs hk he ▸ hk, he⟩)

/-! ### The trie well-formedness invariant -/

/-- Every node's children are strictly sorted by byte value. -/
inductive WFT : TrieNode → Prop where
  | node : ∀ (v : Nat) (cs : List TrieNode) (idx : Int) (fx : Nat),
      SortedChildren cs → (∀ c ∈ cs, WFT c) → WFT (.mk v cs idx fx)

theorem WFT.sorted_wft {t : TrieNode} (h : WFT t) : SortedChildren t.children := by
  cases h with
  | node v cs idx fx hs hc => exact hs

theorem WFT.child_wft {t : TrieNode} (h : WFT t) :
    ∀ c ∈ t.children, WFT c := by
  cases h with
  | node v cs idx fx hs hc => exact hc

theorem WFT_new (v : Nat) : WFT (newTrieNode v) :=
  WFT.node v [] (-1) 0 (List.Pairwise.nil) (by intro c hc; simp at hc)

theorem TrieNode.insert_value (t : TrieNode) (tok : List Nat) (idx : Int) :
    (t.insert tok idx).value = t.value := by
  cases tok with
  | nil => rfl
  | cons ch rest =>
    simp only [TrieNode.insert]
    split <;> rfl

theorem TrieNode.insert_index_cons (t : TrieNode) (ch : Nat) (rest : List Nat)
    (idx : Int) : (t.insert (ch :: rest) idx).index = t.index := by
  simp only [TrieNode.insert]
  split <;> rfl

theorem TrieNode.insert_children_nil (t : TrieNode) (idx : Int) :
    (t.insert [] idx).children = t.children := rfl

/-- Setting a child to a node with the same byte value keeps the
child values pointwise unchanged. -/
theorem childValue_set (cs : List TrieNode) (p : Nat) (x : TrieNode)
    (hp : p < cs.length) (hv : x.value = childValue cs p) :
    childValue (cs.set p x) = childValue cs := by
  funext k
  rcases Nat.lt_or_ge k cs.length with hk | hk
  · rw [childValue_get _ k (by simpa using hk), childValue_get _ k hk]
    simp only [List.get_eq_getElem, List.getElem_set]
    split
    · next he =>
      subst he
      rw [hv, childValue_get _ p hp]
      simp
    · rfl
  · rw [childValue_default _ k (by simpa using hk), childValue_default _ k hk]

/-- Child values after `insertIdx`. -/
theorem childValue_insertIdx (cs : List TrieNode) (nn : TrieNode) (r : Nat)
    (hr : r ≤ cs.length) (k : Nat) :
    childValue (cs.insertIdx r nn) k =
      if k < r then childValue cs k
      else if k = r then nn.value
      else childValue cs (k - 1) := by
  have hlen : (cs.insertIdx r nn).length = cs.length + 1 :=
    List.length_insertIdx r cs hr
  split
  · next hk =>
    have hk2 : k < cs.length := by omega
    rw [childValue_get _ k (by omega), childValue_get _ k hk2]
    simp only [List.get_eq_getElem]
    rw [List.getElem_insertIdx_of_lt cs nn r k hk hk2]
  · split
    · next hk he =>
      subst he
      rw [childValue_get _ k (by omega)]
      simp only [List.get_eq_getElem]
      rw [List.getElem_insertIdx_self cs nn k hr]
    · next hk he =>
      rcases Nat.lt_or_ge k (cs.length + 1) with hk2 | hk2
      · have hk3 : k - 1 < cs.length := by omega
        rw [childValue_get _ k (by omega), childValue_get _ (k - 1) hk3]
        simp only [List.get_eq_getElem]
        have h5 := List.getElem_insertIdx_add_succ cs nn r (k - 1 - r) (by omega)
        have e1 : r + (k - 1 - r) + 1 = k := by omega
        have e2 : r + (k - 1 - r) = k - 1 := by omega
        simp only [e1] at h5
        simp only [e2] at h5
        rw [h5]
      · rw [childValue_default _ k (by omega), childValue_default _ (k - 1) (by omega)]

/-- Inserting a fresh value at its search position keeps the children
sorted. -/
theorem sortedChildren_insertIdx (cs : List TrieNode) (nn : TrieNode) (r : Nat)
    (hs : SortedChildren cs) (hr : r ≤ cs.length)
    (hlo : ∀ k, k < r → childValue cs k < nn.value)
    (hhi : ∀ k, r ≤ k → k < cs.length → nn.value < childValue cs k) :
    SortedChildren (cs.insertIdx r nn) := by
  have hlen : (cs.insertIdx r nn).length = cs.length + 1 :=
    List.length_insertIdx r cs hr
  rw [SortedChildren, List.pairwise_iff_get]
  intro i j hij
  have hi := i.2
  have hj := j.2
  have hvi := childValue_get _ i.1 hi
  have hvj := childValue_get _ j.1 hj
  simp only [List.get_eq_getElem] at hvi hvj ⊢
  rw [← hvi, ← hvj]
  rw [childValue_insertIdx cs nn r hr i.1, childValue_insertIdx cs nn r hr j.1]
  have hstrict : ∀ a b, a < b → b < cs.length → childValue cs a < childValue cs b :=
    fun a b h1 h2 => childValue_strictMono hs h1 h2
  split
  · split
    · exact hstrict _ _ hij (by omega)
    · split
      · next h1 h2 h3 => exact hlo i.1 h1
      · next h1 h2 h3 =>
        rcases Nat.lt_or_ge (j.1 - 1) cs.length with h4 | h4
        · exact hstrict _ _ (by omega) h4
        · omega
  · split
    · next h1 h2 =>
      split
      · omega
      · split
        · omega
        · next h3 h4 =>
          exact hhi (j.1 - 1) (by omega) (by omega)
    · next h1 h2 =>
      split
      · omega
      · split
        · omega
        · exact hstrict _ _ (by omega) (by omega)

/-! ### In-memory lookup and insert correctness -/

/-- Sortedness only depends on the child-value function and the
length. -/
theorem sortedChildren_of_childValue_eq {cs cs' : List TrieNode}
    (hlen : cs'.length = cs.length)
    (hcv : childValue cs' = childValue cs)
    (hs : SortedChildren cs) : SortedChildren cs' := by
  rw [SortedChildren, List.pairwise_iff_get]
  intro i j hij
  have hj := j.2
  have hvi := childValue_get cs' i.1 i.2
  have hvj := childValue_get cs' j.1 j.2
  simp only [List.get_eq_getElem] at hvi hvj ⊢
  rw [← hvi, ← hvj, hcv]
  exact childValue_strictMono hs hij (by omega)

/-- Descending into a found child: if some position holds the byte the
lookup descends into exactly that child. -/
theorem lookup_cons_found (v : Nat) (cs : List TrieNode) (i0 : Int) (f0 : Nat)
    (hs : SortedChildren cs) (ch : Nat) (p : Nat) (hp : p < cs.length)
    (hv : childValue cs p = ch) (rest : List Nat) :
    TrieNode.lookup (.mk v cs i0 f0) (ch :: rest) =
      (cs.get ⟨p, hp⟩).lookup rest := by
  have he := searchChild_eq cs ch hs hp hv
  simp only [TrieNode.lookup, TrieNode.children]
  split
  · next hcond => simp only [he]
  · next hcond =>
    exact absurd ⟨by rw [he]; exact hp, by rw [he]; exact hv⟩ hcond

/-- If no child holds the byte, the lookup returns `-1`. -/
theorem lookup_cons_none (v : Nat) (cs : List TrieNode) (i0 : Int) (f0 : Nat)
    (ch : Nat) (hn : ∀ k, k < cs.length → childValue cs k ≠ ch)
    (rest : List Nat) :
    TrieNode.lookup (.mk v cs i0 f0) (ch :: rest) = -1 := by
  simp only [TrieNode.lookup, TrieNode.children]
  split
  · next hcond => exact absurd hcond.2 (hn _ hcond.1)
  · rfl

/-- A fresh node maps every token to `-1`. -/
theorem lookup_new (va : Nat) (tok : List Nat) :
    (newTrieNode va).lookup tok = -1 := by
  cases tok with
  | nil => rfl
  | cons ch rest => rfl

/-- `insert` preserves the sortedness invariant. -/
theorem WFT_insert (tok : List Nat) (idx : Int) :
    ∀ t : TrieNode, WFT t → WFT (t.insert tok idx) := by
  induction tok with
  | nil =>
    intro t h
    cases t with
    | mk v cs i0 f0 =>
      cases h with
      | node _ _ _ _ hs hc => exact WFT.node v cs idx f0 hs hc
  | cons ch rest ih =>
    intro t h
    cases t with
    | mk v cs i0 f0 =>
      cases h with
      | node _ _ _ _ hs hc =>
        simp only [TrieNode.insert, TrieNode.children, TrieNode.value,
          TrieNode.index, TrieNode.fixup]
        set r := sortSearch cs.length (fun i => decide (ch ≤ childValue cs i))
          with hrdef
        by_cases hf : r < cs.length ∧ childValue cs r = ch
        · rw [dif_pos hf]
          set x := (cs.get ⟨r, hf.1⟩).insert rest idx with hx
          have hxv : x.value = childValue cs r := by
            rw [hx, TrieNode.insert_value]
            exact (childValue_get cs r hf.1).symm
          refine WFT.node _ _ _ _ ?_ ?_
          · exact sortedChildren_of_childValue_eq (by simp)
              (childValue_set cs r x hf.1 hxv) hs
          · intro c hcmem
            rcases List.mem_or_eq_of_mem_set hcmem with hm | he
            · exact hc c hm
            · subst he
              exact ih _ (hc _ (cs.get_mem _ _))
        · rw [dif_neg hf]
          set nn := (newTrieNode ch).insert rest idx with hnn
          have hnnv : nn.value = ch := by rw [hnn, TrieNode.insert_value]; rfl
          obtain ⟨hb1, hb2, hb3⟩ := searchChild_spec cs ch hs
          have hnone := searchChild_none cs ch hs hf
          refine WFT.node _ _ _ _ ?_ ?_
          · refine sortedChildren_insertIdx cs nn r hs hb1 ?_ ?_
            · intro k hk
              rw [hnnv]
              exact hb2 k hk
            · intro k hk1 hk2
              rw [hnnv]
              have h1 := hb3 k hk1 hk2
              have h2 := hnone k hk2
              omega
          · intro c hcmem
            rw [List.mem_insertIdx hb1] at hcmem
            rcases hcmem with he | hm
            · subst he
              exact ih _ (WFT_new ch)
            · exact hc c hm

/-- Looking up the token just inserted returns its index. -/
theorem lookup_insert_self (tok : List Nat) (idx : Int) :
    ∀ t : TrieNode, WFT t → (t.insert tok idx).lookup tok = idx := by
  induction tok with
  | nil =>
    intro t h
    cases t with
    | mk v cs i0 f0 => rfl
  | cons ch rest ih =>
    intro t h
    cases t with
    | mk v cs i0 f0 =>
      cases h with
      | node _ _ _ _ hs hc =>
        simp only [TrieNode.insert, TrieNode.children, TrieNode.value,
          TrieNode.index, TrieNode.fixup]
        set r := sortSearch cs.length (fun i => decide (ch ≤ childValue cs i))
          with hrdef
        by_cases hf : r < cs.length ∧ childValue cs r = ch
        · rw [dif_pos hf]
          set x := (cs.get ⟨r, hf.1⟩).insert rest idx with hx
          have hxv : x.value = childValue cs r := by
            rw [hx, TrieNode.insert_value]
            exact (childValue_get cs r hf.1).symm
          have hcv : childValue (cs.set r x) = childValue cs :=
            childValue_set cs r x hf.1 hxv
          have hs' : SortedChildren (cs.set r x) :=
            sortedChildren_of_childValue_eq (by simp) hcv hs
          have hp' : r < (cs.set r x).length := by
            simpa using hf.1
          have hv' : childValue (cs.set r x) r = ch := by
            rw [hcv]
            exact hf.2
          rw [lookup_cons_found v _ i0 f0 hs' ch r hp' hv' rest]
          have hget : (cs.set r x).get ⟨r, hp'⟩ = x := by
            simp only [List.get_eq_getElem]
            exact List.getElem_set_self hp'
          rw [hget, hx]
          exact ih _ (hc _ (cs.get_mem _ _))
        · rw [dif_neg hf]
          set nn := (newTrieNode ch).insert rest idx with hnn
          have hnnv : nn.value = ch := by rw [hnn, TrieNode.insert_value]; rfl
          obtain ⟨hb1, hb2, hb3⟩ := searchChild_spec cs ch hs
          have hnone := searchChild_none cs ch hs hf
          have hs' : SortedChildren (cs.insertIdx r nn) := by
            refine sortedChildren_insertIdx cs nn r hs hb1 ?_ ?_
            · intro k hk
              rw [hnnv]
              exact hb2 k hk
            · intro k hk1 hk2
              rw [hnnv]
              have h1 := hb3 k hk1 hk2
              have h2 := hnone k hk2
              omega
          have hlen' : (cs.insertIdx r nn).length = cs.length + 1 :=
            List.length_insertIdx r cs hb1
          have hvr : childValue (cs.insertIdx r nn) r = ch := by
            rw [childValue_insertIdx cs nn r hb1 r]
            simp [hnnv]
          have hr' : r < (cs.insertIdx r nn).length := by omega
          rw [lookup_cons_found v _ i0 f0 hs' ch r hr' hvr rest]
          have hget : (cs.insertIdx r nn).get ⟨r, hr'⟩ = nn := by
            simp only [List.get_eq_getElem]
            exact List.getElem_insertIdx_self cs nn r hb1
          rw [hget, hnn]
          exact ih _ (WFT_new ch)

/-- Looking up any other token is unchanged by an insert. -/
theorem lookup_insert_other (tok : List Nat) (idx : Int) :
    ∀ tok' : List Nat, tok' ≠ tok → ∀ t : TrieNode, WFT t →
      (t.insert tok idx).lookup tok' = t.lookup tok' := by
  induction tok with
  | nil =>
    intro tok' hne t h
    cases t with
    | mk v cs i0 f0 =>
      cases tok' with
      | nil => exact absurd rfl hne
      | cons ch' rest' => rfl
  | cons ch rest ih =>
    intro tok' hne t h
    cases t with
    | mk v cs i0 f0 =>
      cases h with
      | node _ _ _ _ hs hc =>
        simp only [TrieNode.insert, TrieNode.children, TrieNode.value,
          TrieNode.index, TrieNode.fixup]
        cases tok' with
        | nil => split <;> rfl
        | cons ch' rest' =>
          set r := sortSearch cs.length (fun i => decide (ch ≤ childValue cs i))
            with hrdef
          by_cases hf : r < cs.length ∧ childValue cs r = ch
          · rw [dif_pos hf]
            set x := (cs.get ⟨r, hf.1⟩).insert rest idx with hx
            have hxv : x.value = childValue cs r := by
              rw [hx, TrieNode.insert_value]
              exact (childValue_get cs r hf.1).symm
            have hcv : childValue (cs.set r x) = childValue cs :=
              childValue_set cs r x hf.1 hxv
            have hs' : SortedChildren (cs.set r x) :=
              sortedChildren_of_childValue_eq (by simp) hcv hs
            by_cases hxch : ∃ p, p < cs.length ∧ childValue cs p = ch'
            · obtain ⟨p, hp, hv⟩ := hxch
              have hp' : p < (cs.set r x).length := by simpa using hp
              have hv' : childValue (cs.set r x) p = ch' := by
                rw [hcv]
                exact hv
              rw [lookup_cons_found v _ i0 f0 hs' ch' p hp' hv' rest',
                lookup_cons_found v cs i0 f0 hs ch' p hp hv rest']
              by_cases hpr : p = r
              · subst hpr
                have hchch : ch' = ch := by rw [← hv, hf.2]
                have hget : (cs.set r x).get ⟨r, hp'⟩ = x := by
                  simp only [List.get_eq_getElem]
                  exact List.getElem_set_self hp'
                rw [hget, hx]
                have hrr : rest' ≠ rest := by
                  intro he
                  apply hne
                  rw [hchch, he]
                exact ih rest' hrr _ (hc _ (cs.get_mem _ _))
              · have hget : (cs.set r x).get ⟨p, hp'⟩ = cs.get ⟨p, hp⟩ := by
                  simp only [List.get_eq_getElem]
                  exact List.getElem_set_ne (fun he => hpr he.symm) hp'
                rw [hget]
            · push_neg at hxch
              have hn' : ∀ k, k < (cs.set r x).length →
                  childValue (cs.set r x) k ≠ ch' := by
                intro k hk
                rw [hcv]
                exact hxch k (by simpa using hk)
              rw [lookup_cons_none v _ i0 f0 ch' hn' rest',
                lookup_cons_none v cs i0 f0 ch' hxch rest']
          · rw [dif_neg hf]
            set nn := (newTrieNode ch).insert rest idx with hnn
            have hnnv : nn.value = ch := by rw [hnn, TrieNode.insert_value]; rfl
            obtain ⟨hb1, hb2, hb3⟩ := searchChild_spec cs ch hs
            have hnone := searchChild_none cs ch hs hf
            have hs' : SortedChildren (cs.insertIdx r nn) := by
              refine sortedChildren_insertIdx cs nn r hs hb1 ?_ ?_
              · intro k hk
                rw [hnnv]
                exact hb2 k hk
              · intro k hk1 hk2
                rw [hnnv]
                have h1 := hb3 k hk1 hk2
                have h2 := hnone k hk2
                omega
            have hlen' : (cs.insertIdx r nn).length = cs.length + 1 :=
              List.length_insertIdx r cs hb1
            by_cases hch : ch' = ch
            · subst hch
              have hvr : childValue (cs.insertIdx r nn) r = ch' := by
                rw [childValue_insertIdx cs nn r hb1 r]
                simp [hnnv]
              have hr' : r < (cs.insertIdx r nn).length := by omega
              rw [lookup_cons_found v _ i0 f0 hs' ch' r hr' hvr rest']
              have hget : (cs.insertIdx r nn).get ⟨r, hr'⟩ = nn := by
                simp only [List.get_eq_getElem]
                exact List.getElem_insertIdx_self cs nn r hb1
              rw [hget, hnn]
              have hrr : rest' ≠ rest := by
                intro he
                apply hne
                rw [he]
              rw [ih rest' hrr _ (WFT_new ch'), lookup_new,
                lookup_cons_none v cs i0 f0 ch' hnone rest']
            · by_cases hxch : ∃ p, p < cs.length ∧ childValue cs p = ch'
              · obtain ⟨p, hp, hv⟩ := hxch
                by_cases hpr : p < r
                · have hv' : childValue (cs.insertIdx r nn) p = ch' := by
                    rw [childValue_insertIdx cs nn r hb1 p, if_pos hpr]
                    exact hv
                  have hp' : p < (cs.insertIdx r nn).length := by omega
                  rw [lookup_cons_found v _ i0 f0 hs' ch' p hp' hv' rest',
                    lookup_cons_found v cs i0 f0 hs ch' p hp hv rest']
                  have hget : (cs.insertIdx r nn).get ⟨p, hp'⟩ =
                      cs.get ⟨p, hp⟩ := by
                    simp only [List.get_eq_getElem]
                    exact List.getElem_insertIdx_of_lt cs nn r p hpr hp
                  rw [hget]
                · have hv' : childValue (cs.insertIdx r nn) (p + 1) = ch' := by
                    rw [childValue_insertIdx cs nn r hb1 (p + 1),
                      if_neg (by omega), if_neg (by omega)]
                    simpa using hv
                  have hp' : p + 1 < (cs.insertIdx r nn).length := by omega
                  rw [lookup_cons_found v _ i0 f0 hs' ch' (p + 1) hp' hv' rest',
                    lookup_cons_found v cs i0 f0 hs ch' p hp hv rest']
                  have hget : (cs.insertIdx r nn).get ⟨p + 1, hp'⟩ =
                      cs.get ⟨p, hp⟩ := by
                    simp only [List.get_eq_getElem]
                    have h5 := List.getElem_insertIdx_add_succ cs nn r (p - r)
                      (by omega)
                    have e1 : r + (p - r) + 1 = p + 1 := by omega
                    have e2 : r + (p - r) = p := by omega
                    simp only [e1] at h5
                    simp only [e2] at h5
                    exact h5
                  rw [hget]
              · push_neg at hxch
                have hn' : ∀ k, k < (cs.insertIdx r nn).length →
                    childValue (cs.insertIdx r nn) k ≠ ch' := by
                  intro k hk
                  rw [childValue_insertIdx cs nn r hb1 k]
                  split
                  · next h1 => exact hxch k (by omega)
                  · split
                    · next h1 h2 =>
                      rw [hnnv]
                      exact fun he => hch he.symm
                    · next h1 h2 => exact hxch (k - 1) (by omega)
                rw [lookup_cons_none v _ i0 f0 ch' hn' rest',
                  lookup_cons_none v cs i0 f0 ch' hxch rest']

/-! ### Serialization (`gen/trie.go` `serialize`)

Go's `uint32`/`int` arithmetic is embedded with explicit mod `2^32`:
for a two's-complement 64-bit `int x`, `x & 0xffffff = x.emod (2^24)`
and `uint32 x = (x.emod (2^32)).toNat`, and truncation to the low 32
bits commutes with the bitwise ors used below. -/

/-- `uint32(x)` for a nonnegative value. -/
def u32 (n : Nat) : Nat :=
  n % 4294967296

/-- The fixup patch `(i & 0x7fffff) << 9` ored into a parent's child
entry. -/
def patchBits (i : Nat) : Nat :=
  (i &&& 0x7fffff) <<< 9

/-- Node header `((node.index+1)&0xffffff)<<8 | (len(children)&0xff)`. -/
def headerWord (index : Int) (count : Nat) : Nat :=
  (((index + 1).emod (2 ^ 24)).toNat <<< 8) ||| (count &&& 0xff)

/-- Leaf child entry `uint32(int(child.value) | child.index<<9 | 0x100)`. -/
def leafWord (value : Nat) (index : Int) : Nat :=
  (value % 2 ^ 32) ||| ((index * 2 ^ 9).emod (2 ^ 32)).toNat ||| 0x100

mutual

/-- `output` size: every node with children contributes
`len(children) + 1` words (the `node.walk` accumulation). -/
def sizeAccNode : TrieNode → Nat
  | .mk _ cs _ _ => (if 0 < cs.length then cs.length + 1 else 0) + sizeAccList cs

def sizeAccList : List TrieNode → Nat
  | [] => 0
  | c :: cs => sizeAccNode c + sizeAccList cs

end

mutual

/-- `maxDepth` accumulation of `node.walk`: the largest depth of any
node. -/
def maxDepthNode : TrieNode → Nat → Nat
  | .mk _ cs _ _, depth => max depth (maxDepthList cs (depth + 1))

def maxDepthList : List TrieNode → Nat → Nat
  | [], _ => 0
  | c :: cs, d => max (maxDepthNode c d) (maxDepthList cs d)

end

/-- The inner `for _, child := range node.children` loop of
`serialize`: emit one word per child (leaf data or a pointer entry
pending fixup), recording `child.fixup = i` on non-leaf children.  The
state is `(output, i)`. -/
def emitChildEntries : List TrieNode → List Nat × Nat →
    List TrieNode × (List Nat × Nat)
  | [], st => ([], st)
  | c :: cs, (out, i) =>
    if c.children.length = 0 then
      let out1 := out.set i (leafWord c.value c.index)
      let r := emitChildEntries cs (out1, i + 1)
      (c :: r.1, r.2)
    else
      let out1 := out.set i (u32 c.value)
      let c1 := TrieNode.mk c.value c.children c.index i
      let r := emitChildEntries cs (out1, i + 1)
      (c1 :: r.1, r.2)

mutual

/-- Number of nodes of a trie (used as fuel for the serializing
walk, whose recursion descends into the fixup-updated children). -/
def cntNode : TrieNode → Nat
  | .mk _ cs _ _ => 1 + cntList cs

/-- List form of `cntNode`. -/
def cntList : List TrieNode → Nat
  | [] => 0
  | c :: cs => cntNode c + cntList cs

end

mutual

/-- One pass of `node.walk` with the serializing closure: at
`depth == layer` apply the fixup patch and emit the node's header and
child entries, then continue walking into the (fixup-updated)
children.  The mutated tree is returned alongside the state
`(output, i)`.  `fuel` only bounds the recursion depth. -/
def emitNode (layer : Nat) : Nat → Nat → TrieNode → List Nat × Nat →
    TrieNode × (List Nat × Nat)
  | 0, _, t, st => (t, st)
  | fuel + 1, depth, .mk v cs idx fx, st =>
    if depth = layer then
      let st1 := if 0 < fx then
          (st.1.set fx ((st.1.getD fx 0) ||| patchBits st.2), st.2)
        else st
      if 0 < cs.length then
        let out1 := st1.1.set st1.2 (headerWord idx cs.length)
        let r := emitChildEntries cs (out1, st1.2 + 1)
        let r2 := emitList layer fuel (depth + 1) r.1 r.2
        (.mk v r2.1 idx fx, r2.2)
      else
        let r2 := emitList layer fuel (depth + 1) cs st1
        (.mk v r2.1 idx fx, r2.2)
    else
      let r2 := emitList layer fuel (depth + 1) cs st
      (.mk v r2.1 idx fx, r2.2)

/-- `emitNode` over a list of siblings, threading the state. -/
def emitList (layer : Nat) : Nat → Nat → List TrieNode → List Nat × Nat →
    List TrieNode × (List Nat × Nat)
  | 0, _, ns, st => (ns, st)
  | _ + 1, _, [], st => ([], st)
  | fuel + 1, depth, c :: cs, st =>
    let r := emitNode layer fuel depth c st
    let r2 := emitList layer fuel depth cs r.2
    (r.1 :: r2.1, r2.2)

end

/-- The `for layer := 0; layer <= maxDepth; layer++` loop of
`serialize`, with fuel `maxDepth + 1`. -/
def serializeLoop : Nat → Nat → TrieNode → List Nat × Nat → List Nat × Nat
  | 0, _, _, st => st
  | rem + 1, layer, t, st =>
    let r := emitNode layer (layer + cntNode t) 0 t st
    serializeLoop rem (layer + 1) r.1 r.2

/-- `TrieNode.serialize` from `gen/trie.go`. -/
def TrieNode.serialize (t : TrieNode) : List Nat :=
  (serializeLoop (maxDepthNode t 0 + 1) 0 t
    (List.replicate (sizeAccNode t) 0, 0)).1

/-! ### The serialized-trie lookup (`internal/serializedTrie.go`) -/

/-- The binary search `for left < right` loop inside
`serializedTrie.Lookup`, with fuel. -/
def bsearchLoop (trie : List Nat) (pos ch : Nat) :
    Nat → Nat → Nat → Nat
  | 0, left, _ => left
  | fuel + 1, left, right =>
    if left < right then
      let mid := left + (right - left) / 2
      if (trie.getD (pos + mid) 0) &&& 0xff < ch then
        bsearchLoop trie pos ch fuel (mid + 1) right
      else
        bsearchLoop trie pos ch fuel left mid
    else left

/-- The per-byte loop of `serializedTrie.Lookup`; the `[]` case is the
fall-through return `int(trie[pos]>>8) - 1`. -/
def serLookupLoop (trie : List Nat) : List Nat → Nat → Int
  | [], pos => ((trie.getD pos 0) >>> 8 : Nat) - 1
  | ch :: rest, pos =>
    let trieValue := trie.getD pos 0
    let pos1 := pos + 1
    let childCount := trieValue &&& 0xff
    if childCount = 0 then
      let tv := trie.getD (pos1 + ch) 0
      if tv &&& 0x100 ≠ 0 then
        if rest = [] then ((tv >>> 9 : Nat) : Int) else -1
      else serLookupLoop trie rest (tv >>> 9)
    else
      let left := bsearchLoop trie pos1 ch childCount 0 childCount
      if left = childCount then -1
      else
        let childIndex := pos1 + left
        if (trie.getD childIndex 0) &&& 0xff ≠ ch then -1
        else
          let tv := trie.getD childIndex 0
          if tv &&& 0x100 ≠ 0 then
            if rest = [] then ((tv >>> 9 : Nat) : Int) else -1
          else serLookupLoop trie rest (tv >>> 9)

/-- `serializedTrie.Lookup` / `TrieLookup` from
`internal/serializedTrie.go`. -/
def TrieLookup (trie : List Nat) (input : List Nat) : Int :=
  if input.length = 0 then -1
  else serLookupLoop trie input 0

/-! ### Bit-arithmetic kit for the serialized words -/

/-- Or of values occupying disjoint bit ranges is addition. -/
theorem lor_eq_add : ∀ (k : Nat) {a b : Nat}, a % 2 ^ k = 0 → b < 2 ^ k →
    a ||| b = a + b := by
  intro k
  induction k with
  | zero =>
    intro a b _ hb
    have : b = 0 := by omega
    subst this
    simp
  | succ m ih =>
    intro a b ha hb
    have ha2 : a % 2 = 0 := by
      have h1 : (2 : Nat) ∣ 2 ^ (m + 1) := dvd_pow_self 2 (by omega)
      have h2 : (2 : Nat) ∣ a := dvd_trans h1 (Nat.dvd_of_mod_eq_zero ha)
      omega
    have hd : a / 2 % 2 ^ m = 0 := by
      obtain ⟨c, hc⟩ := Nat.dvd_of_mod_eq_zero ha
      subst hc
      rw [pow_succ]
      rw [Nat.mul_comm (2 ^ m) 2, Nat.mul_assoc, Nat.mul_div_cancel_left _ (by omega)]
      simp [Nat.mul_mod_right]
    have hb2 : b / 2 < 2 ^ m := by
      rw [pow_succ] at hb
      omega
    have hrec := ih hd hb2
    have hsplit : (a ||| b) = 2 * (a / 2 ||| b / 2) + (a ||| b) % 2 := by
      rw [← Nat.or_div_two]
      omega
    have hm2 : (a ||| b) % 2 = b % 2 := by
      rcases Nat.mod_two_eq_zero_or_one b with h2 | h2
      · rcases Nat.mod_two_eq_zero_or_one (a ||| b) with h | h
        · omega
        · have := (Nat.or_mod_two_eq_one).1 h
          omega
      · rw [h2]
        exact (Nat.or_mod_two_eq_one).2 (Or.inr h2)
    calc a ||| b = 2 * (a / 2 ||| b / 2) + (a ||| b) % 2 := hsplit
      _ = 2 * (a / 2 + b / 2) + b % 2 := by rw [hrec, hm2]
      _ = a + b := by omega

/-- `x &&& 0xff` is `x % 256`. -/
theorem and_ff (x : Nat) : x &&& 0xff = x % 256 := by
  have h := Nat.and_pow_two_sub_one_eq_mod x 8
  norm_num at h
  exact h

/-- `x &&& 0x7fffff` is `x % 2^23`. -/
theorem and_7fffff (x : Nat) : x &&& 0x7fffff = x % 2 ^ 23 := by
  have h := Nat.and_pow_two_sub_one_eq_mod x 23
  norm_num at h
  rw [show ((0x7fffff : Nat) = 8388607) from rfl, h]
  norm_num

/-- `patchBits` under the offset bound. -/
theorem patchBits_eq (i : Nat) (h : i < 2 ^ 23) : patchBits i = i * 512 := by
  rw [patchBits, and_7fffff, Nat.mod_eq_of_lt h, Nat.shiftLeft_eq]

/-- `headerWord` under the index bound. -/
theorem headerWord_eq (index : Int) (count : Nat)
    (h1 : -1 ≤ index) (h2 : index < 2 ^ 23) :
    headerWord index count = (index + 1).toNat * 256 + count % 256 := by
  rw [headerWord]
  have h24 : (2 : Int) ^ 24 = 16777216 := by norm_num
  have h23 : (2 : Int) ^ 23 = 8388608 := by norm_num
  have he : (index + 1).emod (2 ^ 24) = index + 1 :=
    Int.emod_eq_of_lt (by omega) (by omega)
  rw [he, Nat.shiftLeft_eq, and_ff]
  rw [lor_eq_add 8 (by norm_num [Nat.mul_mod_left]) (by omega)]

/-- `leafWord` under the byte and index bounds. -/
theorem leafWord_eq (value : Nat) (index : Int)
    (hv : value < 256) (h0 : 0 ≤ index) (h1 : index < 2 ^ 23) :
    leafWord value index = value + 256 + index.toNat * 512 := by
  rw [leafWord]
  have h32 : (2 : Int) ^ 32 = 4294967296 := by norm_num
  have h23 : (2 : Int) ^ 23 = 8388608 := by norm_num
  have h9 : (2 : Int) ^ 9 = 512 := by norm_num
  have he : (index * 2 ^ 9).emod (2 ^ 32) = index * 2 ^ 9 :=
    Int.emod_eq_of_lt (by positivity) (by nlinarith)
  rw [he]
  have ht : (index * 2 ^ 9).toNat = index.toNat * 512 := by
    rw [h9]
    omega
  rw [ht]
  have hm : value % 2 ^ 32 = value := Nat.mod_eq_of_lt (by norm_num; omega)
  rw [hm, Nat.or_assoc]
  rw [lor_eq_add 9 (a := index.toNat * 512) (by norm_num [Nat.mul_mod_left]) (by norm_num)]
  rw [Nat.or_comm]
  rw [lor_eq_add 8 (a := index.toNat * 512 + 256) (by omega) (by omega)]
  omega

/-! ### The layout invariant of a serialized trie -/

/-- `Represents arr pos t`: the flat array `arr` holds, at `pos`, the
header of the internal node `t` followed by one entry per child, leaf
children inline and internal children as patched pointers to their own
headers. -/
inductive Represents (arr : List Nat) : Nat → TrieNode → Prop where
  | node (pos : Nat) (v : Nat) (cs : List TrieNode) (idx : Int) (fx : Nat)
      (ofs : Nat → Nat) :
      0 < cs.length →
      arr.getD pos 0 = headerWord idx cs.length →
      (∀ j (hj : j < cs.length), (cs.get ⟨j, hj⟩).children.length = 0 →
        arr.getD (pos + 1 + j) 0 =
          leafWord (cs.get ⟨j, hj⟩).value (cs.get ⟨j, hj⟩).index) →
      (∀ j (hj : j < cs.length), 0 < (cs.get ⟨j, hj⟩).children.length →
        ofs j < 2 ^ 23) →
      (∀ j (hj : j < cs.length), 0 < (cs.get ⟨j, hj⟩).children.length →
        arr.getD (pos + 1 + j) 0 =
          u32 (cs.get ⟨j, hj⟩).value ||| patchBits (ofs j)) →
      (∀ j (hj : j < cs.length), 0 < (cs.get ⟨j, hj⟩).children.length →
        Represents arr (ofs j) (cs.get ⟨j, hj⟩)) →
      Represents arr pos (.mk v cs idx fx)

/-- Well-formedness needed by the serialized format: children sorted,
byte values in range, indices in range, and childless nodes carrying a
real token index. -/
inductive WFS : TrieNode → Prop where
  | node (v : Nat) (cs : List TrieNode) (idx : Int) (fx : Nat) :
      SortedChildren cs →
      (∀ c ∈ cs, c.value < 256) →
      -1 ≤ idx → idx < 2 ^ 23 →
      (cs = [] → 0 ≤ idx) →
      (∀ c ∈ cs, WFS c) → WFS (.mk v cs idx fx)

theorem WFS.sorted_wfs {t : TrieNode} (h : WFS t) : SortedChildren t.children := by
  cases h with
  | node v cs idx fx h1 h2 h3 h4 h5 h6 => exact h1

theorem WFS.val256 {t : TrieNode} (h : WFS t) : ∀ c ∈ t.children, c.value < 256 := by
  cases h with
  | node v cs idx fx h1 h2 h3 h4 h5 h6 => exact h2

theorem WFS.idx_lb {t : TrieNode} (h : WFS t) : -1 ≤ t.index := by
  cases h with
  | node v cs idx fx h1 h2 h3 h4 h5 h6 => exact h3

theorem WFS.idx_ub {t : TrieNode} (h : WFS t) : t.index < 2 ^ 23 := by
  cases h with
  | node v cs idx fx h1 h2 h3 h4 h5 h6 => exact h4

theorem WFS.leaf_idx {t : TrieNode} (h : WFS t) :
    t.children = [] → 0 ≤ t.index := by
  cases h with
  | node v cs idx fx h1 h2 h3 h4 h5 h6 => exact h5

theorem WFS.child_wfs {t : TrieNode} (h : WFS t) : ∀ c ∈ t.children, WFS c := by
  cases h with
  | node v cs idx fx h1 h2 h3 h4 h5 h6 => exact h6

/-- Strictly sorted child values grow at least linearly. -/
theorem childValue_add_le {cs : List TrieNode} (hs : SortedChildren cs) :
    ∀ (d a : Nat), a + d < cs.length → childValue cs a + d ≤ childValue cs (a + d) := by
  intro d
  induction d with
  | zero =>
    intro a _
    simp
  | succ m ih =>
    intro a h
    have h1 := ih a (by omega)
    have h2 := childValue_strictMono hs (a := a + m) (b := a + m + 1) (by omega) (by omega)
    have he : a + (m + 1) = a + m + 1 := by omega
    rw [he]
    omega

/-- A sorted child list of byte values has at most 256 entries. -/
theorem sorted_children_le_256 {cs : List TrieNode} (hs : SortedChildren cs)
    (hv : ∀ c ∈ cs, c.value < 256) : cs.length ≤ 256 := by
  by_contra h
  push_neg at h
  have h1 := childValue_add_le hs 256 0 (by omega)
  simp at h1
  have h2 : childValue cs 256 < 256 := by
    rw [childValue_get cs 256 (by omega)]
    exact hv _ (cs.get_mem _ _)
  omega

/-- With 256 sorted byte-valued children, the `k`-th child has value
`k`. -/
theorem childValue_eq_self_of_full {cs : List TrieNode} (hs : SortedChildren cs)
    (hv : ∀ c ∈ cs, c.value < 256) (hlen : cs.length = 256)
    (k : Nat) (hk : k < 256) : childValue cs k = k := by
  have h1 := childValue_add_le hs k 0 (by omega)
  simp at h1
  have h2 := childValue_add_le hs (255 - k) k (by omega)
  have h3 : childValue cs (k + (255 - k)) < 256 := by
    rw [childValue_get cs _ (by omega)]
    exact hv _ (cs.get_mem _ _)
  omega

/-- Lookup of a non-empty token at a childless node fails. -/
theorem lookup_leaf {t : TrieNode} (h : t.children = []) (ch : Nat)
    (rest : List Nat) : t.lookup (ch :: rest) = -1 := by
  cases t with
  | mk v cs idx fx =>
    simp only [TrieNode.children] at h
    subst h
    rfl

/-- The serialized binary search is Go's `sort.Search` loop over the
child entries. -/
theorem bsearchLoop_eq_sortSearchLoop (trie : List Nat) (pos ch : Nat) :
    ∀ (fuel l r : Nat), l ≤ r →
      bsearchLoop trie pos ch fuel l r =
        sortSearchLoop (fun m => decide (ch ≤ (trie.getD (pos + m) 0) &&& 0xff))
          fuel l r := by
  intro fuel
  induction fuel with
  | zero => intro l r _; rfl
  | succ n ih =>
    intro l r hlr
    simp only [bsearchLoop, sortSearchLoop]
    split
    · next hlt =>
      have hmid : l + (r - l) / 2 = (l + r) / 2 := by omega
      rw [hmid]
      split
      · next hc =>
        rw [if_neg (by simp only [decide_eq_true_eq]; omega)]
        exact ih _ _ (by omega)
      · next hc =>
        rw [if_pos (by simp only [decide_eq_true_eq]; omega)]
        exact ih _ _ (by omega)
    · rfl

/-- Bit 8 of a word, arithmetically. -/
theorem and_100_of (x : Nat) : x &&& 0x100 = (x / 256 % 2) * 256 := by
  rw [show (0x100 : Nat) = 2 ^ 8 from rfl, Nat.and_two_pow, Nat.testBit_to_div_mod]
  norm_num
  by_cases h : x / 256 % 2 = 1
  · simp [h]
  · rw [decide_eq_false h]
    simp only [Bool.toNat_false]
    omega

/-- `sortSearchLoop` only evaluates its predicate below the right
endpoint. -/
theorem sortSearchLoop_congr (f g : Nat → Bool) (n : Nat)
    (hfg : ∀ m, m < n → f m = g m) :
    ∀ fuel i j, j ≤ n →
      sortSearchLoop f fuel i j = sortSearchLoop g fuel i j := by
  intro fuel
  induction fuel with
  | zero => intro i j _; rfl
  | succ m ih =>
    intro i j hj
    simp only [sortSearchLoop]
    split
    · next hij =>
      rw [hfg _ (by omega)]
      split
      · exact ih _ _ (by omega)
      · exact ih _ _ hj
    · rfl

/-- Continuation of the serialized lookup once the child entry word is
in hand: it agrees with the in-memory lookup descending into that
child. -/
theorem serLookup_entry (arr : List Nat) (rest : List Nat) (c : TrieNode)
    (tv : Nat) (hWc : WFS c) (hcv : c.value < 256)
    (hIH : ∀ t pos, Represents arr pos t → WFS t →
        serLookupLoop arr rest pos = t.lookup rest)
    (hleafcase : c.children.length = 0 → tv = leafWord c.value c.index)
    (hptrcase : 0 < c.children.length → ∃ pos2, pos2 < 2 ^ 23 ∧
        tv = u32 c.value ||| patchBits pos2 ∧ Represents arr pos2 c) :
    (if tv &&& 0x100 ≠ 0 then
        (if rest = [] then ((tv >>> 9 : Nat) : Int) else (-1 : Int))
      else serLookupLoop arr rest (tv >>> 9)) = c.lookup rest := by
  by_cases hcl : c.children.length = 0
  · have hnil : c.children = [] := List.length_eq_zero.1 hcl
    have hi0 : 0 ≤ c.index := hWc.leaf_idx hnil
    have hiu : c.index < 2 ^ 23 := hWc.idx_ub
    have htv : tv = c.value + 256 + c.index.toNat * 512 := by
      rw [hleafcase hcl, leafWord_eq _ _ hcv hi0 hiu]
    have hbit : tv &&& 0x100 ≠ 0 := by
      rw [htv, and_100_of]
      have h1 : (c.value + 256 + c.index.toNat * 512) / 256 % 2 = 1 := by omega
      omega
    rw [if_pos hbit]
    cases rest with
    | nil =>
      rw [if_pos rfl]
      have hsh : tv >>> 9 = c.index.toNat := by
        rw [Nat.shiftRight_eq_div_pow, htv]
        norm_num
        omega
      rw [hsh]
      simp only [TrieNode.lookup]
      omega
    | cons r rs =>
      rw [if_neg (by simp)]
      rw [lookup_leaf hnil]
  · obtain ⟨pos2, hp2, htv, hrep⟩ := hptrcase (by omega)
    have htv2 : tv = c.value + pos2 * 512 := by
      rw [htv]
      rw [show u32 c.value = c.value from Nat.mod_eq_of_lt (by omega)]
      rw [patchBits_eq pos2 hp2, Nat.or_comm, lor_eq_add 9 (by omega) (by omega)]
      omega
    have hbit : ¬(tv &&& 0x100 ≠ 0) := by
      rw [htv2, and_100_of]
      have h1 : (c.value + pos2 * 512) / 256 % 2 = 0 := by omega
      omega
    rw [if_neg hbit]
    have hsh : tv >>> 9 = pos2 := by
      rw [Nat.shiftRight_eq_div_pow, htv2]
      norm_num
      omega
    rw [hsh]
    exact hIH c pos2 hrep hWc

/-- The serialized lookup loop refines the in-memory trie lookup on a
represented internal node. -/
theorem serLookup_refines (arr : List Nat) :
    ∀ (key : List Nat) (t : TrieNode) (pos : Nat),
      (∀ b ∈ key, b < 256) →
      Represents arr pos t → WFS t →
      serLookupLoop arr key pos = t.lookup key := by
  intro key
  induction key with
  | nil =>
    intro t pos _ hR hW
    cases hR with
    | node pos v cs idx fx ofs hlen hhd hleaf hobnd hoptr horep =>
      have hl : -1 ≤ idx := hW.idx_lb
      have hu : idx < 2 ^ 23 := hW.idx_ub
      simp only [serLookupLoop]
      rw [hhd, headerWord_eq idx cs.length hl hu, Nat.shiftRight_eq_div_pow]
      have hdiv : ((idx + 1).toNat * 256 + cs.length % 256) / 2 ^ 8 =
          (idx + 1).toNat := by
        norm_num
        omega
      rw [hdiv]
      show ((idx + 1).toNat : Int) - 1 = idx
      omega
  | cons ch rest ih =>
    intro t pos hb hR hW
    cases hR with
    | node pos v cs idx fx ofs hlen hhd hleaf hobnd hoptr horep =>
      have hso : SortedChildren cs := hW.sorted_wfs
      have hv256 : ∀ c ∈ cs, c.value < 256 := hW.val256
      have hch : ch < 256 := hb ch (by simp)
      have hbrest : ∀ b ∈ rest, b < 256 := fun b hb2 => hb b (by simp [hb2])
      have hcnt : cs.length ≤ 256 := sorted_children_le_256 hso hv256
      have hl : -1 ≤ idx := hW.idx_lb
      have hu : idx < 2 ^ 23 := hW.idx_ub
      have hIH : ∀ t2 pos2, Represents arr pos2 t2 → WFS t2 →
          serLookupLoop arr rest pos2 = t2.lookup rest :=
        fun t2 pos2 hR2 hW2 => ih t2 pos2 hbrest hR2 hW2
      have hlow : ∀ m, m < cs.length →
          (arr.getD (pos + 1 + m) 0) &&& 0xff = childValue cs m := by
        intro m hm
        have hcm : (cs.get ⟨m, hm⟩).value < 256 := hv256 _ (cs.get_mem _ _)
        have hWm : WFS (cs.get ⟨m, hm⟩) := hW.child_wfs _ (cs.get_mem _ _)
        by_cases hml : (cs.get ⟨m, hm⟩).children.length = 0
        · rw [hleaf m hm hml,
            leafWord_eq _ _ hcm (hWm.leaf_idx (List.length_eq_zero.1 hml))
              hWm.idx_ub,
            and_ff, childValue_get cs m hm]
          omega
        · rw [hoptr m hm (by omega)]
          have hb2 := hobnd m hm (by omega)
          rw [show u32 (cs.get ⟨m, hm⟩).value = (cs.get ⟨m, hm⟩).value from
            Nat.mod_eq_of_lt (by omega)]
          rw [patchBits_eq _ hb2, Nat.or_comm, lor_eq_add 9 (by omega) (by omega),
            and_ff, childValue_get cs m hm]
          omega
      simp only [serLookupLoop]
      rw [hhd, headerWord_eq idx cs.length hl hu, and_ff]
      have hmod : ((idx + 1).toNat * 256 + cs.length % 256) % 256 =
          cs.length % 256 := by omega
      rw [hmod]
      by_cases h0 : cs.length % 256 = 0
      · rw [if_pos h0]
        have hfull : cs.length = 256 := by omega
        have hp : ch < cs.length := by omega
        have hcvch : childValue cs ch = ch :=
          childValue_eq_self_of_full hso hv256 hfull ch hch
        rw [lookup_cons_found v cs idx fx hso ch ch hp hcvch rest]
        exact serLookup_entry arr rest _ _ (hW.child_wfs _ (cs.get_mem _ _))
          (hv256 _ (cs.get_mem _ _)) hIH
          (fun h => hleaf ch hp h)
          (fun h => ⟨ofs ch, hobnd ch hp h, hoptr ch hp h, horep ch hp h⟩)
      · rw [if_neg h0]
        have hlt : cs.length < 256 := by omega
        rw [Nat.mod_eq_of_lt hlt]
        rw [bsearchLoop_eq_sortSearchLoop arr (pos + 1) ch cs.length 0 cs.length
          (by omega)]
        rw [sortSearchLoop_congr
          (fun m => decide (ch ≤ (arr.getD (pos + 1 + m) 0) &&& 0xff))
          (fun m => decide (ch ≤ childValue cs m)) cs.length
          (fun m hm => by simp only [hlow m hm]) cs.length 0 cs.length (le_refl _)]
        rw [show sortSearchLoop (fun m => decide (ch ≤ childValue cs m))
            cs.length 0 cs.length =
          sortSearch cs.length (fun m => decide (ch ≤ childValue cs m)) from rfl]
        by_cases hex : ∃ p, p < cs.length ∧ childValue cs p = ch
        · obtain ⟨p, hp, hv⟩ := hex
          rw [searchChild_eq cs ch hso hp hv]
          rw [if_neg (by omega)]
          rw [hlow p hp]
          rw [if_neg (show ¬(childValue cs p ≠ ch) from fun hne => hne hv)]
          rw [lookup_cons_found v cs idx fx hso ch p hp hv rest]
          exact serLookup_entry arr rest _ _ (hW.child_wfs _ (cs.get_mem _ _))
            (hv256 _ (cs.get_mem _ _)) hIH
            (fun h => hleaf p hp h)
            (fun h => ⟨ofs p, hobnd p hp h, hoptr p hp h, horep p hp h⟩)
        · push_neg at hex
          obtain ⟨hb1, hb2, hb3⟩ := searchChild_spec cs ch hso
          rcases Nat.lt_or_ge
            (sortSearch cs.length (fun m => decide (ch ≤ childValue cs m)))
            cs.length with hL2 | hL2
          · rw [if_neg (by omega)]
            rw [hlow _ hL2]
            rw [if_pos (hex _ hL2)]
            rw [lookup_cons_none v cs idx fx ch hex rest]
          · rw [if_pos (by omega)]
            rw [lookup_cons_none v cs idx fx ch hex rest]

/-! ### Flattening the layered serialization walk -/

/-- The `depth == layer` action of the serializing closure on one
node. -/
def blockEmit (t : TrieNode) (st : List Nat × Nat) :
    TrieNode × (List Nat × Nat) :=
  match t with
  | .mk v cs idx fx =>
    let st1 := if 0 < fx then
        (st.1.set fx ((st.1.getD fx 0) ||| patchBits st.2), st.2)
      else st
    if 0 < cs.length then
      let out1 := st1.1.set st1.2 (headerWord idx cs.length)
      let r := emitChildEntries cs (out1, st1.2 + 1)
      (.mk v r.1 idx fx, r.2)
    else (.mk v cs idx fx, st1)

/-- `blockEmit` threaded over a list of nodes. -/
def emitSeq : List TrieNode → List Nat × Nat →
    List TrieNode × (List Nat × Nat)
  | [], st => ([], st)
  | n :: ns, st =>
    let r := blockEmit n st
    let r2 := emitSeq ns r.2
    (r.1 :: r2.1, r2.2)

mutual

/-- Apply `blockEmit` to every descendant `k` levels below, in
depth-first order. -/
def applyLayerNode : Nat → TrieNode → List Nat × Nat →
    TrieNode × (List Nat × Nat)
  | 0, t, st => blockEmit t st
  | k + 1, .mk v cs idx fx, st =>
    let r := applyLayerList k cs st
    (.mk v r.1 idx fx, r.2)

/-- List form of `applyLayerNode`. -/
def applyLayerList : Nat → List TrieNode → List Nat × Nat →
    List TrieNode × (List Nat × Nat)
  | _, [], st => ([], st)
  | k, c :: cs, st =>
    let r := applyLayerNode k c st
    let r2 := applyLayerList k cs r.2
    (r.1 :: r2.1, r2.2)

end

mutual

/-- The descendants of `t` exactly `k` levels below, in depth-first
order. -/
def nodesAt : TrieNode → Nat → List TrieNode
  | t, 0 => [t]
  | .mk _ cs _ _, k + 1 => nodesAtList cs k

/-- List form of `nodesAt`. -/
def nodesAtList : List TrieNode → Nat → List TrieNode
  | [], _ => []
  | c :: cs, k => nodesAt c k ++ nodesAtList cs k

end

/-- The concatenation of the children of a list of nodes: the next
layer down. -/
def childListOf : List TrieNode → List TrieNode
  | [] => []
  | n :: ns => n.children ++ childListOf ns

/-- The per-layer iteration of `serialize`, on flat layer lists. -/
def passes : Nat → List TrieNode → List Nat × Nat → List Nat × Nat
  | 0, _, st => st
  | rem + 1, ns, st =>
    let r := emitSeq ns st
    passes rem (childListOf r.1) r.2

/-- Words a single node's block occupies in the output. -/
def blockSize (t : TrieNode) : Nat :=
  if 0 < t.children.length then t.children.length + 1 else 0

/-- Words one layer occupies in the output. -/
def layerWords : List TrieNode → Nat
  | [] => 0
  | n :: ns => blockSize n + layerWords ns

mutual

/-- Height of a trie (a single node has height 1). -/
def heightNode : TrieNode → Nat
  | .mk _ cs _ _ => 1 + heightList cs

/-- Maximum height over a list of tries. -/
def heightList : List TrieNode → Nat
  | [] => 0
  | c :: cs => max (heightNode c) (heightList cs)

end

/-- Replace the fixup field. -/
def refix (c : TrieNode) (p : Nat) : TrieNode :=
  .mk c.value c.children c.index p

/-- The children after `emitChildEntries` starting at position `p`:
internal children have their fixup set to their entry position. -/
def entryFix : List TrieNode → Nat → List TrieNode
  | [], _ => []
  | c :: cs, p =>
    (if c.children.length = 0 then c else refix c p) :: entryFix cs (p + 1)

/-- Number of children contributed by the first `j` nodes of a layer. -/
def childrenBefore : List TrieNode → Nat → Nat
  | _, 0 => 0
  | [], _ + 1 => 0
  | n :: ns, j + 1 => n.children.length + childrenBefore ns j

/-- All strict descendants have fixup `0`. -/
inductive SubFixZero : TrieNode → Prop where
  | node (v : Nat) (cs : List TrieNode) (idx : Int) (fx : Nat) :
      (∀ c ∈ cs, c.fixup = 0) → (∀ c ∈ cs, SubFixZero c) →
      SubFixZero (.mk v cs idx fx)

theorem SubFixZero.childFix {t : TrieNode} (h : SubFixZero t) :
    ∀ c ∈ t.children, c.fixup = 0 := by
  cases h with
  | node v cs idx fx h1 h2 => exact h1

theorem SubFixZero.child_sfz {t : TrieNode} (h : SubFixZero t) :
    ∀ c ∈ t.children, SubFixZero c := by
  cases h with
  | node v cs idx fx h1 h2 => exact h2

/-- `Represents` never inspects the top-level fixup field. -/
theorem Represents_refix {arr : List Nat} {pos : Nat} {v : Nat}
    {cs : List TrieNode} {idx : Int} {fx fx2 : Nat}
    (h : Represents arr pos (.mk v cs idx fx)) :
    Represents arr pos (.mk v cs idx fx2) := by
  cases h with
  | node pos v cs idx fx ofs h1 h2 h3 h4 h5 h6 =>
    exact Represents.node pos v cs idx fx2 ofs h1 h2 h3 h4 h5 h6

/-- A node's size splits into its own block and its descendants. -/
theorem sizeAccNode_eq (t : TrieNode) :
    sizeAccNode t = blockSize t + sizeAccList t.children := by
  cases t with
  | mk v cs idx fx => rfl

/-- Heights are positive. -/
theorem heightNode_pos (t : TrieNode) : 0 < heightNode t := by
  cases t with
  | mk v cs idx fx =>
    simp only [heightNode]
    omega

/-- A child is strictly lower. -/
theorem heightNode_child {t c : TrieNode} (h : c ∈ t.children) :
    heightNode c < heightNode t := by
  cases t with
  | mk v cs idx fx =>
    simp only [TrieNode.children] at h
    simp only [heightNode]
    have : heightNode c ≤ heightList cs := by
      induction cs with
      | nil => simp at h
      | cons d ds ih =>
        simp only [heightList]
        rcases List.mem_cons.1 h with he | hm
        · subst he
          omega
        · have := ih hm
          omega
    omega

theorem emitSeq_append (as bs : List TrieNode) (st : List Nat × Nat) :
    emitSeq (as ++ bs) st =
      ((emitSeq as st).1 ++ (emitSeq bs (emitSeq as st).2).1,
        (emitSeq bs (emitSeq as st).2).2) := by
  induction as generalizing st with
  | nil => rfl
  | cons a as ih =>
    simp only [List.cons_append, emitSeq, List.append_eq]
    rw [ih]

theorem childListOf_append (as bs : List TrieNode) :
    childListOf (as ++ bs) = childListOf as ++ childListOf bs := by
  induction as with
  | nil => rfl
  | cons a as ih =>
    simp only [List.cons_append, childListOf, List.append_eq, ih, List.append_assoc]

theorem nodesAtList_zero (ns : List TrieNode) : nodesAtList ns 0 = ns := by
  induction ns with
  | nil => rfl
  | cons n ns ih =>
    simp only [nodesAtList, nodesAt, ih]
    rfl

theorem nodesAt_zero (t : TrieNode) : nodesAt t 0 = [t] := by
  cases t with
  | mk v cs idx fx => rfl

theorem applyLayerNode_zero (t : TrieNode) (st : List Nat × Nat) :
    applyLayerNode 0 t st = blockEmit t st := by
  cases t with
  | mk v cs idx fx => rfl

theorem cntNode_pos (t : TrieNode) : 0 < cntNode t := by
  cases t with
  | mk v cs idx fx =>
    simp only [cntNode]
    omega

/-- Below the target layer the serializing walk is the identity. -/
theorem emit_skip (layer : Nat) : ∀ fuel,
    (∀ depth (t : TrieNode) st, layer < depth →
      emitNode layer fuel depth t st = (t, st)) ∧
    (∀ depth (ns : List TrieNode) st, layer < depth →
      emitList layer fuel depth ns st = (ns, st)) := by
  intro fuel
  induction fuel with
  | zero =>
    constructor
    · intro depth t st _
      rfl
    · intro depth ns st _
      rfl
  | succ m ih =>
    obtain ⟨ihn, ihl⟩ := ih
    constructor
    · intro depth t st h
      cases t with
      | mk v cs idx fx =>
        simp only [emitNode]
        rw [if_neg (by omega), ihl (depth + 1) cs st (by omega)]
    · intro depth ns st h
      cases ns with
      | nil => rfl
      | cons c cs =>
        simp only [emitList]
        rw [ihn depth c st h, ihl depth cs st h]

/-- At its own layer the walk performs exactly the block action. -/
theorem emitNode_at (layer fuel : Nat) (t : TrieNode) (st : List Nat × Nat) :
    emitNode layer (fuel + 1) layer t st = blockEmit t st := by
  cases t with
  | mk v cs idx fx =>
    simp only [emitNode, blockEmit, eq_self_iff_true, if_true]
    by_cases hc : 0 < cs.length
    · rw [if_pos hc, if_pos hc,
        (emit_skip layer fuel).2 (layer + 1) _ _ (by omega)]
    · rw [if_neg hc, if_neg hc,
        (emit_skip layer fuel).2 (layer + 1) _ _ (by omega)]

/-- With enough fuel the walk at distance `k` from the target layer is
`applyLayerNode k`. -/
theorem emit_applyLayer (layer : Nat) : ∀ fuel k,
    (∀ depth (t : TrieNode) st, layer = depth + k → k + cntNode t ≤ fuel →
      emitNode layer fuel depth t st = applyLayerNode k t st) ∧
    (∀ depth (ns : List TrieNode) st, layer = depth + k →
      k + cntList ns + 1 ≤ fuel →
      emitList layer fuel depth ns st = applyLayerList k ns st) := by
  intro fuel
  induction fuel with
  | zero =>
    intro k
    constructor
    · intro depth t st _ hf
      have := cntNode_pos t
      omega
    · intro depth ns st _ hf
      omega
  | succ m ih =>
    intro k
    constructor
    · intro depth t st hlay hf
      cases t with
      | mk v cs idx fx =>
        cases k with
        | zero =>
          have he : layer = depth := by omega
          subst he
          exact emitNode_at layer m _ st
        | succ k2 =>
          simp only [emitNode, applyLayerNode]
          rw [if_neg (by omega)]
          rw [(ih k2).2 (depth + 1) cs st (by omega)
            (by simp only [cntNode] at hf; omega)]
    · intro depth ns st hlay hf
      cases ns with
      | nil =>
        cases k <;> rfl
      | cons c cs =>
        simp only [emitList, applyLayerList]
        have hc := cntNode_pos c
        simp only [cntList] at hf
        rw [(ih k).1 depth c st hlay (by omega)]
        rw [(ih k).2 depth cs _ hlay (by omega)]

/-- `applyLayerNode` flattens to `emitSeq` over the layer list, and
the updated tree's next layer is the children of the updated layer
list. -/
theorem applyLayer_flat : ∀ k,
    (∀ (t : TrieNode) st,
      (applyLayerNode k t st).2 = (emitSeq (nodesAt t k) st).2 ∧
      nodesAt (applyLayerNode k t st).1 (k + 1) =
        childListOf (emitSeq (nodesAt t k) st).1) ∧
    (∀ (ns : List TrieNode) st,
      (applyLayerList k ns st).2 = (emitSeq (nodesAtList ns k) st).2 ∧
      nodesAtList (applyLayerList k ns st).1 (k + 1) =
        childListOf (emitSeq (nodesAtList ns k) st).1) := by
  intro k
  induction k with
  | zero =>
    have hnode : ∀ (t : TrieNode) st,
        (applyLayerNode 0 t st).2 = (emitSeq (nodesAt t 0) st).2 ∧
        nodesAt (applyLayerNode 0 t st).1 1 =
          childListOf (emitSeq (nodesAt t 0) st).1 := by
      intro t st
      rw [nodesAt_zero, applyLayerNode_zero]
      constructor
      · simp only [emitSeq]
      · simp only [emitSeq]
        cases hb : (blockEmit t st).1 with
        | mk v cs idx fx =>
          simp only [nodesAt, childListOf, TrieNode.children, List.append_nil,
            nodesAtList_zero]
    refine ⟨hnode, ?_⟩
    intro ns
    induction ns with
    | nil =>
      intro st
      exact ⟨rfl, rfl⟩
    | cons c cs ihl =>
      intro st
      simp only [applyLayerList, nodesAtList, nodesAt_zero]
      rw [emitSeq_append, childListOf_append]
      obtain ⟨hn2, hn1⟩ := hnode c st
      rw [nodesAt_zero] at hn2 hn1
      obtain ⟨hl2, hl1⟩ := ihl (applyLayerNode 0 c st).2
      constructor
      · show (applyLayerList 0 cs (applyLayerNode 0 c st).2).2 = _
        rw [hl2, hn2]
      · show nodesAt (applyLayerNode 0 c st).1 1 ++
            nodesAtList (applyLayerList 0 cs (applyLayerNode 0 c st).2).1 1 = _
        rw [hn1, hl1, hn2]
  | succ k ih =>
    have hnode : ∀ (t : TrieNode) st,
        (applyLayerNode (k + 1) t st).2 =
          (emitSeq (nodesAt t (k + 1)) st).2 ∧
        nodesAt (applyLayerNode (k + 1) t st).1 (k + 2) =
          childListOf (emitSeq (nodesAt t (k + 1)) st).1 := by
      intro t st
      cases t with
      | mk v cs idx fx =>
        obtain ⟨hl2, hl1⟩ := ih.2 cs st
        constructor
        · show (applyLayerList k cs st).2 = _
          exact hl2
        · show nodesAtList (applyLayerList k cs st).1 (k + 1) = _
          exact hl1
    refine ⟨hnode, ?_⟩
    intro ns
    induction ns with
    | nil =>
      intro st
      exact ⟨rfl, rfl⟩
    | cons c cs ihl =>
      intro st
      simp only [applyLayerList, nodesAtList]
      rw [emitSeq_append, childListOf_append]
      obtain ⟨hn2, hn1⟩ := hnode c st
      obtain ⟨hl2, hl1⟩ := ihl (applyLayerNode (k + 1) c st).2
      constructor
      · show (applyLayerList (k + 1) cs (applyLayerNode (k + 1) c st).2).2 = _
        rw [hl2, hn2]
      · show nodesAt (applyLayerNode (k + 1) c st).1 (k + 2) ++
            nodesAtList (applyLayerList (k + 1) cs
              (applyLayerNode (k + 1) c st).2).1 (k + 2) = _
        rw [hn1, hl1, hn2]

/-- The serializer's per-layer loop, flattened to layer lists. -/
theorem serializeLoop_passes : ∀ (rem layer : Nat) (t : TrieNode)
    (st : List Nat × Nat),
    serializeLoop rem layer t st = passes rem (nodesAt t layer) st := by
  intro rem
  induction rem with
  | zero => intro layer t st; rfl
  | succ m ih =>
    intro layer t st
    simp only [serializeLoop, passes]
    rw [(emit_applyLayer layer (layer + cntNode t) layer).1 0 t st (by omega)
      (le_refl _)]
    obtain ⟨h2, h1⟩ := (applyLayer_flat layer).1 t st
    rw [ih (layer + 1), h1, h2]

theorem getD_set_self (l : List Nat) (p w : Nat) (h : p < l.length) :
    (l.set p w).getD p 0 = w := by
  rw [List.getD_eq_getElem _ _ (by simpa using h)]
  exact List.getElem_set_self (by simpa using h)

theorem getD_set_ne (l : List Nat) (p q w : Nat) (h : p ≠ q) :
    (l.set p w).getD q 0 = l.getD q 0 := by
  rcases Nat.lt_or_ge q l.length with hq | hq
  · rw [List.getD_eq_getElem _ _ (by simpa using hq),
      List.getD_eq_getElem _ _ hq]
    exact List.getElem_set_ne h _
  · rw [List.getD_eq_default _ _ (by simpa using hq),
      List.getD_eq_default _ _ hq]

/-- The entry word `emitChildEntries` writes for a child. -/
def entryWord (c : TrieNode) : Nat :=
  if c.children.length = 0 then leafWord c.value c.index else u32 c.value

theorem emitChildEntries_i (cs : List TrieNode) :
    ∀ (out : List Nat) (i : Nat),
      (emitChildEntries cs (out, i)).2.2 = i + cs.length := by
  induction cs with
  | nil => intro out i; rfl
  | cons c cs ih =>
    intro out i
    simp only [emitChildEntries]
    split
    · rw [ih]
      simp only [List.length_cons]
      omega
    · rw [ih]
      simp only [List.length_cons]
      omega

theorem emitChildEntries_len (cs : List TrieNode) :
    ∀ (out : List Nat) (i : Nat),
      (emitChildEntries cs (out, i)).2.1.length = out.length := by
  induction cs with
  | nil => intro out i; rfl
  | cons c cs ih =>
    intro out i
    simp only [emitChildEntries]
    split
    · rw [ih]
      simp
    · rw [ih]
      simp

theorem emitChildEntries_frame (cs : List TrieNode) :
    ∀ (out : List Nat) (i p : Nat), ¬(i ≤ p ∧ p < i + cs.length) →
      (emitChildEntries cs (out, i)).2.1.getD p 0 = out.getD p 0 := by
  induction cs with
  | nil => intro out i p _; rfl
  | cons c cs ih =>
    intro out i p hp
    simp only [List.length_cons] at hp
    simp only [emitChildEntries]
    split
    · rw [ih _ _ _ (by omega), getD_set_ne _ _ _ _ (by omega)]
    · rw [ih _ _ _ (by omega), getD_set_ne _ _ _ _ (by omega)]

theorem emitChildEntries_write (cs : List TrieNode) :
    ∀ (out : List Nat) (i : Nat), i + cs.length ≤ out.length →
      ∀ l (hl : l < cs.length),
        (emitChildEntries cs (out, i)).2.1.getD (i + l) 0 =
          entryWord (cs.get ⟨l, hl⟩) := by
  induction cs with
  | nil =>
    intro out i _ l hl
    simp at hl
  | cons c cs ih =>
    intro out i hlen l hl
    simp only [List.length_cons] at hl hlen
    simp only [emitChildEntries]
    cases l with
    | zero =>
      have hw : ∀ w, (out.set i w).getD i 0 = w :=
        fun w => getD_set_self out i w (by omega)
      split
      · next hc =>
        rw [emitChildEntries_frame cs _ _ _ (by omega)]
        simp only [Nat.add_zero, hw]
        simp only [List.get_eq_getElem, List.getElem_cons_zero, entryWord,
          if_pos hc]
      · next hc =>
        rw [emitChildEntries_frame cs _ _ _ (by omega)]
        simp only [Nat.add_zero, hw]
        simp only [List.get_eq_getElem, List.getElem_cons_zero, entryWord,
          if_neg hc]
    | succ m =>
      have he : i + (m + 1) = (i + 1) + m := by omega
      split
      · rw [he, ih _ _ (by simp only [List.length_set]; omega) m (by omega)]
        simp
      · rw [he, ih _ _ (by simp only [List.length_set]; omega) m (by omega)]
        simp
    
theorem emitChildEntries_nodes (cs : List TrieNode) :
    ∀ (out : List Nat) (i : Nat),
      (emitChildEntries cs (out, i)).1 = entryFix cs i := by
  induction cs with
  | nil => intro out i; rfl
  | cons c cs ih =>
    intro out i
    simp only [emitChildEntries, entryFix]
    split
    · next hc =>
      rw [ih]
    · next hc =>
      rw [ih]
      rfl

theorem blockEmit_i (t : TrieNode) (out : List Nat) (i : Nat) :
    (blockEmit t (out, i)).2.2 = i + blockSize t := by
  cases t with
  | mk v cs idx fx =>
    simp only [blockEmit, blockSize, TrieNode.children]
    by_cases hf : 0 < fx
    · rw [if_pos hf]
      dsimp only
      by_cases hc : 0 < cs.length
      · rw [if_pos hc, if_pos hc]
        rw [emitChildEntries_i]
        omega
      · rw [if_neg hc, if_neg hc]
        dsimp only
        omega
    · rw [if_neg hf]
      by_cases hc : 0 < cs.length
      · rw [if_pos hc, if_pos hc]
        rw [emitChildEntries_i]
        omega
      · rw [if_neg hc, if_neg hc]
        dsimp only
        omega

theorem blockEmit_len (t : TrieNode) (out : List Nat) (i : Nat) :
    (blockEmit t (out, i)).2.1.length = out.length := by
  cases t with
  | mk v cs idx fx =>
    simp only [blockEmit, TrieNode.children]
    by_cases hf : 0 < fx
    · rw [if_pos hf]
      dsimp only
      by_cases hc : 0 < cs.length
      · rw [if_pos hc]
        rw [emitChildEntries_len]
        simp
      · rw [if_neg hc]
        dsimp only
        simp
    · rw [if_neg hf]
      by_cases hc : 0 < cs.length
      · rw [if_pos hc]
        rw [emitChildEntries_len]
        simp
      · rw [if_neg hc]

theorem blockEmit_frame (t : TrieNode) (out : List Nat) (i p : Nat)
    (hp1 : 0 < t.fixup → p ≠ t.fixup)
    (hp2 : ¬(i ≤ p ∧ p < i + blockSize t)) :
    (blockEmit t (out, i)).2.1.getD p 0 = out.getD p 0 := by
  cases t with
  | mk v cs idx fx =>
    simp only [blockSize, TrieNode.children] at hp2
    simp only [TrieNode.fixup] at hp1
    simp only [blockEmit, TrieNode.children]
    by_cases hf : 0 < fx
    · rw [if_pos hf]
      dsimp only
      by_cases hc : 0 < cs.length
      · rw [if_pos hc]
        rw [if_pos hc] at hp2
        dsimp only
        rw [emitChildEntries_frame _ _ _ _ (by omega),
          getD_set_ne _ _ _ _ (by omega),
          getD_set_ne _ _ _ _ (fun he => hp1 hf he.symm)]
      · rw [if_neg hc]
        dsimp only
        rw [getD_set_ne _ _ _ _ (fun he => hp1 hf he.symm)]
    · rw [if_neg hf]
      by_cases hc : 0 < cs.length
      · rw [if_pos hc]
        rw [if_pos hc] at hp2
        dsimp only
        rw [emitChildEntries_frame _ _ _ _ (by omega),
          getD_set_ne _ _ _ _ (by omega)]
      · rw [if_neg hc]

theorem blockEmit_patch (t : TrieNode) (out : List Nat) (i : Nat)
    (hfx : 0 < t.fixup) (hlt : t.fixup < i) (hil : i ≤ out.length) :
    (blockEmit t (out, i)).2.1.getD t.fixup 0 =
      out.getD t.fixup 0 ||| patchBits i := by
  cases t with
  | mk v cs idx fx =>
    simp only [TrieNode.fixup] at hfx hlt ⊢
    simp only [blockEmit, TrieNode.children]
    rw [if_pos hfx]
    dsimp only
    by_cases hc : 0 < cs.length
    · rw [if_pos hc]
      dsimp only
      rw [emitChildEntries_frame _ _ _ _ (by omega),
        getD_set_ne _ _ _ _ (by omega),
        getD_set_self _ _ _ (by omega)]
    · rw [if_neg hc]
      dsimp only
      rw [getD_set_self _ _ _ (by omega)]

theorem blockEmit_header (t : TrieNode) (out : List Nat) (i : Nat)
    (hc : 0 < t.children.length) (hlen : i + blockSize t ≤ out.length)
    (hfx : 0 < t.fixup → t.fixup < i) :
    (blockEmit t (out, i)).2.1.getD i 0 =
      headerWord t.index t.children.length := by
  cases t with
  | mk v cs idx fx =>
    simp only [TrieNode.children, TrieNode.index] at hc ⊢
    simp only [blockSize, TrieNode.children, if_pos hc] at hlen
    simp only [TrieNode.fixup] at hfx
    simp only [blockEmit, TrieNode.children]
    by_cases hf : 0 < fx
    · rw [if_pos hf]
      dsimp only
      rw [if_pos hc]
      dsimp only
      rw [emitChildEntries_frame _ _ _ _ (by omega)]
      rw [getD_set_self _ _ _ (by simp only [List.length_set]; omega)]
    · rw [if_neg hf]
      rw [if_pos hc]
      dsimp only
      rw [emitChildEntries_frame _ _ _ _ (by omega)]
      rw [getD_set_self _ _ _ (by omega)]

theorem blockEmit_entry (t : TrieNode) (out : List Nat) (i : Nat)
    (hc : 0 < t.children.length) (hlen : i + blockSize t ≤ out.length)
    (l : Nat) (hl : l < t.children.length) :
    (blockEmit t (out, i)).2.1.getD (i + 1 + l) 0 =
      entryWord (t.children.get ⟨l, hl⟩) := by
  cases t with
  | mk v cs idx fx =>
    simp only [TrieNode.children] at hc hl ⊢
    simp only [blockSize, TrieNode.children, if_pos hc] at hlen
    simp only [blockEmit, TrieNode.children]
    have he : i + 1 + l = (i + 1) + l := by omega
    by_cases hf : 0 < fx
    · rw [if_pos hf]
      dsimp only
      rw [if_pos hc]
      dsimp only
      rw [he, emitChildEntries_write _ _ _
        (by simp only [List.length_set]; omega) l hl]
    · rw [if_neg hf]
      rw [if_pos hc]
      dsimp only
      rw [he, emitChildEntries_write _ _ _
        (by simp only [List.length_set]; omega) l hl]

theorem blockEmit_node (t : TrieNode) (out : List Nat) (i : Nat) :
    (blockEmit t (out, i)).1 =
      if 0 < t.children.length then
        TrieNode.mk t.value (entryFix t.children (i + 1)) t.index t.fixup
      else t := by
  cases t with
  | mk v cs idx fx =>
    simp only [TrieNode.children, TrieNode.value, TrieNode.index, TrieNode.fixup]
    simp only [blockEmit, TrieNode.children]
    by_cases hf : 0 < fx
    · rw [if_pos hf]
      dsimp only
      by_cases hc : 0 < cs.length
      · rw [if_pos hc, if_pos hc, emitChildEntries_nodes]
      · rw [if_neg hc, if_neg hc]
    · rw [if_neg hf]
      by_cases hc : 0 < cs.length
      · rw [if_pos hc, if_pos hc, emitChildEntries_nodes]
      · rw [if_neg hc, if_neg hc]

/-- The layer list after a pass: internal nodes get their children's
fixups set to the entry positions. -/
def seqFix : List TrieNode → Nat → List TrieNode
  | [], _ => []
  | n :: ns, i =>
    (if 0 < n.children.length then
        TrieNode.mk n.value (entryFix n.children (i + 1)) n.index n.fixup
      else n) :: seqFix ns (i + blockSize n)

theorem layerWords_take_succ (ns : List TrieNode) :
    ∀ j (hj : j < ns.length),
      layerWords (ns.take (j + 1)) =
        layerWords (ns.take j) + blockSize (ns.get ⟨j, hj⟩) := by
  induction ns with
  | nil =>
    intro j hj
    simp at hj
  | cons n ns ih =>
    intro j hj
    cases j with
    | zero =>
      simp only [List.take_succ_cons, List.take_zero, layerWords,
        List.get_eq_getElem, List.getElem_cons_zero]
      omega
    | succ m =>
      simp only [List.take_succ_cons, layerWords, List.get_eq_getElem,
        List.getElem_cons_succ]
      simp only [List.length_cons] at hj
      have := ih m (by omega)
      simp only [List.get_eq_getElem] at this
      omega

theorem layerWords_take_le (ns : List TrieNode) :
    ∀ j, layerWords (ns.take j) ≤ layerWords ns := by
  induction ns with
  | nil =>
    intro j
    simp
  | cons n ns ih =>
    intro j
    cases j with
    | zero => simp [layerWords]
    | succ m =>
      simp only [List.take_succ_cons, layerWords]
      have := ih m
      omega

theorem layerWords_take_block_le (ns : List TrieNode) (j : Nat)
    (hj : j < ns.length) :
    layerWords (ns.take j) + blockSize (ns.get ⟨j, hj⟩) ≤ layerWords ns := by
  rw [← layerWords_take_succ ns j hj]
  exact layerWords_take_le ns (j + 1)

theorem emitSeq_i (ns : List TrieNode) :
    ∀ (out : List Nat) (i : Nat),
      (emitSeq ns (out, i)).2.2 = i + layerWords ns := by
  induction ns with
  | nil => intro out i; rfl
  | cons n ns ih =>
    intro out i
    simp only [emitSeq, layerWords]
    rw [show (blockEmit n (out, i)).2 =
      ((blockEmit n (out, i)).2.1, (blockEmit n (out, i)).2.2) from rfl]
    rw [ih, blockEmit_i]
    omega

theorem emitSeq_len (ns : List TrieNode) :
    ∀ (out : List Nat) (i : Nat),
      (emitSeq ns (out, i)).2.1.length = out.length := by
  induction ns with
  | nil => intro out i; rfl
  | cons n ns ih =>
    intro out i
    simp only [emitSeq]
    rw [show (blockEmit n (out, i)).2 =
      ((blockEmit n (out, i)).2.1, (blockEmit n (out, i)).2.2) from rfl]
    rw [ih, blockEmit_len]

theorem emitSeq_nodes (ns : List TrieNode) :
    ∀ (out : List Nat) (i : Nat), (emitSeq ns (out, i)).1 = seqFix ns i := by
  induction ns with
  | nil => intro out i; rfl
  | cons n ns ih =>
    intro out i
    simp only [emitSeq, seqFix]
    rw [show (blockEmit n (out, i)).2 =
      ((blockEmit n (out, i)).2.1, (blockEmit n (out, i)).2.2) from rfl]
    rw [ih, blockEmit_i, blockEmit_node]

theorem emitSeq_frame (ns : List TrieNode) :
    ∀ (out : List Nat) (i p : Nat), p < i →
      (∀ n ∈ ns, 0 < n.fixup → p ≠ n.fixup) →
      (emitSeq ns (out, i)).2.1.getD p 0 = out.getD p 0 := by
  induction ns with
  | nil => intro out i p _ _; rfl
  | cons n ns ih =>
    intro out i p hp hfx
    simp only [emitSeq]
    rw [show (blockEmit n (out, i)).2 =
      ((blockEmit n (out, i)).2.1, (blockEmit n (out, i)).2.2) from rfl]
    rw [blockEmit_i]
    rw [ih _ _ _ (by have := blockSize n; omega)
      (fun m hm h2 => hfx m (by simp [hm]) h2)]
    exact blockEmit_frame n out i p (hfx n (by simp)) (by omega)

theorem emitSeq_header (ns : List TrieNode) :
    ∀ (out : List Nat) (i : Nat), i + layerWords ns ≤ out.length →
      (∀ n ∈ ns, 0 < n.fixup → n.fixup < i) →
      ∀ j (hj : j < ns.length), 0 < (ns.get ⟨j, hj⟩).children.length →
        (emitSeq ns (out, i)).2.1.getD (i + layerWords (ns.take j)) 0 =
          headerWord (ns.get ⟨j, hj⟩).index
            (ns.get ⟨j, hj⟩).children.length := by
  induction ns with
  | nil =>
    intro out i _ _ j hj
    simp at hj
  | cons n ns ih =>
    intro out i hlen hfx j hj hc
    simp only [layerWords] at hlen
    simp only [emitSeq]
    rw [show (blockEmit n (out, i)).2 =
      ((blockEmit n (out, i)).2.1, (blockEmit n (out, i)).2.2) from rfl]
    rw [blockEmit_i]
    cases j with
    | zero =>
      simp only [List.get_eq_getElem, List.getElem_cons_zero] at hc ⊢
      simp only [List.take_zero, layerWords, Nat.add_zero]
      rw [emitSeq_frame ns _ _ _
        (by simp only [blockSize, if_pos hc]; omega)
        (fun m hm h2 => by have := hfx m (by simp [hm]) h2; omega)]
      exact blockEmit_header n out i hc (by omega) (hfx n (by simp))
    | succ m =>
      simp only [List.length_cons] at hj
      simp only [List.get_eq_getElem, List.getElem_cons_succ] at hc ⊢
      simp only [List.take_succ_cons, layerWords]
      rw [show i + (blockSize n + layerWords (ns.take m)) =
        (i + blockSize n) + layerWords (ns.take m) from by omega]
      have := ih (blockEmit n (out, i)).2.1 (i + blockSize n)
        (by rw [blockEmit_len]; omega)
        (fun m2 hm2 h2 => by have := hfx m2 (by simp [hm2]) h2; omega)
        m (by omega) hc
      simp only [List.get_eq_getElem] at this
      exact this

theorem emitSeq_entry (ns : List TrieNode) :
    ∀ (out : List Nat) (i : Nat), i + layerWords ns ≤ out.length →
      (∀ n ∈ ns, 0 < n.fixup → n.fixup < i) →
      ∀ j (hj : j < ns.length), 0 < (ns.get ⟨j, hj⟩).children.length →
      ∀ l (hl : l < (ns.get ⟨j, hj⟩).children.length),
        (emitSeq ns (out, i)).2.1.getD
            (i + layerWords (ns.take j) + 1 + l) 0 =
          entryWord ((ns.get ⟨j, hj⟩).children.get ⟨l, hl⟩) := by
  induction ns with
  | nil =>
    intro out i _ _ j hj
    simp at hj
  | cons n ns ih =>
    intro out i hlen hfx j hj hc l hl
    simp only [layerWords] at hlen
    simp only [emitSeq]
    rw [show (blockEmit n (out, i)).2 =
      ((blockEmit n (out, i)).2.1, (blockEmit n (out, i)).2.2) from rfl]
    rw [blockEmit_i]
    cases j with
    | zero =>
      simp only [List.get_eq_getElem, List.getElem_cons_zero] at hc hl ⊢
      simp only [List.take_zero, layerWords, Nat.add_zero]
      rw [emitSeq_frame ns _ _ _
        (by simp only [blockSize, if_pos hc]; omega)
        (fun m hm h2 => by have := hfx m (by simp [hm]) h2; omega)]
      exact blockEmit_entry n out i hc (by omega) l hl
    | succ m =>
      simp only [List.length_cons] at hj
      simp only [List.get_eq_getElem, List.getElem_cons_succ] at hc hl ⊢
      simp only [List.take_succ_cons, layerWords]
      rw [show i + (blockSize n + layerWords (ns.take m)) + 1 + l =
        (i + blockSize n) + layerWords (ns.take m) + 1 + l from by omega]
      have := ih (blockEmit n (out, i)).2.1 (i + blockSize n)
        (by rw [blockEmit_len]; omega)
        (fun m2 hm2 h2 => by have := hfx m2 (by simp [hm2]) h2; omega)
        m (by omega) hc l hl
      simp only [List.get_eq_getElem] at this
      exact this

theorem emitSeq_patch (ns : List TrieNode) :
    ∀ (out : List Nat) (i : Nat), i + layerWords ns ≤ out.length →
      (∀ n ∈ ns, 0 < n.fixup → n.fixup < i) →
      List.Pairwise (fun a b => 0 < a.fixup → 0 < b.fixup →
        a.fixup < b.fixup) ns →
      ∀ j (hj : j < ns.length), 0 < (ns.get ⟨j, hj⟩).fixup →
        (emitSeq ns (out, i)).2.1.getD (ns.get ⟨j, hj⟩).fixup 0 =
          out.getD (ns.get ⟨j, hj⟩).fixup 0 |||
            patchBits (i + layerWords (ns.take j)) := by
  induction ns with
  | nil =>
    intro out i _ _ _ j hj
    simp at hj
  | cons n ns ih =>
    intro out i hil hfx hpw j hj hjf
    simp only [layerWords] at hil
    rw [List.pairwise_cons] at hpw
    simp only [emitSeq]
    rw [show (blockEmit n (out, i)).2 =
      ((blockEmit n (out, i)).2.1, (blockEmit n (out, i)).2.2) from rfl]
    rw [blockEmit_i]
    cases j with
    | zero =>
      simp only [List.get_eq_getElem, List.getElem_cons_zero] at hjf ⊢
      simp only [List.take_zero, layerWords, Nat.add_zero]
      rw [emitSeq_frame ns _ _ _
        (by have := hfx n (by simp) hjf; have := blockSize n; omega)
        (fun m hm h2 => by
          have := hpw.1 m hm hjf h2
          omega)]
      exact blockEmit_patch n out i hjf (hfx n (by simp) hjf) (by omega)
    | succ m =>
      simp only [List.length_cons] at hj
      simp only [List.get_eq_getElem, List.getElem_cons_succ] at hjf ⊢
      simp only [List.take_succ_cons, layerWords]
      rw [show i + (blockSize n + layerWords (ns.take m)) =
        (i + blockSize n) + layerWords (ns.take m) from by omega]
      have := ih (blockEmit n (out, i)).2.1 (i + blockSize n)
        (by rw [blockEmit_len]; omega)
        (fun m2 hm2 h2 => by have := hfx m2 (by simp [hm2]) h2; omega)
        hpw.2 m (by omega) hjf
      simp only [List.get_eq_getElem] at this
      rw [this]
      rw [blockEmit_frame n out i _ ?hne (by
        have h3 := hfx (ns[m]) (by simp [List.getElem_mem]) hjf
        omega)]
      case hne =>
        intro hnf he
        have := hpw.1 (ns[m]) (by simp [List.getElem_mem]) hnf hjf
        omega
  
theorem refix_value (c : TrieNode) (p : Nat) : (refix c p).value = c.value := rfl

theorem refix_children (c : TrieNode) (p : Nat) :
    (refix c p).children = c.children := rfl

theorem refix_index (c : TrieNode) (p : Nat) : (refix c p).index = c.index := rfl

theorem refix_fixup (c : TrieNode) (p : Nat) : (refix c p).fixup = p := rfl

theorem sizeAccNode_refix (c : TrieNode) (p : Nat) :
    sizeAccNode (refix c p) = sizeAccNode c := by
  cases c with
  | mk v cs idx fx => rfl

theorem heightNode_refix (c : TrieNode) (p : Nat) :
    heightNode (refix c p) = heightNode c := by
  cases c with
  | mk v cs idx fx => rfl

theorem SubFixZero_refix {c : TrieNode} (p : Nat) (h : SubFixZero c) :
    SubFixZero (refix c p) := by
  cases c with
  | mk v cs idx fx =>
    cases h with
    | node _ _ _ _ h1 h2 => exact SubFixZero.node _ _ _ _ h1 h2

theorem entryFix_len (cs : List TrieNode) : ∀ p : Nat,
    (entryFix cs p).length = cs.length := by
  induction cs with
  | nil => intro p; rfl
  | cons c cs ih =>
    intro p
    simp only [entryFix, List.length_cons, ih]

theorem entryFix_get (cs : List TrieNode) : ∀ (p l : Nat) (hl : l < cs.length)
    (hl2 : l < (entryFix cs p).length),
    (entryFix cs p).get ⟨l, hl2⟩ =
      if (cs.get ⟨l, hl⟩).children.length = 0 then cs.get ⟨l, hl⟩
      else refix (cs.get ⟨l, hl⟩) (p + l) := by
  induction cs with
  | nil =>
    intro p l hl
    simp at hl
  | cons c cs ih =>
    intro p l hl hl2
    cases l with
    | zero =>
      simp only [entryFix, List.get_eq_getElem, List.getElem_cons_zero,
        Nat.add_zero]
    | succ m =>
      simp only [entryFix, List.get_eq_getElem, List.getElem_cons_succ]
      simp only [List.length_cons] at hl
      have := ih (p + 1) m (by omega) (by rw [entryFix_len]; omega)
      simp only [List.get_eq_getElem] at this
      rw [this]
      have he : p + 1 + m = p + (m + 1) := by omega
      rw [he]

theorem sizeAccList_entryFix (cs : List TrieNode) : ∀ p : Nat,
    sizeAccList (entryFix cs p) = sizeAccList cs := by
  induction cs with
  | nil => intro p; rfl
  | cons c cs ih =>
    intro p
    simp only [entryFix, sizeAccList]
    split
    · rw [ih]
    · rw [ih, sizeAccNode_refix]

theorem sizeAccList_append (as bs : List TrieNode) :
    sizeAccList (as ++ bs) = sizeAccList as + sizeAccList bs := by
  induction as with
  | nil => simp [sizeAccList]
  | cons a as ih =>
    simp only [List.cons_append, List.append_eq, sizeAccList, ih]
    omega

theorem seqFix_len (ns : List TrieNode) : ∀ i : Nat,
    (seqFix ns i).length = ns.length := by
  induction ns with
  | nil => intro i; rfl
  | cons n ns ih =>
    intro i
    simp only [seqFix, List.length_cons, ih]

theorem seqFix_get (ns : List TrieNode) : ∀ (i j : Nat) (hj : j < ns.length)
    (hj2 : j < (seqFix ns i).length),
    (seqFix ns i).get ⟨j, hj2⟩ =
      if 0 < (ns.get ⟨j, hj⟩).children.length then
        TrieNode.mk (ns.get ⟨j, hj⟩).value
          (entryFix (ns.get ⟨j, hj⟩).children
            (i + layerWords (ns.take j) + 1))
          (ns.get ⟨j, hj⟩).index (ns.get ⟨j, hj⟩).fixup
      else ns.get ⟨j, hj⟩ := by
  induction ns with
  | nil =>
    intro i j hj
    simp at hj
  | cons n ns ih =>
    intro i j hj hj2
    cases j with
    | zero =>
      simp only [seqFix, List.get_eq_getElem, List.getElem_cons_zero,
        List.take_zero, layerWords, Nat.add_zero]
    | succ m =>
      simp only [seqFix, List.get_eq_getElem, List.getElem_cons_succ,
        List.take_succ_cons, layerWords]
      simp only [List.length_cons] at hj
      have := ih (i + blockSize n) m (by omega) (by rw [seqFix_len]; omega)
      simp only [List.get_eq_getElem] at this
      rw [this]
      have he : i + blockSize n + layerWords (ns.take m) + 1 =
          i + (blockSize n + layerWords (ns.take m)) + 1 := by omega
      rw [he]

theorem sizeAccList_decomp (ns : List TrieNode) : ∀ i : Nat,
    sizeAccList ns =
      layerWords ns + sizeAccList (childListOf (seqFix ns i)) := by
  induction ns with
  | nil => intro i; rfl
  | cons n ns ih =>
    intro i
    cases n with
    | mk v cs idx fx =>
      simp only [seqFix, sizeAccList, layerWords, sizeAccNode, blockSize,
        TrieNode.children]
      by_cases hc : 0 < cs.length
      · simp only [if_pos hc]
        simp only [childListOf, TrieNode.children, sizeAccList_append,
          sizeAccList_entryFix]
        have h1 := ih (i + (cs.length + 1))
        omega
      · simp only [if_neg hc]
        have hcnil : cs = [] := List.length_eq_zero.1 (by omega)
        subst hcnil
        simp only [childListOf, TrieNode.children, sizeAccList_append,
          sizeAccList]
        have h1 := ih (i + 0)
        omega

theorem layerWords_take_mono (ns : List TrieNode) : ∀ j1 j2 : Nat, j1 ≤ j2 →
    layerWords (ns.take j1) ≤ layerWords (ns.take j2) := by
  induction ns with
  | nil =>
    intro j1 j2 _
    simp
  | cons n ns ih =>
    intro j1 j2 h
    cases j1 with
    | zero =>
      simp [layerWords]
    | succ m1 =>
      cases j2 with
      | zero => omega
      | succ m2 =>
        simp only [List.take_succ_cons, layerWords]
        have := ih m1 m2 (by omega)
        omega

theorem layerWords_le_sizeAccList (ns : List TrieNode) :
    layerWords ns ≤ sizeAccList ns := by
  induction ns with
  | nil => simp [layerWords, sizeAccList]
  | cons n ns ih =>
    simp only [layerWords, sizeAccList]
    have := sizeAccNode_eq n
    omega

theorem childrenBefore_seqFix (ns : List TrieNode) : ∀ (i j : Nat),
    childrenBefore (seqFix ns i) j = childrenBefore ns j := by
  induction ns with
  | nil =>
    intro i j
    cases j <;> rfl
  | cons n ns ih =>
    intro i j
    cases j with
    | zero => rfl
    | succ m =>
      simp only [seqFix, childrenBefore]
      split
      · next hc =>
        simp only [TrieNode.children, entryFix_len, ih]
      · rw [ih]

theorem childListOf_length (ns : List TrieNode) :
    (childListOf ns).length = childrenBefore ns ns.length := by
  induction ns with
  | nil => rfl
  | cons n ns ih =>
    simp only [childListOf, List.length_append, childrenBefore, ih,
      List.length_cons]

theorem childrenBefore_le (ns : List TrieNode) : ∀ (j1 j2 : Nat), j1 ≤ j2 →
    childrenBefore ns j1 ≤ childrenBefore ns j2 := by
  induction ns with
  | nil =>
    intro j1 j2 _
    cases j1 <;> cases j2 <;> simp [childrenBefore]
  | cons n ns ih =>
    intro j1 j2 h
    cases j1 with
    | zero =>
      cases j2 <;> simp [childrenBefore]
    | succ m1 =>
      cases j2 with
      | zero => omega
      | succ m2 =>
        simp only [childrenBefore]
        have := ih m1 m2 (by omega)
        omega

theorem childrenBefore_succ (ns : List TrieNode) : ∀ j (hj : j < ns.length),
    childrenBefore ns (j + 1) =
      childrenBefore ns j + (ns.get ⟨j, hj⟩).children.length := by
  induction ns with
  | nil =>
    intro j hj
    simp at hj
  | cons n ns ih =>
    intro j hj
    cases j with
    | zero =>
      simp only [childrenBefore, List.get_eq_getElem, List.getElem_cons_zero]
      omega
    | succ m =>
      simp only [childrenBefore, List.get_eq_getElem, List.getElem_cons_succ]
      simp only [List.length_cons] at hj
      have := ih m (by omega)
      simp only [List.get_eq_getElem] at this
      omega

theorem childListOf_get (ns : List TrieNode) : ∀ (j : Nat) (hj : j < ns.length)
    (l : Nat) (hl : l < (ns.get ⟨j, hj⟩).children.length),
    ∃ hm : childrenBefore ns j + l < (childListOf ns).length,
      (childListOf ns).get ⟨childrenBefore ns j + l, hm⟩ =
        (ns.get ⟨j, hj⟩).children.get ⟨l, hl⟩ := by
  induction ns with
  | nil =>
    intro j hj
    simp at hj
  | cons n ns ih =>
    intro j hj l hl
    cases j with
    | zero =>
      simp only [List.get_eq_getElem, List.getElem_cons_zero] at hl ⊢
      have hm : childrenBefore (n :: ns) 0 + l < (childListOf (n :: ns)).length := by
        simp only [childrenBefore, childListOf, List.length_append]
        omega
      refine ⟨hm, ?_⟩
      simp only [childrenBefore, childListOf, List.get_eq_getElem]
      rw [List.getElem_append_left (by omega)]
      simp
    | succ m =>
      simp only [List.length_cons] at hj
      simp only [List.get_eq_getElem, List.getElem_cons_succ] at hl ⊢
      obtain ⟨hm0, hget⟩ := ih m (by omega) l (by exact hl)
      have hm : childrenBefore (n :: ns) (m + 1) + l <
          (childListOf (n :: ns)).length := by
        simp only [childrenBefore, childListOf, List.length_append]
        omega
      refine ⟨hm, ?_⟩
      simp only [childrenBefore, childListOf, List.get_eq_getElem]
      rw [List.getElem_append_right (by omega)]
      simp only [List.get_eq_getElem] at hget
      have he : n.children.length + childrenBefore ns m + l -
          n.children.length = childrenBefore ns m + l := by omega
      simp only [he]
      exact hget

theorem childListOf_mem (ns : List TrieNode) (c : TrieNode)
    (h : c ∈ childListOf ns) : ∃ n ∈ ns, c ∈ n.children := by
  induction ns with
  | nil => simp [childListOf] at h
  | cons n ns ih =>
    simp only [childListOf, List.mem_append] at h
    rcases h with h | h
    · exact ⟨n, by simp, h⟩
    · obtain ⟨m, hm, hc⟩ := ih h
      exact ⟨m, by simp [hm], hc⟩

/-- Positive fixups in an entry-fixed child list are the entry
positions. -/
theorem entryFix_fix_mem (cs : List TrieNode) : ∀ (p : Nat) (c : TrieNode),
    c ∈ entryFix cs p → (∀ c0 ∈ cs, c0.fixup = 0) → 0 < c.fixup →
    p ≤ c.fixup ∧ c.fixup < p + cs.length := by
  induction cs with
  | nil =>
    intro p c hc _ _
    simp [entryFix] at hc
  | cons c0 cs ih =>
    intro p c hc hz hf
    simp only [entryFix, List.mem_cons] at hc
    rcases hc with hc | hc
    · subst hc
      by_cases hcl : c0.children.length = 0
      · rw [if_pos hcl] at hf ⊢
        rw [hz c0 (by simp)] at hf
        omega
      · rw [if_neg hcl] at hf ⊢
        rw [refix_fixup] at hf ⊢
        simp only [List.length_cons]
        omega
    · have := ih (p + 1) c hc (fun d hd => hz d (by simp [hd])) hf
      simp only [List.length_cons]
      omega

theorem entryFix_pairwise (cs : List TrieNode) : ∀ (p : Nat),
    (∀ c0 ∈ cs, c0.fixup = 0) →
    List.Pairwise (fun a b => 0 < a.fixup → 0 < b.fixup →
      a.fixup < b.fixup) (entryFix cs p) := by
  induction cs with
  | nil =>
    intro p _
    simp [entryFix]
  | cons c0 cs ih =>
    intro p hz
    simp only [entryFix]
    rw [List.pairwise_cons]
    constructor
    · intro b hb hhead hbf
      have hbnd := entryFix_fix_mem cs (p + 1) b hb
        (fun d hd => hz d (by simp [hd])) hbf
      by_cases hcl : c0.children.length = 0
      · rw [if_pos hcl] at hhead ⊢
        rw [hz c0 (by simp)] at hhead
        omega
      · rw [if_neg hcl] at hhead ⊢
        rw [refix_fixup] at hhead ⊢
        omega
    · exact ih (p + 1) (fun d hd => hz d (by simp [hd]))

/-- Positive fixups in the next layer list sit strictly inside the
current layer's block region. -/
theorem childListOf_seqFix_fix_bounds (ns : List TrieNode) : ∀ (i : Nat)
    (c : TrieNode), c ∈ childListOf (seqFix ns i) →
    (∀ n ∈ ns, SubFixZero n) → 0 < c.fixup →
    i < c.fixup ∧ c.fixup < i + layerWords ns := by
  induction ns with
  | nil =>
    intro i c hc _ _
    simp [seqFix, childListOf] at hc
  | cons n ns ih =>
    intro i c hc hsub hf
    simp only [seqFix, layerWords] at hc ⊢
    split at hc
    · next hcn =>
      simp only [childListOf, TrieNode.children, List.mem_append] at hc
      rcases hc with hc | hc
      · have := entryFix_fix_mem n.children (i + 1) c hc
          ((hsub n (by simp)).childFix) hf
        simp only [blockSize, if_pos hcn]
        omega
      · have := ih (i + blockSize n) c hc
          (fun m hm => hsub m (by simp [hm])) hf
        have hb : 0 < blockSize n := by
          simp only [blockSize, if_pos hcn]
          omega
        omega
    · next hcn =>
      simp only [childListOf, List.mem_append] at hc
      rcases hc with hc | hc
      · have hnil : n.children = [] := List.length_eq_zero.1 (by omega)
        rw [hnil] at hc
        simp at hc
      · have := ih (i + blockSize n) c hc
          (fun m hm => hsub m (by simp [hm])) hf
        omega

/-- Positive fixups in the next layer list are strictly increasing. -/
theorem childListOf_seqFix_pairwise (ns : List TrieNode) : ∀ (i : Nat),
    (∀ n ∈ ns, SubFixZero n) →
    List.Pairwise (fun a b => 0 < a.fixup → 0 < b.fixup →
      a.fixup < b.fixup) (childListOf (seqFix ns i)) := by
  induction ns with
  | nil =>
    intro i _
    simp [seqFix, childListOf]
  | cons n ns ih =>
    intro i hsub
    simp only [seqFix]
    split
    · next hcn =>
      simp only [childListOf, TrieNode.children]
      rw [List.pairwise_append]
      refine ⟨entryFix_pairwise n.children (i + 1)
          ((hsub n (by simp)).childFix),
        ih (i + blockSize n) (fun m hm => hsub m (by simp [hm])), ?_⟩
      intro a ha b hb haf hbf
      have h1 := entryFix_fix_mem n.children (i + 1) a ha
        ((hsub n (by simp)).childFix) haf
      have h2 := childListOf_seqFix_fix_bounds ns (i + blockSize n) b hb
        (fun m hm => hsub m (by simp [hm])) hbf
      simp only [blockSize, if_pos hcn] at h2
      omega
    · next hcn =>
      have hnil : n.children = [] := List.length_eq_zero.1 (by omega)
      simp only [childListOf, hnil, List.nil_append]
      exact ih (i + blockSize n) (fun m hm => hsub m (by simp [hm]))

/-- Shape of a member of the next layer list: an original child,
possibly with its fixup replaced. -/
theorem childListOf_seqFix_shape (ns : List TrieNode) : ∀ (i : Nat)
    (c : TrieNode), c ∈ childListOf (seqFix ns i) →
    ∃ n ∈ ns, ∃ c0 ∈ n.children,
      (c0.children.length = 0 ∧ c = c0) ∨
      (0 < c0.children.length ∧ ∃ p, c = refix c0 p) := by
  induction ns with
  | nil =>
    intro i c hc
    simp [seqFix, childListOf] at hc
  | cons n ns ih =>
    intro i c hc
    simp only [seqFix] at hc
    split at hc
    · next hcn =>
      simp only [childListOf, TrieNode.children, List.mem_append] at hc
      rcases hc with hc | hc
      · have hc2 : c ∈ entryFix n.children (i + 1) := hc
        obtain ⟨⟨lv, hlp⟩, he⟩ := List.mem_iff_get.1 hc2
        have hl2 : lv < n.children.length := by
          have h3 := hlp
          rw [entryFix_len] at h3
          exact h3
        rw [entryFix_get n.children (i + 1) lv hl2 hlp] at he
        refine ⟨n, by simp, n.children.get ⟨lv, hl2⟩,
          n.children.get_mem _ _, ?_⟩
        by_cases hle : (n.children.get ⟨lv, hl2⟩).children.length = 0
        · rw [if_pos hle] at he
          exact Or.inl ⟨hle, he.symm⟩
        · rw [if_neg hle] at he
          exact Or.inr ⟨by omega, _, he.symm⟩
      · obtain ⟨m, hm, rest⟩ := ih (i + blockSize n) c hc
        exact ⟨m, by simp [hm], rest⟩
    · next hcn =>
      simp only [childListOf, List.mem_append] at hc
      rcases hc with hc | hc
      · have hnil : n.children = [] := List.length_eq_zero.1 (by omega)
        rw [hnil] at hc
        simp at hc
      · obtain ⟨m, hm, rest⟩ := ih (i + blockSize n) c hc
        exact ⟨m, by simp [hm], rest⟩

/-- A member of the next layer list with a positive fixup is an
internal child refixed to its entry slot. -/
theorem childListOf_seqFix_slot (ns : List TrieNode) : ∀ (i : Nat)
    (c : TrieNode), c ∈ childListOf (seqFix ns i) →
    (∀ n ∈ ns, SubFixZero n) → 0 < c.fixup →
    ∃ (j : Nat) (hj : j < ns.length) (l : Nat)
      (hl : l < (ns.get ⟨j, hj⟩).children.length),
      0 < ((ns.get ⟨j, hj⟩).children.get ⟨l, hl⟩).children.length ∧
      c = refix ((ns.get ⟨j, hj⟩).children.get ⟨l, hl⟩)
        (i + layerWords (ns.take j) + 1 + l) := by
  induction ns with
  | nil =>
    intro i c hc _ _
    simp [seqFix, childListOf] at hc
  | cons n ns ih =>
    intro i c hc hsub hf
    simp only [seqFix] at hc
    split at hc
    · next hcn =>
      simp only [childListOf, TrieNode.children, List.mem_append] at hc
      rcases hc with hc | hc
      · have hc2 : c ∈ entryFix n.children (i + 1) := hc
        obtain ⟨⟨lv, hlp⟩, he⟩ := List.mem_iff_get.1 hc2
        have hl2 : lv < n.children.length := by
          have h3 := hlp
          rw [entryFix_len] at h3
          exact h3
        rw [entryFix_get n.children (i + 1) lv hl2 hlp] at he
        by_cases hle : (n.children.get ⟨lv, hl2⟩).children.length = 0
        · rw [if_pos hle] at he
          rw [← he] at hf
          rw [(hsub n (by simp)).childFix _ (n.children.get_mem _ _)] at hf
          exact absurd hf (lt_irrefl 0)
        · rw [if_neg hle] at he
          refine ⟨0, by simp, lv, by simpa using hl2, ?_, ?_⟩
          · simp only [List.get_eq_getElem, List.getElem_cons_zero]
            simp only [List.get_eq_getElem] at hle
            omega
          · simp only [List.get_eq_getElem, List.getElem_cons_zero,
              List.take_zero, layerWords, Nat.add_zero]
            simp only [List.get_eq_getElem] at he
            exact he.symm
      · obtain ⟨j, hj, l, hl, hint, he⟩ :=
          ih (i + blockSize n) c hc (fun m hm => hsub m (by simp [hm])) hf
        refine ⟨j + 1, by simp only [List.length_cons]; omega, l,
          by simpa using hl, by simpa using hint, ?_⟩
        simp only [List.get_eq_getElem, List.getElem_cons_succ,
          List.take_succ_cons, layerWords]
        simp only [List.get_eq_getElem] at he
        rw [he]
        have hpe : i + blockSize n + layerWords (ns.take j) + 1 + l =
            i + (blockSize n + layerWords (ns.take j)) + 1 + l := by omega
        rw [hpe]
    · next hcn =>
      simp only [childListOf, List.mem_append] at hc
      rcases hc with hc | hc
      · have hnil : n.children = [] := List.length_eq_zero.1 (by omega)
        rw [hnil] at hc
        simp at hc
      · obtain ⟨j, hj, l, hl, hint, he⟩ :=
          ih (i + blockSize n) c hc (fun m hm => hsub m (by simp [hm])) hf
        refine ⟨j + 1, by simp only [List.length_cons]; omega, l,
          by simpa using hl, by simpa using hint, ?_⟩
        simp only [List.get_eq_getElem, List.getElem_cons_succ,
          List.take_succ_cons, layerWords]
        simp only [List.get_eq_getElem] at he
        rw [he]
        have hpe : i + blockSize n + layerWords (ns.take j) + 1 + l =
            i + (blockSize n + layerWords (ns.take j)) + 1 + l := by omega
        rw [hpe]

/-- Position of an internal child's refixed copy in the next layer
list. -/
theorem childListOf_seqFix_get (ns : List TrieNode) (i : Nat) (j : Nat)
    (hj : j < ns.length) (hjc : 0 < (ns.get ⟨j, hj⟩).children.length)
    (l : Nat) (hl : l < (ns.get ⟨j, hj⟩).children.length)
    (hlc : 0 < ((ns.get ⟨j, hj⟩).children.get ⟨l, hl⟩).children.length) :
    ∃ hm : childrenBefore ns j + l < (childListOf (seqFix ns i)).length,
      (childListOf (seqFix ns i)).get ⟨childrenBefore ns j + l, hm⟩ =
        refix ((ns.get ⟨j, hj⟩).children.get ⟨l, hl⟩)
          (i + layerWords (ns.take j) + 1 + l) := by
  have h5 : ∀ (xs ys : List TrieNode) (hxy : xs = ys) (hlx : l < xs.length),
      xs.get ⟨l, hlx⟩ = ys.get ⟨l, hxy ▸ hlx⟩ := by
    intro xs ys hxy hlx
    subst hxy
    rfl
  have hj2 : j < (seqFix ns i).length := by
    rw [seqFix_len]
    exact hj
  have hsg := seqFix_get ns i j hj hj2
  rw [if_pos hjc] at hsg
  have hch : ((seqFix ns i).get ⟨j, hj2⟩).children =
      entryFix (ns.get ⟨j, hj⟩).children
        (i + layerWords (ns.take j) + 1) := by
    rw [hsg]
    rfl
  have hcl : l < ((seqFix ns i).get ⟨j, hj2⟩).children.length := by
    rw [hch, entryFix_len]
    exact hl
  obtain ⟨hm0, hget⟩ := childListOf_get (seqFix ns i) j hj2 l hcl
  rw [childrenBefore_seqFix] at hm0
  refine ⟨hm0, ?_⟩
  have hget2 : (childListOf (seqFix ns i)).get
      ⟨childrenBefore ns j + l, hm0⟩ =
      ((seqFix ns i).get ⟨j, hj2⟩).children.get ⟨l, hcl⟩ := by
    rw [← hget]
    simp only [List.get_eq_getElem, childrenBefore_seqFix]
  rw [hget2, h5 _ _ hch hcl]
  have hef := entryFix_get (ns.get ⟨j, hj⟩).children
    (i + layerWords (ns.take j) + 1) l hl (by rw [entryFix_len]; exact hl)
  rw [if_neg (by omega)] at hef
  exact hef

theorem get_congr {xs ys : List TrieNode} (hxy : xs = ys) (l : Nat)
    (hlx : l < xs.length) (hly : l < ys.length) :
    xs.get ⟨l, hlx⟩ = ys.get ⟨l, hly⟩ := by
  subst hxy
  rfl

/-- Main invariant of the layered serialization: after all remaining
passes, every internal node of the current layer is `Represent`ed at
its block offset, parent entries are patched, and nothing below the
current region changes except those patches. -/
theorem passes_spec : ∀ (rem : Nat) (ns : List TrieNode) (out : List Nat)
    (i : Nat),
    (∀ n ∈ ns, heightNode n ≤ rem) →
    (∀ n ∈ ns, SubFixZero n) →
    (∀ n ∈ ns, n.children.length = 0 → n.fixup = 0) →
    (∀ n ∈ ns, 0 < n.fixup → n.fixup < i ∧
      out.getD n.fixup 0 = u32 n.value) →
    List.Pairwise (fun a b => 0 < a.fixup → 0 < b.fixup →
      a.fixup < b.fixup) ns →
    i + sizeAccList ns ≤ out.length →
    out.length ≤ 2 ^ 23 →
    (passes rem ns (out, i)).1.length = out.length ∧
    (passes rem ns (out, i)).2 = i + sizeAccList ns ∧
    (∀ p, p < i → (∀ n ∈ ns, 0 < n.fixup → p ≠ n.fixup) →
      (passes rem ns (out, i)).1.getD p 0 = out.getD p 0) ∧
    (∀ j (hj : j < ns.length), 0 < (ns.get ⟨j, hj⟩).fixup →
      (passes rem ns (out, i)).1.getD (ns.get ⟨j, hj⟩).fixup 0 =
        out.getD (ns.get ⟨j, hj⟩).fixup 0 |||
          patchBits (i + layerWords (ns.take j))) ∧
    (∀ j (hj : j < ns.length), 0 < (ns.get ⟨j, hj⟩).children.length →
      Represents (passes rem ns (out, i)).1 (i + layerWords (ns.take j))
        (ns.get ⟨j, hj⟩)) := by
  intro rem
  induction rem with
  | zero =>
    intro ns out i hh _ _ _ _ _ _
    have hnil : ns = [] := by
      cases ns with
      | nil => rfl
      | cons n ns2 =>
        have h1 := hh n (by simp)
        have h2 := heightNode_pos n
        omega
    subst hnil
    refine ⟨rfl, by simp [passes, sizeAccList], fun p _ _ => rfl, ?_, ?_⟩
    · intro j hj
      simp at hj
    · intro j hj
      simp at hj
  | succ rem ih =>
    intro ns out i hh hsub hleaf hfx hpw hlen hmax
    have hlw : i + layerWords ns ≤ out.length := by
      have := layerWords_le_sizeAccList ns
      omega
    have hallfx : ∀ n ∈ ns, 0 < n.fixup → n.fixup < i :=
      fun n hn h2 => (hfx n hn h2).1
    have hei := emitSeq_i ns out i
    have helen := emitSeq_len ns out i
    have henodes := emitSeq_nodes ns out i
    simp only [passes]
    rw [show (emitSeq ns (out, i)).2 =
      ((emitSeq ns (out, i)).2.1, (emitSeq ns (out, i)).2.2) from rfl]
    rw [henodes, hei]
    set ns2 := childListOf (seqFix ns i) with hns2
    set out1 := (emitSeq ns (out, i)).2.1 with hout1
    have hd := sizeAccList_decomp ns i
    rw [← hns2] at hd
    have Hh : ∀ c ∈ ns2, heightNode c ≤ rem := by
      intro c hc
      obtain ⟨n, hn, c0, hc0, hcase⟩ :=
        childListOf_seqFix_shape ns i c (hns2 ▸ hc)
      have h1 : heightNode c0 < heightNode n := heightNode_child hc0
      have h2 := hh n hn
      rcases hcase with ⟨_, he⟩ | ⟨_, p, he⟩
      · rw [he]
        omega
      · rw [he, heightNode_refix]
        omega
    have Hsub : ∀ c ∈ ns2, SubFixZero c := by
      intro c hc
      obtain ⟨n, hn, c0, hc0, hcase⟩ :=
        childListOf_seqFix_shape ns i c (hns2 ▸ hc)
      have hs0 := (hsub n hn).child_sfz c0 hc0
      rcases hcase with ⟨_, he⟩ | ⟨_, p, he⟩
      · rw [he]
        exact hs0
      · rw [he]
        exact SubFixZero_refix p hs0
    have Hleaf : ∀ c ∈ ns2, c.children.length = 0 → c.fixup = 0 := by
      intro c hc hcl
      obtain ⟨n, hn, c0, hc0, hcase⟩ :=
        childListOf_seqFix_shape ns i c (hns2 ▸ hc)
      rcases hcase with ⟨_, he⟩ | ⟨hint, p, he⟩
      · rw [he]
        exact (hsub n hn).childFix c0 hc0
      · rw [he, refix_children] at hcl
        exact absurd hcl (by omega)
    have Hfx : ∀ c ∈ ns2, 0 < c.fixup → c.fixup < i + layerWords ns ∧
        out1.getD c.fixup 0 = u32 c.value := by
      intro c hc hcf
      obtain ⟨j, hj, l, hl, hint, he⟩ :=
        childListOf_seqFix_slot ns i c (hns2 ▸ hc) hsub hcf
      have hjc : 0 < (ns.get ⟨j, hj⟩).children.length := by omega
      have hbs : 1 + l < blockSize (ns.get ⟨j, hj⟩) := by
        simp only [blockSize]
        rw [if_pos hjc]
        omega
      have hble := layerWords_take_block_le ns j hj
      constructor
      · rw [he, refix_fixup]
        omega
      · rw [he, refix_fixup, refix_value]
        have hent := emitSeq_entry ns out i hlw hallfx j hj hjc l hl
        rw [← hout1] at hent
        rw [hent]
        simp only [entryWord]
        rw [if_neg (by omega)]
    have Hpw : List.Pairwise (fun a b => 0 < a.fixup → 0 < b.fixup →
        a.fixup < b.fixup) ns2 := by
      rw [hns2]
      exact childListOf_seqFix_pairwise ns i hsub
    have Hlen : (i + layerWords ns) + sizeAccList ns2 ≤ out1.length := by
      rw [helen]
      omega
    have Hmax : out1.length ≤ 2 ^ 23 := by
      rw [helen]
      exact hmax
    obtain ⟨C0, C1, C2, C3, C4⟩ :=
      ih ns2 out1 (i + layerWords ns) Hh Hsub Hleaf Hfx Hpw Hlen Hmax
    refine ⟨?_, ?_, ?_, ?_, ?_⟩
    · rw [C0, helen]
    · rw [C1]
      omega
    · intro p hp hpf
      rw [C2 p (by omega) (fun c hc hcf => by
        have := childListOf_seqFix_fix_bounds ns i c (hns2 ▸ hc) hsub hcf
        omega)]
      rw [hout1]
      exact emitSeq_frame ns out i p hp hpf
    · intro j hj hjf
      have hfj := hallfx _ (ns.get_mem _ _) hjf
      rw [C2 _ (by omega) (fun c hc hcf => by
        have := childListOf_seqFix_fix_bounds ns i c (hns2 ▸ hc) hsub hcf
        omega)]
      rw [hout1]
      exact emitSeq_patch ns out i hlw hallfx hpw j hj hjf
    · intro j hj hjc
      have hbsj : blockSize (ns.get ⟨j, hj⟩) =
          (ns.get ⟨j, hj⟩).children.length + 1 := by
        simp only [blockSize]
        rw [if_pos hjc]
      have hble := layerWords_take_block_le ns j hj
      cases hnj : ns.get ⟨j, hj⟩ with
      | mk vj csj idxj fxj =>
        have hcg : (ns.get ⟨j, hj⟩).children = csj := by
          rw [hnj]
          rfl
        have hjc2 : 0 < csj.length := by
          rw [← hcg]
          exact hjc
        have hidx : (ns.get ⟨j, hj⟩).index = idxj := by
          rw [hnj]
          rfl
        have hlX : ∀ l, l < csj.length →
            l < (ns.get ⟨j, hj⟩).children.length := by
          intro l h
          rw [hcg]
          exact h
        have hcc : ∀ l (hl : l < csj.length),
            (ns.get ⟨j, hj⟩).children.get ⟨l, hlX l hl⟩ = csj.get ⟨l, hl⟩ :=
          fun l hl => get_congr hcg l _ hl
        refine Represents.node _ vj csj idxj fxj
          (fun l => (i + layerWords ns) +
            layerWords (ns2.take (childrenBefore ns j + l))) hjc2 ?_ ?_ ?_ ?_ ?_
        · -- header word
          rw [C2 _ (by omega) (fun c hc hcf => by
            obtain ⟨j2, hj2, l2, hl2, hint2, he2⟩ :=
              childListOf_seqFix_slot ns i c (hns2 ▸ hc) hsub hcf
            rw [he2, refix_fixup]
            have hjc2b : 0 < (ns.get ⟨j2, hj2⟩).children.length := by omega
            have hbs2 : 1 + l2 < blockSize (ns.get ⟨j2, hj2⟩) := by
              simp only [blockSize]
              rw [if_pos hjc2b]
              omega
            have hble2 := layerWords_take_block_le ns j2 hj2
            rcases Nat.lt_trichotomy j2 j with h | h | h
            · have hm2 := layerWords_take_mono ns (j2 + 1) j (by omega)
              have hs2 := layerWords_take_succ ns j2 hj2
              omega
            · subst h
              omega
            · have hm2 := layerWords_take_mono ns j j2 (by omega)
              omega)]
          rw [hout1]
          have hhd := emitSeq_header ns out i hlw hallfx j hj hjc
          rw [hidx, hcg] at hhd
          exact hhd
        · -- leaf entries
          intro l hl hleafl
          have hlcl : l < (ns.get ⟨j, hj⟩).children.length := hlX l hl
          rw [C2 _ (by omega) (fun c hc hcf => by
            obtain ⟨j2, hj2, l2, hl2, hint2, he2⟩ :=
              childListOf_seqFix_slot ns i c (hns2 ▸ hc) hsub hcf
            rw [he2, refix_fixup]
            have hjc2b : 0 < (ns.get ⟨j2, hj2⟩).children.length := by omega
            have hbs2 : 1 + l2 < blockSize (ns.get ⟨j2, hj2⟩) := by
              simp only [blockSize]
              rw [if_pos hjc2b]
              omega
            have hble2 := layerWords_take_block_le ns j2 hj2
            rcases Nat.lt_trichotomy j2 j with h | h | h
            · have hm2 := layerWords_take_mono ns (j2 + 1) j (by omega)
              have hs2 := layerWords_take_succ ns j2 hj2
              omega
            · intro heq
              have hlwe : layerWords (ns.take j2) = layerWords (ns.take j) := by
                rw [h]
              have hll : l2 = l := by omega
              subst hll
              have hx : ns.get ⟨j2, hj2⟩ = TrieNode.mk vj csj idxj fxj := by
                subst h
                exact hnj
              have hceq : (ns.get ⟨j2, hj2⟩).children = csj := by
                rw [hx]
                rfl
              have hint3 : 0 < (csj.get ⟨l2, hl⟩).children.length :=
                get_congr hceq l2 hl2 hl ▸ hint2
              omega
            · have hm2 := layerWords_take_mono ns (j + 1) j2 (by omega)
              have hs2 := layerWords_take_succ ns j hj
              omega)]
          rw [hout1]
          have hent := emitSeq_entry ns out i hlw hallfx j hj hjc l hlcl
          rw [hcc l hl] at hent
          rw [hent]
          simp only [entryWord]
          rw [if_pos hleafl]
        · -- pointer offsets in range
          intro l hl hintl
          show i + layerWords ns +
            layerWords (ns2.take (childrenBefore ns j + l)) < 2 ^ 23
          have hlcl : l < (ns.get ⟨j, hj⟩).children.length := hlX l hl
          have hintl2 : 0 <
              ((ns.get ⟨j, hj⟩).children.get ⟨l, hlcl⟩).children.length := by
            rw [hcc l hl]
            exact hintl
          obtain ⟨hm, hgm⟩ :=
            childListOf_seqFix_get ns i j hj hjc l hlcl hintl2
          rw [hcc l hl] at hgm
          have hm2 : childrenBefore ns j + l < ns2.length := hm
          have hgm2 : ns2.get ⟨childrenBefore ns j + l, hm2⟩ =
              refix (csj.get ⟨l, hl⟩)
                (i + layerWords (ns.take j) + 1 + l) := hgm
          have h2 : 0 < blockSize (ns2.get ⟨childrenBefore ns j + l, hm2⟩) := by
            rw [hgm2]
            simp only [blockSize, refix_children]
            rw [if_pos hintl]
            omega
          have h3 := layerWords_take_block_le ns2 (childrenBefore ns j + l) hm2
          have h4 := layerWords_le_sizeAccList ns2
          omega
        · -- pointer entries are patched with the child's offset
          intro l hl hintl
          have hlcl : l < (ns.get ⟨j, hj⟩).children.length := hlX l hl
          have hintl2 : 0 <
              ((ns.get ⟨j, hj⟩).children.get ⟨l, hlcl⟩).children.length := by
            rw [hcc l hl]
            exact hintl
          obtain ⟨hm, hgm⟩ :=
            childListOf_seqFix_get ns i j hj hjc l hlcl hintl2
          rw [hcc l hl] at hgm
          have hm2 : childrenBefore ns j + l < ns2.length := hm
          have hgm2 : ns2.get ⟨childrenBefore ns j + l, hm2⟩ =
              refix (csj.get ⟨l, hl⟩)
                (i + layerWords (ns.take j) + 1 + l) := hgm
          have hfm : 0 < (ns2.get ⟨childrenBefore ns j + l, hm2⟩).fixup := by
            rw [hgm2, refix_fixup]
            omega
          have hc3 := C3 (childrenBefore ns j + l) hm2 hfm
          rw [hgm2, refix_fixup] at hc3
          rw [hc3]
          have hev : out1.getD (i + layerWords (ns.take j) + 1 + l) 0 =
              u32 (csj.get ⟨l, hl⟩).value := by
            rw [hout1]
            have hent := emitSeq_entry ns out i hlw hallfx j hj hjc l hlcl
            rw [hcc l hl] at hent
            rw [hent]
            simp only [entryWord]
            rw [if_neg (by omega)]
          rw [hev]
        · -- children are represented at their own offsets
          intro l hl hintl
          have hlcl : l < (ns.get ⟨j, hj⟩).children.length := hlX l hl
          have hintl2 : 0 <
              ((ns.get ⟨j, hj⟩).children.get ⟨l, hlcl⟩).children.length := by
            rw [hcc l hl]
            exact hintl
          obtain ⟨hm, hgm⟩ :=
            childListOf_seqFix_get ns i j hj hjc l hlcl hintl2
          rw [hcc l hl] at hgm
          have hm2 : childrenBefore ns j + l < ns2.length := hm
          have hgm2 : ns2.get ⟨childrenBefore ns j + l, hm2⟩ =
              refix (csj.get ⟨l, hl⟩)
                (i + layerWords (ns.take j) + 1 + l) := hgm
          have hc4 := C4 (childrenBefore ns j + l) hm2 (by
            rw [hgm2]
            simp only [refix_children]
            exact hintl)
          rw [hgm2] at hc4
          cases hcx : csj.get ⟨l, hl⟩ with
          | mk vc cc ic fc =>
            rw [hcx] at hc4
            simp only [refix, TrieNode.value, TrieNode.children,
              TrieNode.index] at hc4
            exact Represents_refix hc4

/-- A member of a list of tries counts no more nodes than the list. -/
theorem cntNode_mem_le {c : TrieNode} :
    ∀ {cs : List TrieNode}, c ∈ cs → cntNode c ≤ cntList cs := by
  intro cs hc
  induction cs with
  | nil => simp at hc
  | cons a as ih =>
    rcases List.mem_cons.1 hc with h | h
    · subst h
      simp only [cntList]
      omega
    · have h1 := ih h
      simp only [cntList]
      have h2 := cntNode_pos a
      omega

/-- The walk's maximum depth is at least the starting depth. -/
theorem maxDepthNode_ge (c : TrieNode) (d : Nat) : d ≤ maxDepthNode c d := by
  cases c with
  | mk v cs idx fx =>
    simp only [maxDepthNode]
    omega

/-- The height of a trie is bounded by the maximum depth its walk
reports, shifted by the starting depth. -/
theorem height_le_maxDepth : ∀ (k : Nat) (t : TrieNode), cntNode t ≤ k →
    ∀ d, d + heightNode t ≤ maxDepthNode t d + 1 := by
  intro k
  induction k with
  | zero =>
    intro t hk
    have := cntNode_pos t
    omega
  | succ m ih =>
    intro t hk d
    cases t with
    | mk v cs idx fx =>
      simp only [heightNode, maxDepthNode]
      simp only [cntNode] at hk
      have hmem : ∀ c ∈ cs, cntNode c ≤ m := by
        intro c hc
        have := cntNode_mem_le hc
        omega
      have hlist : ∀ (cs2 : List TrieNode), (∀ c ∈ cs2, cntNode c ≤ m) →
          ∀ d2, d2 + heightList cs2 ≤ max d2 (maxDepthList cs2 d2) + 1 := by
        intro cs2 hcs2
        induction cs2 with
        | nil =>
          intro d2
          simp only [heightList, maxDepthList]
          omega
        | cons a as ih2 =>
          intro d2
          simp only [heightList, maxDepthList]
          have h1 := ih a (hcs2 a (by simp)) d2
          have h2 := ih2 (fun c hc => hcs2 c (by simp [hc])) d2
          have h3 := maxDepthNode_ge a d2
          omega
      cases cs with
      | nil =>
        simp only [heightList, maxDepthList]
        omega
      | cons a as =>
        have hthis := hlist (a :: as) hmem (d + 1)
        have h3 : d + 1 ≤ maxDepthList (a :: as) (d + 1) := by
          simp only [maxDepthList]
          have := maxDepthNode_ge a (d + 1)
          omega
        omega

/-- `TrieNode.serialize` produces an array that represents the trie at
position `0`, for a root with at least one child, fixup `0`, all
descendant fixups `0`, and total size within the 23-bit offset
range. -/
theorem serialize_represents (t : TrieNode)
    (hc : 0 < t.children.length) (hfx0 : t.fixup = 0)
    (hsub : SubFixZero t) (hsz : sizeAccNode t ≤ 2 ^ 23) :
    Represents t.serialize 0 t := by
  have hrw : t.serialize =
      (passes (maxDepthNode t 0 + 1) [t]
        (List.replicate (sizeAccNode t) 0, 0)).1 := by
    simp only [TrieNode.serialize]
    rw [serializeLoop_passes, nodesAt_zero]
  obtain ⟨C0, C1, C2, C3, C4⟩ := passes_spec (maxDepthNode t 0 + 1) [t]
    (List.replicate (sizeAccNode t) 0) 0
    (by
      intro n hn
      rw [List.mem_singleton] at hn
      subst hn
      have := height_le_maxDepth (cntNode n) n (le_refl _) 0
      omega)
    (by
      intro n hn
      rw [List.mem_singleton] at hn
      subst hn
      exact hsub)
    (by
      intro n hn _
      rw [List.mem_singleton] at hn
      subst hn
      exact hfx0)
    (by
      intro n hn h0
      rw [List.mem_singleton] at hn
      subst hn
      rw [hfx0] at h0
      omega)
    (by simp)
    (by
      simp only [sizeAccList, List.length_replicate]
      omega)
    (by simpa using hsz)
  rw [hrw]
  exact C4 0 (by simp) hc

/-- The binary-search loop never exceeds its upper bound. -/
theorem sortSearchLoop_le (f : Nat → Bool) :
    ∀ (fuel i j : Nat), i ≤ j → sortSearchLoop f fuel i j ≤ j := by
  intro fuel
  induction fuel with
  | zero =>
    intro i j h
    exact h
  | succ m ih =>
    intro i j h
    simp only [sortSearchLoop]
    split
    · next hij =>
      split
      · exact le_trans (ih i ((i + j) / 2) (by omega)) (by omega)
      · exact ih ((i + j) / 2 + 1) j (by omega)
    · exact h

/-- `sort.Search` returns at most `n`. -/
theorem sortSearch_le (n : Nat) (f : Nat → Bool) : sortSearch n f ≤ n :=
  sortSearchLoop_le f n 0 n (by omega)

/-- `insert` never touches the fixup field of the node itself. -/
theorem insert_fixup (t : TrieNode) (tok : List Nat) (idx : Int) :
    (t.insert tok idx).fixup = t.fixup := by
  cases tok with
  | nil => rfl
  | cons ch rest =>
    simp only [TrieNode.insert]
    split <;> rfl

/-- Root-level well-formedness: all of `WFS` except the
childless-index clause for the node itself (the fresh root has index
`-1` until its token, if any, is inserted). -/
def WFS0 (t : TrieNode) : Prop :=
  SortedChildren t.children ∧ (∀ c ∈ t.children, c.value < 256) ∧
  -1 ≤ t.index ∧ t.index < 2 ^ 23 ∧ (∀ c ∈ t.children, WFS c)

/-- A root with at least one child satisfying `WFS0` is `WFS`. -/
theorem WFS_of_WFS0 {t : TrieNode} (h : WFS0 t) (hc : t.children ≠ []) :
    WFS t := by
  cases t with
  | mk v cs idx fx =>
    obtain ⟨h1, h2, h3, h4, h5⟩ := h
    exact WFS.node v cs idx fx h1 h2 h3 h4 (fun he => absurd he hc) h5

/-- Inserting a byte string (all bytes `< 256`) with an in-range
nonnegative index preserves `WFS`, and yields a `WFS` subtree when
started from a fresh node. -/
theorem WFS_insert (idx : Int) (h0 : 0 ≤ idx) (hidx : idx < 2 ^ 23) :
    ∀ (tok : List Nat), (∀ b ∈ tok, b < 256) →
      (∀ t : TrieNode, WFS t → WFS (t.insert tok idx)) ∧
      (∀ v : Nat, WFS ((newTrieNode v).insert tok idx)) := by
  intro tok
  induction tok with
  | nil =>
    intro _
    constructor
    · intro t h
      cases t with
      | mk v cs i0 f0 =>
        cases h with
        | node _ _ _ _ h1 h2 h3 h4 h5 h6 =>
          exact WFS.node v cs idx f0 h1 h2 (by omega) hidx (fun _ => h0) h6
    · intro v
      exact WFS.node v [] idx 0 List.Pairwise.nil
        (by intro c hc; simp at hc) (by omega) hidx (fun _ => h0)
        (by intro c hc; simp at hc)
  | cons ch rest ih =>
    intro hb
    have hch : ch < 256 := hb ch (by simp)
    have hrest : ∀ b ∈ rest, b < 256 := fun b hbr => hb b (by simp [hbr])
    obtain ⟨ihT, ihN⟩ := ih hrest
    constructor
    · intro t h
      cases t with
      | mk v cs i0 f0 =>
        cases h with
        | node _ _ _ _ h1 h2 h3 h4 h5 h6 =>
          simp only [TrieNode.insert, TrieNode.children, TrieNode.value,
            TrieNode.index, TrieNode.fixup]
          set r := sortSearch cs.length (fun i => decide (ch ≤ childValue cs i))
            with hrdef
          by_cases hf : r < cs.length ∧ childValue cs r = ch
          · rw [dif_pos hf]
            set x := (cs.get ⟨r, hf.1⟩).insert rest idx with hx
            have hxv : x.value = childValue cs r := by
              rw [hx, TrieNode.insert_value]
              exact (childValue_get cs r hf.1).symm
            refine WFS.node _ _ _ _ ?_ ?_ h3 h4 ?_ ?_
            · exact sortedChildren_of_childValue_eq (by simp)
                (childValue_set cs r x hf.1 hxv) h1
            · intro c hcmem
              rcases List.mem_or_eq_of_mem_set hcmem with hm | he
              · exact h2 c hm
              · subst he
                rw [hxv, childValue_get cs r hf.1]
                exact h2 _ (cs.get_mem _ _)
            · intro he
              exfalso
              have hlen := congrArg List.length he
              rw [List.length_set] at hlen
              simp only [List.length_nil] at hlen
              omega
            · intro c hcmem
              rcases List.mem_or_eq_of_mem_set hcmem with hm | he
              · exact h6 c hm
              · subst he
                exact ihT _ (h6 _ (cs.get_mem _ _))
          · rw [dif_neg hf]
            set nn := (newTrieNode ch).insert rest idx with hnn
            have hnnv : nn.value = ch := by rw [hnn, TrieNode.insert_value]; rfl
            obtain ⟨hb1, hb2, hb3⟩ := searchChild_spec cs ch h1
            have hnone := searchChild_none cs ch h1 hf
            refine WFS.node _ _ _ _ ?_ ?_ h3 h4 ?_ ?_
            · refine sortedChildren_insertIdx cs nn r h1 hb1 ?_ ?_
              · intro k hk
                rw [hnnv]
                exact hb2 k hk
              · intro k hk1 hk2
                rw [hnnv]
                have hx1 := hb3 k hk1 hk2
                have hx2 := hnone k hk2
                omega
            · intro c hcmem
              rw [List.mem_insertIdx hb1] at hcmem
              rcases hcmem with he | hm
              · subst he
                rw [hnnv]
                exact hch
              · exact h2 c hm
            · intro he
              have hmem : nn ∈ cs.insertIdx r nn :=
                (List.mem_insertIdx hb1).2 (Or.inl rfl)
              rw [he] at hmem
              simp at hmem
            · intro c hcmem
              rw [List.mem_insertIdx hb1] at hcmem
              rcases hcmem with he | hm
              · subst he
                exact ihN ch
              · exact h6 c hm
    · intro v
      simp only [TrieNode.insert]
      rw [dif_neg (by intro hcontra; exact Nat.not_lt_zero _ hcontra.1)]
      show WFS (TrieNode.mk v [(newTrieNode ch).insert rest idx] (-1) 0)
      refine WFS.node _ _ _ _ ?_ ?_ (by omega) (by omega) ?_ ?_
      · simp [SortedChildren]
      · intro c hcm
        rw [List.mem_singleton] at hcm
        subst hcm
        rw [TrieNode.insert_value]
        exact hch
      · intro he
        simp at he
      · intro c hcm
        rw [List.mem_singleton] at hcm
        subst hcm
        exact ihN ch

/-- Inserting preserves root-level well-formedness. -/
theorem WFS0_insert (idx : Int) (h0 : 0 ≤ idx) (hidx : idx < 2 ^ 23)
    (tok : List Nat) (hb : ∀ b ∈ tok, b < 256) :
    ∀ t : TrieNode, WFS0 t → WFS0 (t.insert tok idx) := by
  cases tok with
  | nil =>
    intro t h
    cases t with
    | mk v cs i0 f0 =>
      obtain ⟨h1, h2, h3, h4, h5⟩ := h
      exact ⟨h1, h2, le_trans (by omega) h0, hidx, h5⟩
  | cons ch rest =>
    intro t h
    have hch : ch < 256 := hb ch (by simp)
    have hrest : ∀ b ∈ rest, b < 256 := fun b hbr => hb b (by simp [hbr])
    obtain ⟨ihT, ihN⟩ := WFS_insert idx h0 hidx rest hrest
    cases t with
    | mk v cs i0 f0 =>
      obtain ⟨h1, h2, h3, h4, h5⟩ := h
      have h1' : SortedChildren cs := h1
      have h2' : ∀ c ∈ cs, c.value < 256 := h2
      have h5' : ∀ c ∈ cs, WFS c := h5
      simp only [TrieNode.insert, TrieNode.children, TrieNode.value,
        TrieNode.index, TrieNode.fixup]
      set r := sortSearch cs.length (fun i => decide (ch ≤ childValue cs i))
        with hrdef
      by_cases hf : r < cs.length ∧ childValue cs r = ch
      · rw [dif_pos hf]
        simp only [WFS0, TrieNode.children, TrieNode.index]
        set x := (cs.get ⟨r, hf.1⟩).insert rest idx with hx
        have hxv : x.value = childValue cs r := by
          rw [hx, TrieNode.insert_value]
          exact (childValue_get cs r hf.1).symm
        refine ⟨?_, ?_, h3, h4, ?_⟩
        · exact sortedChildren_of_childValue_eq (by simp)
            (childValue_set cs r x hf.1 hxv) h1'
        · intro c hcmem
          rcases List.mem_or_eq_of_mem_set hcmem with hm | he
          · exact h2' c hm
          · subst he
            rw [hxv, childValue_get cs r hf.1]
            exact h2' _ (cs.get_mem _ _)
        · intro c hcmem
          rcases List.mem_or_eq_of_mem_set hcmem with hm | he
          · exact h5' c hm
          · subst he
            exact ihT _ (h5' _ (cs.get_mem _ _))
      · rw [dif_neg hf]
        simp only [WFS0, TrieNode.children, TrieNode.index]
        set nn := (newTrieNode ch).insert rest idx with hnn
        have hnnv : nn.value = ch := by rw [hnn, TrieNode.insert_value]; rfl
        obtain ⟨hb1, hb2, hb3⟩ := searchChild_spec cs ch h1'
        have hnone := searchChild_none cs ch h1' hf
        refine ⟨?_, ?_, h3, h4, ?_⟩
        · refine sortedChildren_insertIdx cs nn r h1' hb1 ?_ ?_
          · intro k hk
            rw [hnnv]
            exact hb2 k hk
          · intro k hk1 hk2
            rw [hnnv]
            have hx1 := hb3 k hk1 hk2
            have hx2 := hnone k hk2
            omega
        · intro c hcmem
          rw [List.mem_insertIdx hb1] at hcmem
          rcases hcmem with he | hm
          · subst he
            rw [hnnv]
            exact hch
          · exact h2' c hm
        · intro c hcmem
          rw [List.mem_insertIdx hb1] at hcmem
          rcases hcmem with he | hm
          · subst he
            exact ihN ch
          · exact h5' c hm

/-- Inserting keeps every strict descendant's fixup at `0`, and a
fresh subtree has all fixups `0`. -/
theorem SubFixZero_insert (idx : Int) :
    ∀ (tok : List Nat),
      (∀ t : TrieNode, SubFixZero t → SubFixZero (t.insert tok idx)) ∧
      (∀ v : Nat, SubFixZero ((newTrieNode v).insert tok idx)) := by
  intro tok
  induction tok with
  | nil =>
    constructor
    · intro t h
      cases t with
      | mk v cs i0 f0 =>
        cases h with
        | node _ _ _ _ h1 h2 => exact SubFixZero.node v cs idx f0 h1 h2
    · intro v
      exact SubFixZero.node v [] idx 0 (by intro c hc; simp at hc)
        (by intro c hc; simp at hc)
  | cons ch rest ih =>
    obtain ⟨ihT, ihN⟩ := ih
    constructor
    · intro t h
      cases t with
      | mk v cs i0 f0 =>
        cases h with
        | node _ _ _ _ h1 h2 =>
          simp only [TrieNode.insert, TrieNode.children, TrieNode.value,
            TrieNode.index, TrieNode.fixup]
          set r := sortSearch cs.length (fun i => decide (ch ≤ childValue cs i))
            with hrdef
          by_cases hf : r < cs.length ∧ childValue cs r = ch
          · rw [dif_pos hf]
            refine SubFixZero.node _ _ _ _ ?_ ?_
            · intro c hcm
              rcases List.mem_or_eq_of_mem_set hcm with hm | he
              · exact h1 c hm
              · subst he
                rw [insert_fixup]
                exact h1 _ (cs.get_mem _ _)
            · intro c hcm
              rcases List.mem_or_eq_of_mem_set hcm with hm | he
              · exact h2 c hm
              · subst he
                exact ihT _ (h2 _ (cs.get_mem _ _))
          · rw [dif_neg hf]
            have hb1 : r ≤ cs.length := sortSearch_le cs.length _
            refine SubFixZero.node _ _ _ _ ?_ ?_
            · intro c hcm
              rw [List.mem_insertIdx hb1] at hcm
              rcases hcm with he | hm
              · subst he
                rw [insert_fixup]
                rfl
              · exact h1 c hm
            · intro c hcm
              rw [List.mem_insertIdx hb1] at hcm
              rcases hcm with he | hm
              · subst he
                exact ihN ch
              · exact h2 c hm
    · intro v
      simp only [TrieNode.insert]
      rw [dif_neg (by intro hcontra; exact Nat.not_lt_zero _ hcontra.1)]
      show SubFixZero (TrieNode.mk v [(newTrieNode ch).insert rest idx] (-1) 0)
      refine SubFixZero.node _ _ _ _ ?_ ?_
      · intro c hcm
        rw [List.mem_singleton] at hcm
        subst hcm
        rw [insert_fixup]
        rfl
      · intro c hcm
        rw [List.mem_singleton] at hcm
        subst hcm
        exact ihN ch

/-- The fresh root is root-level well-formed. -/
theorem WFS0_new : WFS0 (newTrieNode 0) := by
  simp only [WFS0, newTrieNode, TrieNode.children, TrieNode.index]
  refine ⟨List.Pairwise.nil, ?_, by omega, by omega, ?_⟩
  · intro c hc
    simp at hc
  · intro c hc
    simp at hc

/-- The `BuildTrie` fold preserves root-level well-formedness when
every byte is `< 256` and all indices stay below `2^23`. -/
theorem BuildTrieAux_WFS0 : ∀ (ts : List (List Nat)) (root : TrieNode)
    (i : Nat), (∀ tok ∈ ts, ∀ b ∈ tok, b < 256) → i + ts.length ≤ 2 ^ 23 →
    WFS0 root → WFS0 (BuildTrieAux root ts i) := by
  intro ts
  induction ts with
  | nil =>
    intro root i _ _ h
    exact h
  | cons t ts ih =>
    intro root i hb hlen h
    simp only [BuildTrieAux]
    have hib : (Int.ofNat i) < 2 ^ 23 := by
      show (i : Int) < 2 ^ 23
      simp only [List.length_cons] at hlen
      omega
    refine ih _ (i + 1) (fun tok htok => hb tok (by simp [htok])) ?_ ?_
    · simp only [List.length_cons] at hlen
      omega
    · refine WFS0_insert (Int.ofNat i) ?_ hib t (hb t (by simp)) root h
      show (0 : Int) ≤ (i : Int)
      omega

/-- The `BuildTrie` fold keeps every fixup at `0`. -/
theorem BuildTrieAux_fixzero : ∀ (ts : List (List Nat)) (root : TrieNode)
    (i : Nat), root.fixup = 0 → SubFixZero root →
    (BuildTrieAux root ts i).fixup = 0 ∧
      SubFixZero (BuildTrieAux root ts i) := by
  intro ts
  induction ts with
  | nil =>
    intro root i hfx hsub
    exact ⟨hfx, hsub⟩
  | cons t ts ih =>
    intro root i hfx hsub
    simp only [BuildTrieAux]
    refine ih _ (i + 1) ?_ ?_
    · rw [insert_fixup]
      exact hfx
    · exact (SubFixZero_insert (Int.ofNat i) t).1 root hsub

/-- The serialized lookup on `serialize(BuildTrie(tokens))` agrees
with the in-memory lookup for every non-empty key of bytes. -/
theorem serialized_BuildTrie_lookup (tokens : List (List Nat))
    (key : List Nat)
    (htok : ∀ tok ∈ tokens, ∀ b ∈ tok, b < 256)
    (hcnt : tokens.length ≤ 2 ^ 23)
    (hsz : sizeAccNode (BuildTrie tokens) ≤ 2 ^ 23)
    (hroot : (BuildTrie tokens).children.length ≠ 0)
    (hkey : key ≠ []) (hkb : ∀ b ∈ key, b < 256) :
    TrieLookup (BuildTrie tokens).serialize key =
      (BuildTrie tokens).lookup key := by
  have hW0 : WFS0 (BuildTrie tokens) :=
    BuildTrieAux_WFS0 tokens (newTrieNode 0) 0 htok (by omega) WFS0_new
  have hNE : (BuildTrie tokens).children ≠ [] := by
    intro he
    apply hroot
    rw [he]
    rfl
  have hW : WFS (BuildTrie tokens) := WFS_of_WFS0 hW0 hNE
  obtain ⟨hfx0, hsub⟩ := BuildTrieAux_fixzero tokens (newTrieNode 0) 0 rfl
    (SubFixZero.node 0 [] (-1) 0 (by intro c hc; simp at hc)
      (by intro c hc; simp at hc))
  have hR : Represents (BuildTrie tokens).serialize 0 (BuildTrie tokens) :=
    serialize_represents _ (by omega) hfx0 hsub hsz
  simp only [TrieLookup]
  rw [if_neg (by simpa using hkey)]
  exact serLookup_refines _ key _ 0 hkb hR hW

/-- C10: for every token list (bytes `< 256`, at most `2^23` tokens,
root non-leaf, serialized size within the 23-bit offset range) and
every non-empty byte-string key, `serializedTrie.Lookup` on
`serialize(BuildTrie(tokens))` returns exactly the in-memory
`TrieNode.lookup` of the key on `BuildTrie(tokens)`: the serialized
form is a faithful refinement of the pointer-based trie. -/
theorem claim_C10_serialized_trie_refines (tokens : List (List Nat))
    (key : List Nat)
    (htok : ∀ tok ∈ tokens, ∀ b ∈ tok, b < 256)
    (hcnt : tokens.length ≤ 2 ^ 23)
    (hsz : sizeAccNode (BuildTrie tokens) ≤ 2 ^ 23)
    (hroot : (BuildTrie tokens).children.length ≠ 0)
    (hkey : key ≠ []) (hkb : ∀ b ∈ key, b < 256) :
    TrieLookup (BuildTrie tokens).serialize key =
      (BuildTrie tokens).lookup key :=
  serialized_BuildTrie_lookup tokens key htok hcnt hsz hroot hkey hkb

theorem claim_C10_serialized_trie_refines_witness :
    (∀ tok ∈ [[97], [98], [97, 98]], ∀ b ∈ tok, b < 256) ∧
    ([97, 98] : List Nat) ≠ [] ∧
    TrieLookup (BuildTrie [[97], [98], [97, 98]]).serialize [97, 98] =
      (BuildTrie [[97], [98], [97, 98]]).lookup [97, 98] :=
  ⟨by decide, by decide,
    claim_C10_serialized_trie_refines [[97], [98], [97, 98]] [97, 98]
      (by decide) (by decide) (by decide) (by decide) (by decide) (by decide)⟩

/-- `WFT` is preserved by the `BuildTrie` fold. -/
theorem BuildTrieAux_WFT : ∀ (ts : List (List Nat)) (root : TrieNode)
    (i : Nat), WFT root → WFT (BuildTrieAux root ts i) := by
  intro ts
  induction ts with
  | nil =>
    intro root i h
    exact h
  | cons t ts ih =>
    intro root i h
    simp only [BuildTrieAux]
    exact ih _ (i + 1) (WFT_insert t (Int.ofNat i) root h)

/-- Keys not among the remaining tokens keep their lookup value
through the `BuildTrie` fold. -/
theorem BuildTrieAux_lookup_notmem : ∀ (ts : List (List Nat))
    (root : TrieNode) (i : Nat) (key : List Nat), key ∉ ts → WFT root →
    (BuildTrieAux root ts i).lookup key = root.lookup key := by
  intro ts
  induction ts with
  | nil =>
    intro root i key _ _
    rfl
  | cons t ts ih =>
    intro root i key hnm h
    simp only [BuildTrieAux]
    rw [ih _ (i + 1) key (fun hm => hnm (by simp [hm]))
      (WFT_insert t _ root h)]
    exact lookup_insert_other t (Int.ofNat i) key
      (fun he => hnm (by rw [he]; simp)) root h

/-- A token with no later duplicate looks up to its insertion
index. -/
theorem BuildTrieAux_lookup_at : ∀ (ts : List (List Nat))
    (root : TrieNode) (i : Nat) (j : Nat) (hj : j < ts.length), WFT root →
    (∀ j2 (hj2 : j2 < ts.length), j < j2 →
      ts.get ⟨j2, hj2⟩ ≠ ts.get ⟨j, hj⟩) →
    (BuildTrieAux root ts i).lookup (ts.get ⟨j, hj⟩) =
      Int.ofNat (i + j) := by
  intro ts
  induction ts with
  | nil =>
    intro root i j hj
    simp at hj
  | cons t ts ih =>
    intro root i j hj hW hlast
    cases j with
    | zero =>
      have hnm : t ∉ ts := by
        intro hm
        obtain ⟨⟨k, hk⟩, he⟩ := List.mem_iff_get.1 hm
        exact hlast (k + 1) (by simpa using hk) (by omega) he
      simp only [BuildTrieAux]
      show (BuildTrieAux (root.insert t (Int.ofNat i)) ts (i + 1)).lookup t =
        Int.ofNat (i + 0)
      rw [BuildTrieAux_lookup_notmem ts (root.insert t (Int.ofNat i)) (i + 1)
        t hnm (WFT_insert t _ root hW)]
      rw [lookup_insert_self t (Int.ofNat i) root hW]
      congr 1
    | succ j =>
      have hj' : j < ts.length := by simpa using hj
      have hlast' : ∀ j2 (hj2 : j2 < ts.length), j < j2 →
          ts.get ⟨j2, hj2⟩ ≠ ts.get ⟨j, hj'⟩ := by
        intro j2 hj2 hgt he
        exact hlast (j2 + 1) (by simpa using hj2) (by omega) he
      have hres := ih (root.insert t (Int.ofNat i)) (i + 1) j hj'
        (WFT_insert t _ root hW) hlast'
      simp only [BuildTrieAux]
      show (BuildTrieAux (root.insert t (Int.ofNat i)) ts (i + 1)).lookup
        (ts.get ⟨j, hj'⟩) = Int.ofNat (i + (j + 1))
      rw [hres]
      congr 1
      omega

/-- C3: on the serialized trie built from a vocabulary (bytes `< 256`,
at most `2^23` tokens, root non-leaf, serialized size within the
23-bit offset range): looking up a non-empty vocabulary entry with no
later duplicate returns its token index; looking up any non-empty
byte string outside the vocabulary returns `-1`; and the empty key
returns `-1`. -/
theorem claim_C3_trie_lookup_correct (tokens : List (List Nat))
    (htok : ∀ tok ∈ tokens, ∀ b ∈ tok, b < 256)
    (hcnt : tokens.length ≤ 2 ^ 23)
    (hsz : sizeAccNode (BuildTrie tokens) ≤ 2 ^ 23)
    (hroot : (BuildTrie tokens).children.length ≠ 0) :
    (∀ j (hj : j < tokens.length), tokens.get ⟨j, hj⟩ ≠ [] →
      (∀ j2 (hj2 : j2 < tokens.length), j < j2 →
        tokens.get ⟨j2, hj2⟩ ≠ tokens.get ⟨j, hj⟩) →
      TrieLookup (BuildTrie tokens).serialize (tokens.get ⟨j, hj⟩) =
        Int.ofNat j) ∧
    (∀ key : List Nat, key ∉ tokens → key ≠ [] → (∀ b ∈ key, b < 256) →
      TrieLookup (BuildTrie tokens).serialize key = -1) ∧
    TrieLookup (BuildTrie tokens).serialize [] = -1 := by
  refine ⟨?_, ?_, rfl⟩
  · intro j hj hne hlast
    have hkb : ∀ b ∈ tokens.get ⟨j, hj⟩, b < 256 :=
      htok _ (tokens.get_mem _ _)
    rw [serialized_BuildTrie_lookup tokens _ htok hcnt hsz hroot hne hkb]
    have h2 := BuildTrieAux_lookup_at tokens (newTrieNode 0) 0 j hj
      (WFT_new 0) hlast
    show (BuildTrieAux (newTrieNode 0) tokens 0).lookup
      (tokens.get ⟨j, hj⟩) = Int.ofNat j
    rw [h2]
    congr 1
    omega
  · intro key hnm hne hkb
    rw [serialized_BuildTrie_lookup tokens key htok hcnt hsz hroot hne hkb]
    show (BuildTrieAux (newTrieNode 0) tokens 0).lookup key = -1
    rw [BuildTrieAux_lookup_notmem tokens (newTrieNode 0) 0 key hnm
      (WFT_new 0)]
    exact lookup_new 0 key

theorem claim_C3_trie_lookup_correct_witness :
    sizeAccNode (BuildTrie [[97], [98], [97, 98]]) ≤ 2 ^ 23 ∧
    TrieLookup (BuildTrie [[97], [98], [97, 98]]).serialize [99] = -1 ∧
    TrieLookup (BuildTrie [[97], [98], [97, 98]]).serialize [] = -1 := by
  have h := claim_C3_trie_lookup_correct [[97], [98], [97, 98]]
    (by decide) (by decide) (by decide) (by decide)
  exact ⟨by decide, h.2.1 [99] (by decide) (by decide) (by decide), h.2.2⟩

/-! ### The byte-pair table (`gen/trie_test.go` createPairList and the
`init` inflation of the encoding packages) -/

/-- One entry of the pair list:
`(int(tokenList[i][0])<<28)|(int(tokenList[i][1])<<20)|i`. -/
def pairWord (t : List Nat) (idx : Nat) : Nat :=
  (((t.getD 0 0) <<< 28) ||| ((t.getD 1 0) <<< 20)) ||| idx

/-- The collection loop of `createPairList`, from index `i`. -/
def createPairListAux : List (List Nat) → Nat → List Nat
  | [], _ => []
  | t :: ts, i =>
    if t.length = 2 then pairWord t i :: createPairListAux ts (i + 1)
    else createPairListAux ts (i + 1)

/-- Insertion step of the modelled `sort.Ints`. -/
def sortedInsert (x : Nat) : List Nat → List Nat
  | [] => [x]
  | y :: ys => if x ≤ y then x :: y :: ys else y :: sortedInsert x ys

/-- `sort.Ints` as insertion sort (only the multiset matters for the
inflation). -/
def sortInts : List Nat → List Nat
  | [] => []
  | x :: xs => sortedInsert x (sortInts xs)

/-- `createPairList` from `gen/trie_test.go`: the sorted list of
`left<<28|right<<20|n` for all two-byte tokens at index `≥ 256`. -/
def createPairList (tokenList : List (List Nat)) : List Nat :=
  sortInts (createPairListAux (tokenList.drop 256) 256)

/-- The `init` inflation: `pairsToToken[pair>>20] = int(pair) & 0xfffff`
over the pair list. -/
def inflatePairs : List Nat → List Int → List Int
  | [], table => table
  | p :: ps, table =>
    inflatePairs ps (table.set (p >>> 20) (Int.ofNat (p &&& 0xfffff)))

/-- The dense 65536-entry table, initialized to `-1`. -/
def pairsToToken (tokenList : List (List Nat)) : List Int :=
  inflatePairs (createPairList tokenList) (List.replicate 65536 (-1))

/-- Modelled from the spec: `PairRank(b1, b2)` reads the dense table
at `(b1 << 8) | b2`; `-1` is ABSENT. -/
def PairRank (table : List Int) (b1 b2 : Nat) : Int :=
  table.getD ((b1 <<< 8) ||| b2) (-1)

theorem mem_sortedInsert (a x : Nat) :
    ∀ l, a ∈ sortedInsert x l ↔ a = x ∨ a ∈ l := by
  intro l
  induction l with
  | nil => simp [sortedInsert]
  | cons y ys ih =>
    simp only [sortedInsert]
    split
    · simp
    · simp only [List.mem_cons, ih]
      tauto

theorem mem_sortInts (a : Nat) : ∀ l, a ∈ sortInts l ↔ a ∈ l := by
  intro l
  induction l with
  | nil => simp [sortInts]
  | cons x xs ih =>
    simp only [sortInts, mem_sortedInsert, ih, List.mem_cons]

theorem mem_createPairListAux : ∀ (ts : List (List Nat)) (i p : Nat),
    p ∈ createPairListAux ts i ↔
    ∃ (j : Nat) (hj : j < ts.length), (ts.get ⟨j, hj⟩).length = 2 ∧
      p = pairWord (ts.get ⟨j, hj⟩) (i + j) := by
  intro ts
  induction ts with
  | nil =>
    intro i p
    simp [createPairListAux]
  | cons t ts ih =>
    intro i p
    simp only [createPairListAux]
    constructor
    · intro hm
      split at hm
      · next hlen2 =>
        rcases List.mem_cons.1 hm with he | hm2
        · exact ⟨0, by simp, hlen2, by simpa using he⟩
        · obtain ⟨j, hj, hl, he⟩ := (ih (i + 1) p).1 hm2
          refine ⟨j + 1, by simpa using hj, hl, ?_⟩
          rw [he]
          congr 1
          omega
      · next hlen2 =>
        obtain ⟨j, hj, hl, he⟩ := (ih (i + 1) p).1 hm
        refine ⟨j + 1, by simpa using hj, hl, ?_⟩
        rw [he]
        congr 1
        omega
    · intro hex
      obtain ⟨j, hj, hl, he⟩ := hex
      cases j with
      | zero =>
        have hl0 : t.length = 2 := hl
        rw [if_pos hl0]
        apply List.mem_cons.2
        left
        rw [he]
        congr 1
      | succ j2 =>
        have hj2 : j2 < ts.length := by simpa using hj
        have hmem : p ∈ createPairListAux ts (i + 1) := by
          refine (ih (i + 1) p).2 ⟨j2, hj2, hl, ?_⟩
          rw [he]
          congr 1
          omega
        split
        · exact List.mem_cons.2 (Or.inr hmem)
        · exact hmem

theorem getD_set_self_int (l : List Int) (p : Nat) (w d : Int)
    (h : p < l.length) : (l.set p w).getD p d = w := by
  rw [List.getD_eq_getElem _ _ (by simpa using h)]
  exact List.getElem_set_self (by simpa using h)

theorem getD_set_ne_int (l : List Int) (p q : Nat) (w d : Int)
    (h : p ≠ q) : (l.set p w).getD q d = l.getD q d := by
  rcases Nat.lt_or_ge q l.length with hq | hq
  · rw [List.getD_eq_getElem _ _ (by simpa using hq),
      List.getD_eq_getElem _ _ hq]
    exact List.getElem_set_ne h _
  · rw [List.getD_eq_default _ _ (by simpa using hq),
      List.getD_eq_default _ _ hq]

theorem inflatePairs_length : ∀ (ps : List Nat) (table : List Int),
    (inflatePairs ps table).length = table.length := by
  intro ps
  induction ps with
  | nil =>
    intro table
    rfl
  | cons p ps ih =>
    intro table
    simp only [inflatePairs]
    rw [ih, List.length_set]

theorem inflatePairs_getD_none : ∀ (ps : List Nat) (table : List Int)
    (k : Nat) (d : Int), (∀ p ∈ ps, p >>> 20 ≠ k) →
    (inflatePairs ps table).getD k d = table.getD k d := by
  intro ps
  induction ps with
  | nil =>
    intro table k d _
    rfl
  | cons p ps ih =>
    intro table k d h
    simp only [inflatePairs]
    rw [ih _ k d (fun q hq => h q (by simp [hq]))]
    exact getD_set_ne_int _ _ _ _ _ (h p (by simp))

theorem inflatePairs_getD_one : ∀ (ps : List Nat) (table : List Int)
    (k : Nat) (d : Int) (p0 : Nat), p0 ∈ ps → p0 >>> 20 = k →
    (∀ p ∈ ps, p >>> 20 = k → p = p0) → k < table.length →
    (inflatePairs ps table).getD k d = Int.ofNat (p0 &&& 0xfffff) := by
  intro ps
  induction ps with
  | nil =>
    intro table k d p0 hm
    simp at hm
  | cons p ps ih =>
    intro table k d p0 hm hk huniq hlt
    simp only [inflatePairs]
    by_cases hq : ∀ q ∈ ps, q >>> 20 ≠ k
    · have hp0 : p0 = p := by
        rcases List.mem_cons.1 hm with he | hm2
        · exact he
        · exact absurd hk (hq p0 hm2)
      rw [inflatePairs_getD_none ps _ k d hq]
      subst hp0
      rw [← hk]
      exact getD_set_self_int _ _ _ _ (by rw [hk]; exact hlt)
    · push_neg at hq
      obtain ⟨q, hqm, hqk⟩ := hq
      have hqp0 : q = p0 := huniq q (by simp [hqm]) hqk
      subst hqp0
      exact ih _ k d q hqm hqk
        (fun r hr hrk => huniq r (by simp [hr]) hrk)
        (by rw [List.length_set]; exact hlt)

/-- `x &&& 0xfffff` is `x % 2^20`. -/
theorem and_fffff (x : Nat) : x &&& 0xfffff = x % 2 ^ 20 := by
  have h := Nat.and_pow_two_sub_one_eq_mod x 20
  norm_num at h
  rw [show ((0xfffff : Nat) = 1048575) from rfl, h]
  norm_num

/-- A pair entry in arithmetic form. -/
theorem pairWord_eq (b1 b2 idx : Nat) (h1 : b1 < 256) (h2 : b2 < 256)
    (hi : idx < 2 ^ 20) :
    pairWord [b1, b2] idx = b1 * 2 ^ 28 + b2 * 2 ^ 20 + idx := by
  have hg0 : ([b1, b2].getD 0 0) = b1 := rfl
  have hg1 : ([b1, b2].getD 1 0) = b2 := rfl
  simp only [pairWord, hg0, hg1, Nat.shiftLeft_eq]
  rw [show b1 * 2 ^ 28 ||| b2 * 2 ^ 20 = b1 * 2 ^ 28 + b2 * 2 ^ 20 from
    lor_eq_add 28 (by omega) (by omega)]
  rw [lor_eq_add 20 (by omega) hi]

/-- The table key `(b1 << 8) | b2` in arithmetic form. -/
theorem pairKey_eq (b1 b2 : Nat) (h2 : b2 < 256) :
    (b1 <<< 8) ||| b2 = b1 * 256 + b2 := by
  rw [Nat.shiftLeft_eq]
  rw [lor_eq_add 8 (by simp [Nat.mul_mod_left]) (by omega)]

/-- The key of a pair entry recovers `(b1 << 8) | b2`. -/
theorem pairWord_shift (b1 b2 idx : Nat) (h1 : b1 < 256) (h2 : b2 < 256)
    (hi : idx < 2 ^ 20) :
    pairWord [b1, b2] idx >>> 20 = (b1 <<< 8) ||| b2 := by
  rw [pairWord_eq b1 b2 idx h1 h2 hi, pairKey_eq b1 b2 h2,
    Nat.shiftRight_eq_div_pow]
  omega

/-- The value of a pair entry recovers the token index. -/
theorem pairWord_mask (b1 b2 idx : Nat) (h1 : b1 < 256) (h2 : b2 < 256)
    (hi : idx < 2 ^ 20) : pairWord [b1, b2] idx &&& 0xfffff = idx := by
  rw [pairWord_eq b1 b2 idx h1 h2 hi, and_fffff]
  omega

theorem list_len2_shape : ∀ (t : List Nat), t.length = 2 → ∃ x y, t = [x, y] := by
  intro t ht
  cases t with
  | nil => simp at ht
  | cons x t2 =>
    cases t2 with
    | nil => simp at ht
    | cons y t3 =>
      cases t3 with
      | nil => exact ⟨x, y, rfl⟩
      | cons z t4 => simp at ht

/-- Membership in the pair list, in terms of the token list. -/
theorem mem_createPairList (tokens : List (List Nat)) (p : Nat) :
    p ∈ createPairList tokens ↔
    ∃ (j : Nat) (hj : j < tokens.length), 256 ≤ j ∧
      (tokens.get ⟨j, hj⟩).length = 2 ∧
      p = pairWord (tokens.get ⟨j, hj⟩) j := by
  rw [createPairList, mem_sortInts, mem_createPairListAux]
  constructor
  · rintro ⟨j, hj, hl, he⟩
    have hj2 : 256 + j < tokens.length := by
      rw [List.length_drop] at hj
      omega
    have hget : (tokens.drop 256).get ⟨j, hj⟩ = tokens.get ⟨256 + j, hj2⟩ := by
      simp [List.get_eq_getElem, List.getElem_drop]
    refine ⟨256 + j, hj2, by omega, ?_, ?_⟩
    · rw [← hget]
      exact hl
    · rw [he, hget]
  · rintro ⟨j, hj, h256, hl, he⟩
    have hj2 : j - 256 < (tokens.drop 256).length := by
      rw [List.length_drop]
      omega
    have hidx : 256 + (j - 256) = j := by omega
    have hget : (tokens.drop 256).get ⟨j - 256, hj2⟩ = tokens.get ⟨j, hj⟩ := by
      simp only [List.get_eq_getElem, List.getElem_drop, hidx]
    refine ⟨j - 256, hj2, by rw [hget]; exact hl, ?_⟩
    rw [hget, hidx]
    exact he

/-- `getD` on a replicated list whose element is the default. -/
theorem getD_replicate_self : ∀ (n k : Nat) (x : Int),
    (List.replicate n x).getD k x = x := by
  intro n
  induction n with
  | zero =>
    intro k x
    rfl
  | succ m ih =>
    intro k x
    cases k with
    | zero => rfl
    | succ k2 => exact ih k2 x

/-- The inflated pair table: either no 2-byte token `[b1, b2]` exists
at index `≥ 256` and the entry is `-1`, or the entry is the index of
that token. -/
theorem pairsToToken_spec (tokens : List (List Nat))
    (htok : ∀ tok ∈ tokens, ∀ b ∈ tok, b < 256)
    (hcnt : tokens.length ≤ 2 ^ 20)
    (hnodup : tokens.Nodup) (b1 b2 : Nat) (hb1 : b1 < 256) (hb2 : b2 < 256) :
    ((∀ (j : Nat) (hj : j < tokens.length), 256 ≤ j →
        tokens.get ⟨j, hj⟩ ≠ [b1, b2]) ∧
      PairRank (pairsToToken tokens) b1 b2 = -1) ∨
    (∃ (j : Nat) (hj : j < tokens.length), 256 ≤ j ∧
      tokens.get ⟨j, hj⟩ = [b1, b2] ∧
      PairRank (pairsToToken tokens) b1 b2 = Int.ofNat j) := by
  by_cases hex : ∃ (j : Nat) (hj : j < tokens.length), 256 ≤ j ∧
      tokens.get ⟨j, hj⟩ = [b1, b2]
  · right
    obtain ⟨j, hj, h256, hget⟩ := hex
    have hjlt : j < 2 ^ 20 := by omega
    have hp0mem : pairWord [b1, b2] j ∈ createPairList tokens := by
      rw [mem_createPairList]
      refine ⟨j, hj, h256, ?_, ?_⟩
      · rw [hget]
        rfl
      · rw [hget]
    have hp0key : pairWord [b1, b2] j >>> 20 = (b1 <<< 8) ||| b2 :=
      pairWord_shift b1 b2 j hb1 hb2 hjlt
    have hkeq : (b1 <<< 8) ||| b2 = b1 * 256 + b2 := pairKey_eq b1 b2 hb2
    have huniq : ∀ p ∈ createPairList tokens, p >>> 20 = (b1 <<< 8) ||| b2 →
        p = pairWord [b1, b2] j := by
      intro p hp hpk
      rw [mem_createPairList] at hp
      obtain ⟨j2, hj2, h256b, hl2, he2⟩ := hp
      obtain ⟨x, y, hxy⟩ := list_len2_shape _ hl2
      have hx : x < 256 := htok _ (tokens.get_mem _ _) x (by rw [hxy]; simp)
      have hy : y < 256 := htok _ (tokens.get_mem _ _) y (by rw [hxy]; simp)
      have hj2lt : j2 < 2 ^ 20 := by omega
      rw [hxy] at he2
      rw [he2, pairWord_shift x y j2 hx hy hj2lt, pairKey_eq x y hy,
        hkeq] at hpk
      have hxb : x = b1 ∧ y = b2 := by omega
      obtain ⟨hxb1, hyb2⟩ := hxb
      subst hxb1
      subst hyb2
      have hteq : tokens.get ⟨j2, hj2⟩ = tokens.get ⟨j, hj⟩ := by
        rw [hxy, hget]
      have hfin : (⟨j2, hj2⟩ : Fin tokens.length) = ⟨j, hj⟩ :=
        (List.Nodup.get_inj_iff hnodup).1 hteq
      have hjj : j2 = j := by
        have h3 := congrArg Fin.val hfin
        simpa using h3
      subst hjj
      exact he2
    have hrank : PairRank (pairsToToken tokens) b1 b2 =
        Int.ofNat (pairWord [b1, b2] j &&& 0xfffff) := by
      show (inflatePairs (createPairList tokens)
        (List.replicate 65536 (-1))).getD ((b1 <<< 8) ||| b2) (-1) = _
      exact inflatePairs_getD_one _ _ _ (-1) _ hp0mem hp0key huniq
        (by rw [List.length_replicate, hkeq]; omega)
    rw [pairWord_mask b1 b2 j hb1 hb2 hjlt] at hrank
    exact ⟨j, hj, h256, hget, hrank⟩
  · left
    push_neg at hex
    refine ⟨hex, ?_⟩
    have hnone : ∀ p ∈ createPairList tokens,
        p >>> 20 ≠ (b1 <<< 8) ||| b2 := by
      intro p hp hpk
      rw [mem_createPairList] at hp
      obtain ⟨j2, hj2, h256b, hl2, he2⟩ := hp
      obtain ⟨x, y, hxy⟩ := list_len2_shape _ hl2
      have hx : x < 256 := htok _ (tokens.get_mem _ _) x (by rw [hxy]; simp)
      have hy : y < 256 := htok _ (tokens.get_mem _ _) y (by rw [hxy]; simp)
      have hj2lt : j2 < 2 ^ 20 := by omega
      rw [hxy] at he2
      rw [he2, pairWord_shift x y j2 hx hy hj2lt, pairKey_eq x y hy,
        pairKey_eq b1 b2 hb2] at hpk
      have hxb : x = b1 ∧ y = b2 := by omega
      refine hex j2 hj2 h256b ?_
      rw [hxy, hxb.1, hxb.2]
    show (inflatePairs (createPairList tokens)
      (List.replicate 65536 (-1))).getD ((b1 <<< 8) ||| b2) (-1) = -1
    rw [inflatePairs_getD_none _ _ _ _ hnone]
    exact getD_replicate_self 65536 ((b1 <<< 8) ||| b2) (-1)

/-- C4: for every byte pair `(b1, b2)` over a vocabulary whose first
256 entries are single bytes and whose entries are distinct: the
pair table entry is `-1` (ABSENT) exactly when `[b1, b2]` is not a
vocabulary entry, in which case the serialized-trie lookup returns
`-1`; and when the entry is not ABSENT it equals the serialized-trie
lookup of `[b1, b2]` (no false positives). -/
theorem claim_C4_pair_table_agreement (tokens : List (List Nat))
    (htok : ∀ tok ∈ tokens, ∀ b ∈ tok, b < 256)
    (hcnt : tokens.length ≤ 2 ^ 20)
    (hsz : sizeAccNode (BuildTrie tokens) ≤ 2 ^ 23)
    (hroot : (BuildTrie tokens).children.length ≠ 0)
    (hfirst : ∀ (j : Nat) (hj : j < tokens.length), j < 256 →
      (tokens.get ⟨j, hj⟩).length = 1)
    (hnodup : tokens.Nodup)
    (b1 b2 : Nat) (hb1 : b1 < 256) (hb2 : b2 < 256) :
    (PairRank (pairsToToken tokens) b1 b2 = -1 →
      TrieLookup (BuildTrie tokens).serialize [b1, b2] = -1) ∧
    (PairRank (pairsToToken tokens) b1 b2 ≠ -1 →
      TrieLookup (BuildTrie tokens).serialize [b1, b2] =
        PairRank (pairsToToken tokens) b1 b2) := by
  have hcnt23 : tokens.length ≤ 2 ^ 23 := le_trans hcnt (by norm_num)
  have hkb : ∀ b ∈ ([b1, b2] : List Nat), b < 256 := by
    intro b hb
    simp at hb
    rcases hb with h | h <;> omega
  rcases pairsToToken_spec tokens htok hcnt hnodup b1 b2 hb1 hb2 with
    ⟨hnm, hrank⟩ | ⟨j, hj, h256, hget, hrank⟩
  · constructor
    · intro _
      have hnotin : ([b1, b2] : List Nat) ∉ tokens := by
        intro hmem
        obtain ⟨⟨j2, hj2⟩, he⟩ := List.mem_iff_get.1 hmem
        rcases Nat.lt_or_ge j2 256 with hlt | hge
        · have hone := hfirst j2 hj2 hlt
          rw [he] at hone
          simp at hone
        · exact hnm j2 hj2 hge he
      rw [serialized_BuildTrie_lookup tokens _ htok hcnt23 hsz hroot
        (by simp) hkb]
      show (BuildTrieAux (newTrieNode 0) tokens 0).lookup [b1, b2] = -1
      rw [BuildTrieAux_lookup_notmem tokens (newTrieNode 0) 0 _ hnotin
        (WFT_new 0)]
      exact lookup_new 0 [b1, b2]
    · intro hne
      exact absurd hrank hne
  · have hlast : ∀ j2 (hj2 : j2 < tokens.length), j < j2 →
        tokens.get ⟨j2, hj2⟩ ≠ tokens.get ⟨j, hj⟩ := by
      intro j2 hj2 hgt he
      have hfin : (⟨j2, hj2⟩ : Fin tokens.length) = ⟨j, hj⟩ :=
        (List.Nodup.get_inj_iff hnodup).1 he
      have h3 := congrArg Fin.val hfin
      simp at h3
      omega
    have hl : TrieLookup (BuildTrie tokens).serialize
        (tokens.get ⟨j, hj⟩) = Int.ofNat j := by
      rw [serialized_BuildTrie_lookup tokens _ htok hcnt23 hsz hroot
        (by rw [hget]; simp) (htok _ (tokens.get_mem _ _))]
      have h2 := BuildTrieAux_lookup_at tokens (newTrieNode 0) 0 j hj
        (WFT_new 0) hlast
      show (BuildTrieAux (newTrieNode 0) tokens 0).lookup
        (tokens.get ⟨j, hj⟩) = Int.ofNat j
      rw [h2]
      congr 1
      omega
    rw [hget] at hl
    constructor
    · intro habs
      rw [hrank] at habs
      rw [show Int.ofNat j = (j : Int) from rfl] at habs
      omega
    · intro _
      rw [hrank, hl]

theorem claim_C4_pair_table_agreement_witness :
    (([[97], [98]] : List (List Nat)).Nodup) ∧
    ((PairRank (pairsToToken [[97], [98]]) 97 98 = -1 →
        TrieLookup (BuildTrie [[97], [98]]).serialize [97, 98] = -1) ∧
      (PairRank (pairsToToken [[97], [98]]) 97 98 ≠ -1 →
        TrieLookup (BuildTrie [[97], [98]]).serialize [97, 98] =
          PairRank (pairsToToken [[97], [98]]) 97 98)) :=
  ⟨by decide, claim_C4_pair_table_agreement [[97], [98]] (by decide)
    (by decide) (by decide) (by decide) (by decide) (by decide) 97 98
    (by decide) (by decide)⟩

/-! ### The BPE tokenizer facade (`internal/bpeTokenizer.go` is not in
the tree; these definitions are modelled from the spec) -/

/-- Modelled from the spec: the error values of `Encode` / `Decode`. -/
inductive TokErr where
  | SpecialTokenEncountered : TokErr
  | InvalidToken : TokErr
deriving DecidableEq

/-- Modelled from the spec: the per-encoding parameter record:
splitter choice, decoder table (id → bytes), special-token literals,
the allow-special-as-text policy flag, the byte → token bootstrap, the
trie-backed rank lookup and the byte-pair table lookup. -/
structure BPEParams where
  splitter : List Nat → List (List Nat)
  tokenList : List (List Nat)
  specials : List (List Nat)
  allowSpecialAsText : Bool
  bootstrap : Nat → Int
  rank : List Nat → Int
  pairRank : Nat → Nat → Int

/-- Modelled from the spec: byte-string prefix test. -/
def hasPrefixB : List Nat → List Nat → Bool
  | [], _ => true
  | _ :: _, [] => false
  | p :: ps, s :: ss => p == s && hasPrefixB ps ss

/-- Modelled from the spec: the special-token scan detects a literal
occurring as a contiguous substring. -/
def containsSub (pat : List Nat) : List Nat → Bool
  | [] => hasPrefixB pat []
  | s :: ss => hasPrefixB pat (s :: ss) || containsSub pat ss

/-- Modelled from the spec: scan the adjacent pairs for the lowest
nonnegative rank; on ties the leftmost wins.  Returns the pair's index
and its rank. -/
def bestPairAux (rank : List Nat → Int) :
    List (Int × List Nat) → Nat → Option (Nat × Int)
  | x :: y :: rest, i =>
    let r := rank (x.2 ++ y.2)
    let best := bestPairAux rank (y :: rest) (i + 1)
    if 0 ≤ r then
      match best with
      | none => some (i, r)
      | some (j, rj) => if r ≤ rj then some (i, r) else some (j, rj)
    else best
  | _, _ => none

/-- Modelled from the spec: replace the adjacent pair at index `i` by
one element whose id is the rank of the concatenated span. -/
def mergeAt (rank : List Nat → Int) :
    List (Int × List Nat) → Nat → List (Int × List Nat)
  | x :: y :: rest, 0 => (rank (x.2 ++ y.2), x.2 ++ y.2) :: rest
  | x :: rest, i + 1 => x :: mergeAt rank rest i
  | l, _ => l

/-- Modelled from the spec: repeatedly merge the best adjacent pair;
stop when no adjacent pair has a rank. -/
def mergeLoop (rank : List Nat → Int) :
    Nat → List (Int × List Nat) → List (Int × List Nat)
  | 0, l => l
  | fuel + 1, l =>
    match bestPairAux rank l 0 with
    | none => l
    | some (i, _) => mergeLoop rank fuel (mergeAt rank l i)

/-- Modelled from the spec: BPE of one pre-token: `n ≤ 2` via the
bootstrap and pair table, `n ≥ 3` via ranked pair merging on
`(tokenId, span)` elements. -/
def bpe (P : BPEParams) (B : List Nat) : List Int :=
  match B with
  | [] => []
  | [b] => [P.bootstrap b]
  | [b1, b2] =>
    if 0 ≤ P.pairRank b1 b2 then [P.pairRank b1 b2]
    else [P.bootstrap b1, P.bootstrap b2]
  | _ => (mergeLoop P.rank B.length
      (B.map (fun b => (P.bootstrap b, [b])))).map Prod.fst

/-- Modelled from the spec: `Encode`: special-scan, then per chunk
splitter → BPE, concatenated.  With allow-special-as-text the scan
never fails; otherwise any special literal in the input fails the
call with `SpecialTokenEncountered`. -/
def Encode (P : BPEParams) (s : List Nat) : Except TokErr (List Int) :=
  if P.allowSpecialAsText then
    Except.ok (((P.splitter s).map (bpe P)).join)
  else if P.specials.any (fun sp => containsSub sp s) then
    Except.error TokErr.SpecialTokenEncountered
  else
    Except.ok (((P.splitter s).map (bpe P)).join)

/-- Modelled from the spec: `Decode`: each vocabulary id emits its
bytes, anything else is `InvalidToken` (special-token ids are outside
the claims modelled here). -/
def Decode (P : BPEParams) : List Int → Except TokErr (List Nat)
  | [] => Except.ok []
  | id :: rest =>
    if h : 0 ≤ id ∧ id.toNat < P.tokenList.length then
      match Decode P rest with
      | Except.ok bs => Except.ok (P.tokenList.get ⟨id.toNat, h.2⟩ ++ bs)
      | Except.error e => Except.error e
    else Except.error TokErr.InvalidToken

/-- Modelled from the spec: `Count` returns `|Encode(s)|` and masks
errors by returning `0`. -/
def Count (P : BPEParams) (s : List Nat) : Nat :=
  match Encode P s with
  | Except.ok ids => ids.length
  | Except.error _ => 0

/-- Every element's id is a vocabulary id decoding to its span. -/
def ElemsOk (P : BPEParams) (l : List (Int × List Nat)) : Prop :=
  ∀ e ∈ l, 0 ≤ e.1 ∧ e.1.toNat < P.tokenList.length ∧
    P.tokenList.getD e.1.toNat [] = e.2

/-- Nonnegative ranks are sound for the decoder table (provided by the
serialized trie, cf. `serialized_BuildTrie_lookup`). -/
def RankOk (P : BPEParams) : Prop :=
  ∀ key, 0 ≤ P.rank key → (P.rank key).toNat < P.tokenList.length ∧
    P.tokenList.getD (P.rank key).toNat [] = key

/-- `join` of a cons, by unfolding. -/
theorem join_cons_eq {α : Type} (a : List α) (L : List (List α)) :
    (a :: L).join = a ++ L.join := rfl

/-- A successful pair scan returns an in-range index whose adjacent
pair has a nonnegative rank, and returns exactly that rank. -/
theorem bestPairAux_spec (rank : List Nat → Int) :
    ∀ (l : List (Int × List Nat)) (i0 j : Nat) (r : Int),
      bestPairAux rank l i0 = some (j, r) →
      i0 ≤ j ∧ j - i0 + 1 < l.length ∧
      r = rank ((l.getD (j - i0) (-1, [])).2 ++
        (l.getD (j - i0 + 1) (-1, [])).2) ∧ 0 ≤ r := by
  intro l
  induction l with
  | nil =>
    intro i0 j r h
    simp [bestPairAux] at h
  | cons x rest ih =>
    intro i0 j r h
    cases rest with
    | nil =>
      simp [bestPairAux] at h
    | cons y rest2 =>
      simp only [bestPairAux] at h
      rcases hb : bestPairAux rank (y :: rest2) (i0 + 1) with _ | ⟨j2, rj⟩ <;>
        rw [hb] at h <;> dsimp only at h
      · split at h
        · next hr =>
          simp only [Option.some.injEq, Prod.mk.injEq] at h
          obtain ⟨hj, hr2⟩ := h
          subst hj
          subst hr2
          refine ⟨le_refl _, by simp only [List.length_cons]; omega, ?_, hr⟩
          simp only [Nat.sub_self, List.getD_cons_zero, Nat.zero_add,
            List.getD_cons_succ]
        · simp at h
      · obtain ⟨hle2, hlen2, hrb, hrnn⟩ := ih (i0 + 1) j2 rj hb
        have hlift : i0 ≤ j2 → (j2 - i0 + 1 < (x :: y :: rest2).length ∧
            rj = rank (((x :: y :: rest2).getD (j2 - i0) (-1, [])).2 ++
              ((x :: y :: rest2).getD (j2 - i0 + 1) (-1, [])).2)) := by
          intro _
          have hk : j2 - i0 = j2 - (i0 + 1) + 1 := by omega
          constructor
          · simp only [List.length_cons] at hlen2 ⊢
            omega
          · rw [hk, List.getD_cons_succ,
              show j2 - (i0 + 1) + 1 + 1 = (j2 - (i0 + 1) + 1) + 1 from rfl,
              List.getD_cons_succ]
            exact hrb
        split at h
        · next hr =>
          split at h
          · next hrle =>
            simp only [Option.some.injEq, Prod.mk.injEq] at h
            obtain ⟨hj, hr2⟩ := h
            subst hj
            subst hr2
            refine ⟨le_refl _, by simp only [List.length_cons]; omega, ?_, hr⟩
            simp only [Nat.sub_self, List.getD_cons_zero, Nat.zero_add,
              List.getD_cons_succ]
          · next hrle =>
            simp only [Option.some.injEq, Prod.mk.injEq] at h
            obtain ⟨hj, hr2⟩ := h
            subst hj
            subst hr2
            obtain ⟨hA, hB⟩ := hlift (by omega)
            exact ⟨by omega, hA, hB, hrnn⟩
        · simp only [Option.some.injEq, Prod.mk.injEq] at h
          obtain ⟨hj, hr2⟩ := h
          subst hj
          subst hr2
          obtain ⟨hA, hB⟩ := hlift (by omega)
          exact ⟨by omega, hA, hB, hrnn⟩

/-- `mergeAt` preserves element validity and the concatenation of the
spans, when the merged pair's rank is nonnegative. -/
theorem mergeAt_elems (P : BPEParams) (hR : RankOk P) :
    ∀ (l : List (Int × List Nat)) (i : Nat), ElemsOk P l →
      (i + 1 < l.length →
        0 ≤ P.rank ((l.getD i (-1, [])).2 ++ (l.getD (i + 1) (-1, [])).2)) →
      ElemsOk P (mergeAt P.rank l i) ∧
      ((mergeAt P.rank l i).map Prod.snd).join = (l.map Prod.snd).join := by
  intro l
  induction l with
  | nil =>
    intro i hok _
    exact ⟨hok, rfl⟩
  | cons x rest ih =>
    intro i hok hrank
    cases rest with
    | nil =>
      cases i with
      | zero => exact ⟨hok, rfl⟩
      | succ i2 =>
        refine ⟨?_, rfl⟩
        intro e he
        simp only [mergeAt] at he
        exact hok e he
    | cons y rest2 =>
      cases i with
      | zero =>
        have hr0 := hrank (by simp only [List.length_cons]; omega)
        simp only [List.getD_cons_zero, Nat.zero_add, List.getD_cons_succ] at hr0
        simp only [mergeAt]
        constructor
        · intro e he
          rcases List.mem_cons.1 he with h | h
          · subst h
            obtain ⟨h1, h2⟩ := hR (x.2 ++ y.2) hr0
            exact ⟨hr0, h1, h2⟩
          · exact hok e (by simp [h])
        · simp only [List.map_cons, join_cons_eq]
          rw [List.append_assoc]
      | succ i2 =>
        simp only [mergeAt]
        have hok2 : ElemsOk P (y :: rest2) := fun e he => hok e (by simp [he])
        have hrank2 : i2 + 1 < (y :: rest2).length →
            0 ≤ P.rank (((y :: rest2).getD i2 (-1, [])).2 ++
              ((y :: rest2).getD (i2 + 1) (-1, [])).2) := by
          intro hlen
          have := hrank (by simp only [List.length_cons] at hlen ⊢; omega)
          simpa using this
        obtain ⟨hA, hB⟩ := ih i2 hok2 hrank2
        constructor
        · intro e he
          rcases List.mem_cons.1 he with h | h
          · subst h
            exact hok e (by simp)
          · exact hA e h
        · simp only [List.map_cons, join_cons_eq]
          rw [hB]
          simp only [List.map_cons, join_cons_eq]

/-- The merge loop preserves element validity and the span
concatenation. -/
theorem mergeLoop_elems (P : BPEParams) (hR : RankOk P) :
    ∀ (fuel : Nat) (l : List (Int × List Nat)), ElemsOk P l →
      ElemsOk P (mergeLoop P.rank fuel l) ∧
      ((mergeLoop P.rank fuel l).map Prod.snd).join =
        (l.map Prod.snd).join := by
  intro fuel
  induction fuel with
  | zero =>
    intro l hok
    exact ⟨hok, rfl⟩
  | succ m ih =>
    intro l hok
    simp only [mergeLoop]
    rcases hb : bestPairAux P.rank l 0 with _ | ⟨i, r⟩
    · exact ⟨hok, rfl⟩
    · obtain ⟨_, hlen, hrb, hrnn⟩ := bestPairAux_spec P.rank l 0 i r hb
      simp only [Nat.sub_zero] at hlen hrb
      obtain ⟨hA, hB⟩ := mergeAt_elems P hR l i hok
        (fun _ => by rw [← hrb]; exact hrnn)
      obtain ⟨hC, hD⟩ := ih (mergeAt P.rank l i) hA
      exact ⟨hC, by rw [hD, hB]⟩

/-- Joining singleton spans gives back the byte string. -/
theorem join_singletons : ∀ (L : List Nat), (L.map (fun b => [b])).join = L := by
  intro L
  induction L with
  | nil => rfl
  | cons a L ihL => simp [ihL]

/-- Decoding a list of valid elements yields the joined spans. -/
theorem Decode_elems (P : BPEParams) :
    ∀ l, ElemsOk P l →
      Decode P (l.map Prod.fst) = Except.ok ((l.map Prod.snd).join) := by
  intro l
  induction l with
  | nil =>
    intro _
    rfl
  | cons e l ih =>
    intro hok
    obtain ⟨h1, h2, h3⟩ := hok e (by simp)
    have hrest := ih (fun e2 he2 => hok e2 (by simp [he2]))
    have hgd : P.tokenList.get ⟨e.1.toNat, h2⟩ = e.2 := by
      have h4 : P.tokenList.getD e.1.toNat [] = P.tokenList[e.1.toNat] :=
        List.getD_eq_getElem _ _ (by simpa using h2)
      rw [List.get_eq_getElem, ← h4, h3]
    simp only [List.map_cons, Decode, join_cons_eq]
    rw [dif_pos ⟨h1, h2⟩, hrest]
    dsimp only
    rw [hgd]

/-- `Decode` distributes over append on successful inputs. -/
theorem Decode_append (P : BPEParams) :
    ∀ (l1 l2 : List Int) (a b : List Nat), Decode P l1 = Except.ok a →
      Decode P l2 = Except.ok b → Decode P (l1 ++ l2) = Except.ok (a ++ b) := by
  intro l1
  induction l1 with
  | nil =>
    intro l2 a b h1 h2
    simp only [Decode] at h1
    injection h1 with h1'
    rw [List.nil_append, ← h1', List.nil_append]
    exact h2
  | cons id l1 ih =>
    intro l2 a b h1 h2
    simp only [Decode] at h1
    rw [List.cons_append]
    simp only [Decode]
    by_cases hc : 0 ≤ id ∧ id.toNat < P.tokenList.length
    · rw [dif_pos hc] at h1 ⊢
      rcases hd : Decode P l1 with e | bs
      · rw [hd] at h1
        dsimp only at h1
        exact absurd h1 (by simp)
      · rw [hd] at h1
        dsimp only at h1
        injection h1 with h1'
        rw [ih l2 bs b hd h2]
        dsimp only
        rw [← h1', List.append_assoc]
    · rw [dif_neg hc] at h1
      exact absurd h1 (by simp)

/-- `Decode` inverts the per-chunk BPE across a chunk list. -/
theorem Decode_join (P : BPEParams) :
    ∀ (chunks : List (List Nat)),
      (∀ B ∈ chunks, Decode P (bpe P B) = Except.ok B) →
      Decode P ((chunks.map (bpe P)).join) = Except.ok chunks.join := by
  intro chunks
  induction chunks with
  | nil =>
    intro _
    rfl
  | cons B chunks ih =>
    intro h
    simp only [List.map_cons, join_cons_eq]
    exact Decode_append P _ _ _ _ (h B (by simp))
      (ih (fun B2 hB2 => h B2 (by simp [hB2])))

/-- BPE of a pre-token decodes back to the pre-token, given sound
bootstrap, pair-table and rank lookups. -/
theorem bpe_decode (P : BPEParams) (hR : RankOk P)
    (hpair : ∀ b1 b2, 0 ≤ P.pairRank b1 b2 →
      (P.pairRank b1 b2).toNat < P.tokenList.length ∧
      P.tokenList.getD (P.pairRank b1 b2).toNat [] = [b1, b2])
    (B : List Nat)
    (hboot : ∀ b ∈ B, 0 ≤ P.bootstrap b ∧
      (P.bootstrap b).toNat < P.tokenList.length ∧
      P.tokenList.getD (P.bootstrap b).toNat [] = [b]) :
    Decode P (bpe P B) = Except.ok B := by
  have hone : ∀ (id : Int) (bs : List Nat), 0 ≤ id →
      (h2 : id.toNat < P.tokenList.length) →
      P.tokenList.getD id.toNat [] = bs →
      Decode P [id] = Except.ok bs := by
    intro id bs h1 h2 h3
    have hgd : P.tokenList.get ⟨id.toNat, h2⟩ = bs := by
      have h4 : P.tokenList.getD id.toNat [] = P.tokenList[id.toNat] :=
        List.getD_eq_getElem _ _ (by simpa using h2)
      rw [List.get_eq_getElem, ← h4, h3]
    simp only [Decode]
    rw [dif_pos ⟨h1, h2⟩]
    dsimp only
    rw [hgd, List.append_nil]
  cases B with
  | nil => rfl
  | cons b1 B2 =>
    cases B2 with
    | nil =>
      obtain ⟨h1, h2, h3⟩ := hboot b1 (by simp)
      simp only [bpe]
      exact hone _ _ h1 h2 h3
    | cons b2 B3 =>
      cases B3 with
      | nil =>
        obtain ⟨ha1, ha2, ha3⟩ := hboot b1 (by simp)
        obtain ⟨hb1, hb2, hb3⟩ := hboot b2 (by simp)
        simp only [bpe]
        by_cases hp : 0 ≤ P.pairRank b1 b2
        · rw [if_pos hp]
          obtain ⟨hc2, hc3⟩ := hpair b1 b2 hp
          exact hone _ _ hp hc2 hc3
        · rw [if_neg hp]
          have hd2 := hone _ _ hb1 hb2 hb3
          simp only [Decode]
          rw [dif_pos ⟨ha1, ha2⟩]
          simp only [Decode] at hd2
          rw [hd2]
          dsimp only
          have hgd : P.tokenList.get ⟨(P.bootstrap b1).toNat, ha2⟩ = [b1] := by
            have h4 : P.tokenList.getD (P.bootstrap b1).toNat [] =
                P.tokenList[(P.bootstrap b1).toNat] :=
              List.getD_eq_getElem _ _ (by simpa using ha2)
            rw [List.get_eq_getElem, ← h4, ha3]
          rw [hgd]
          rfl
      | cons b3 rest =>
        have hinit : ElemsOk P ((b1 :: b2 :: b3 :: rest).map
            (fun b => (P.bootstrap b, [b]))) := by
          intro e he
          simp only [List.mem_map] at he
          obtain ⟨b, hbm, hbe⟩ := he
          obtain ⟨h1, h2, h3⟩ := hboot b hbm
          subst hbe
          exact ⟨h1, h2, h3⟩
        obtain ⟨hA, hB⟩ := mergeLoop_elems P hR
          (b1 :: b2 :: b3 :: rest).length _ hinit
        simp only [bpe]
        rw [Decode_elems P _ hA, hB]
        rw [List.map_map]
        have hcomp : (Prod.snd ∘ fun b => ((P.bootstrap b : Int), [b])) =
            fun b => [b] := rfl
        rw [hcomp, join_singletons]

/-- C1: Modelled from the spec: with the allow-special-as-text policy
and sound splitter/bootstrap/pair/rank parameters, `Encode` succeeds
on every byte string (invalid UTF-8 included — no condition on the
bytes beyond bootstrap coverage), and `Decode` of its output
reproduces the input byte-for-byte. -/
theorem claim_C1_roundtrip (P : BPEParams) (s : List Nat)
    (hallow : P.allowSpecialAsText = true)
    (hsplit : ∀ t : List Nat, (P.splitter t).join = t)
    (hR : RankOk P)
    (hpair : ∀ b1 b2, 0 ≤ P.pairRank b1 b2 →
      (P.pairRank b1 b2).toNat < P.tokenList.length ∧
      P.tokenList.getD (P.pairRank b1 b2).toNat [] = [b1, b2])
    (hboot : ∀ b ∈ s, 0 ≤ P.bootstrap b ∧
      (P.bootstrap b).toNat < P.tokenList.length ∧
      P.tokenList.getD (P.bootstrap b).toNat [] = [b]) :
    ∃ ids, Encode P s = Except.ok ids ∧ Decode P ids = Except.ok s := by
  refine ⟨((P.splitter s).map (bpe P)).join, ?_, ?_⟩
  · simp only [Encode, hallow]
    rfl
  · have hchunks : ∀ B ∈ P.splitter s, Decode P (bpe P B) = Except.ok B := by
      intro B hB
      refine bpe_decode P hR hpair B ?_
      intro b hb
      refine hboot b ?_
      rw [← hsplit s]
      exact List.mem_join.2 ⟨B, hB, hb⟩
    have hj := Decode_join P (P.splitter s) hchunks
    rw [hsplit s] at hj
    exact hj

/-- C9: Modelled from the spec: `Count(s)` equals the length of the
token list whenever `Encode(s)` succeeds, and `Count(s) = 0` whenever
`Encode(s)` returns an error. -/
theorem claim_C9_count_consistency (P : BPEParams) (s : List Nat) :
    (∀ ids, Encode P s = Except.ok ids → Count P s = ids.length) ∧
    (∀ e, Encode P s = Except.error e → Count P s = 0) := by
  constructor
  · intro ids h
    simp [Count, h]
  · intro e h
    simp [Count, h]

/-- A concrete allow-as-text tokenizer over the vocabulary
`[[97], [192]]` (`192` starts an invalid UTF-8 sequence). -/
def bpeP1 : BPEParams :=
  BPEParams.mk GPT2Splitter [[97], [192]] [] true
    (fun b => if b = 97 then 0 else if b = 192 then 1 else -1)
    (fun _ => -1) (fun _ _ => -1)

/-- The same tokenizer with the default policy and `<` registered as a
special literal. -/
def bpeP2 : BPEParams :=
  BPEParams.mk GPT2Splitter [[97], [192]] [[60]] false
    (fun b => if b = 97 then 0 else if b = 192 then 1 else -1)
    (fun _ => -1) (fun _ _ => -1)

theorem claim_C1_roundtrip_witness :
    bpeP1.allowSpecialAsText = true ∧
    (∃ ids, Encode bpeP1 [97, 192] = Except.ok ids ∧
      Decode bpeP1 ids = Except.ok [97, 192]) :=
  ⟨by decide, claim_C1_roundtrip bpeP1 [97, 192] (by decide)
    (fun t => splitWith_join GPT2.getMatchLength
      (fun l hl => (GPT2.getMatchLength_bounds_gpt2 l hl).1) t.length t
      (le_refl _))
    (by intro key h; exact absurd h (show ¬(0 : Int) ≤ -1 by decide))
    (by intro b1 b2 h; exact absurd h (show ¬(0 : Int) ≤ -1 by decide))
    (by decide)⟩

theorem claim_C9_count_consistency_witness :
    (Encode bpeP1 [97] = Except.ok [0] ∧ Count bpeP1 [97] = 1) ∧
    (Encode bpeP2 [60] = Except.error TokErr.SpecialTokenEncountered ∧
      Count bpeP2 [60] = 0) :=
  ⟨⟨rfl, (claim_C9_count_consistency bpeP1 [97]).1 [0] rfl⟩,
   ⟨rfl, (claim_C9_count_consistency bpeP2 [60]).2
      TokErr.SpecialTokenEncountered rfl⟩⟩

end Gotoken














